import Mathlib

/-!
# Interactive Rubik's cube: move scheduler, face-membership state machine, poses

A shallow embedding of the puzzle engine of `src/main.cpp` (the globals, `reset_cubes`,
`play`, the twelve `rotate_*` priming functions, the key callbacks that enqueue a move,
`key_callback_SPACE`, and `mouse_button_callback` with its picking loops and its gesture
table), followed by theorems about it.

Modelling conventions.

* `std::unordered_set<int>` is a duplicate-free `List Nat`; iteration runs through the list
  front to back, `insert` puts a new element at the front, `erase` removes it.  Statements
  about the face sets are statements about membership, so they do not depend on this order.
* `Eigen::Matrix4f` is a 4x4 matrix of rationals and all arithmetic is exact.  The values
  `cos (pi/2 * f/23)` and `sin (pi/2 * f/23)` that `Eigen::AngleAxis` computes for the pose
  number `f` are supplied by a table `Trig`; `Trig.Exact` says that the table is exact at
  the two ends of a quarter turn (`f = 0` and `f = 23`).  The table `floatTrig` holds the
  values of `float` arithmetic, which is not exact at `f = 23`.
* The wall clock is an input: `play tr time s` is one call of `play()` in which the value of
  the local variable `time` (elapsed seconds times 24) is `time`.
* Undefined behaviour of the C++ program (`front()`/`pop()` of an empty queue, an index
  outside `frames` or `cubes`, a triangle that names a column outside `V`) is the result
  `none`.
* The pointer position enters `mouse_button_callback` as the pair `(xcanonical,
  ycanonical)` that the callback computes from the cursor position and the window size.
  The inverse of a `Matrix3f` with determinant 0 has no value: in IEEE arithmetic its
  entries are infinite or NaN, and so are the entries of `ans`, on which the test of the
  picking loop fails (`ieeeHit_singular`; `ieeeAnswer_regular` for any other determinant).
  The matrix `view_original.inverse()`, whose entries are not rational, is an input.
-/

namespace Rubik

/-! ## Data model -/

/-- Transform matrices (`Eigen::Matrix4f`), with exact rational entries. -/
abbrev Mat := Matrix (Fin 4) (Fin 4) ℚ

/-- The six face codes `FR 0`, `BA 1`, `RI 2`, `LE 3`, `UP 4`, `DO 5` of the source. -/
inductive Face where
  | FR | BA | RI | LE | UP | DO
  deriving DecidableEq, Repr

/-- The number of poses of one animated turn (`#define FRAME_NUM 24`). -/
def FRAME_NUM : Nat := 24

/-- The coordinate axes `Eigen::Vector3f::UnitX()`, `UnitY()`, `UnitZ()`. -/
inductive Axis where
  | X | Y | Z
  deriving DecidableEq, Repr

/-- The six global `std::unordered_set<int>` face sets. -/
structure FaceSets where
  right_faces : List Nat
  left_faces : List Nat
  front_faces : List Nat
  back_faces : List Nat
  up_faces : List Nat
  down_faces : List Nat
  deriving DecidableEq, Repr

/-- The face set with a given face code. -/
def FaceSets.get (F : FaceSets) : Face → List Nat
  | .FR => F.front_faces
  | .BA => F.back_faces
  | .RI => F.right_faces
  | .LE => F.left_faces
  | .UP => F.up_faces
  | .DO => F.down_faces

/-- Replace the face set with a given face code. -/
def FaceSets.set (F : FaceSets) (f : Face) (l : List Nat) : FaceSets :=
  match f with
  | .FR => { F with front_faces := l }
  | .BA => { F with back_faces := l }
  | .RI => { F with right_faces := l }
  | .LE => { F with left_faces := l }
  | .UP => { F with up_faces := l }
  | .DO => { F with down_faces := l }

/-- The global variables of the engine.  `cubes` keeps the field `T` of every `Cube`;
`rotation_reversed` is the history stack with its top at the head of the list;
`rotation_options` and `rotation_started` are the two parallel queues, front at the head. -/
structure State where
  cubes : List Mat
  faces : FaceSets
  frames : List Mat
  frame_cnt : Int
  rotation_option : Int
  rotation_options : List Nat
  rotation_started : List Bool
  rotation_reversed : List Nat

/-- Table of the values of cosine and sine at the angle `pi/2 * f/23` of pose `f`. -/
structure Trig where
  cos : Nat → ℚ
  sin : Nat → ℚ

/-- The table is exact at both ends of the quarter turn: angle 0 and angle `pi/2`. -/
def Trig.Exact (tr : Trig) : Prop :=
  tr.cos 0 = 1 ∧ tr.sin 0 = 0 ∧ tr.cos (FRAME_NUM - 1) = 0 ∧ tr.sin (FRAME_NUM - 1) = 1

/-- The homogeneous matrix of the rotation about a coordinate axis by an angle with cosine
`c` and sine `s` (right-hand rule), as `Eigen::AngleAxis` builds it. -/
def rotation : Axis → ℚ → ℚ → Mat
  | .X, c, s => !![1, 0, 0, 0;
                   0, c, -s, 0;
                   0, s, c, 0;
                   0, 0, 0, 1]
  | .Y, c, s => !![c, 0, s, 0;
                   0, 1, 0, 0;
                   -s, 0, c, 0;
                   0, 0, 0, 1]
  | .Z, c, s => !![c, -s, 0, 0;
                   s, c, 0, 0;
                   0, 0, 1, 0;
                   0, 0, 0, 1]

/-- The matrix `Eigen::Affine3f(Eigen::AngleAxis<float>(sign * M_PI/2*f/(FRAME_NUM-1), axis)).matrix()`:
the rotation by the angle `sign * pi/2 * f/23` about a coordinate axis. -/
def angleAxis (tr : Trig) (sign : ℚ) (f : Nat) (ax : Axis) : Mat :=
  rotation ax (tr.cos f) (sign * tr.sin f)

/-! ## reset_cubes -/

/-- The face sets built at the end of `reset_cubes`: the arrays `f`, `b`, `r`, `l`, `u`, `d`
are inserted element by element, each new element going to the front. -/
def solvedFaces : FaceSets where
  front_faces := [26, 23, 20, 17, 14, 11, 8, 5, 2]
  back_faces := [24, 21, 18, 15, 12, 9, 6, 3, 0]
  right_faces := [26, 25, 24, 23, 22, 21, 20, 19, 18]
  left_faces := [8, 7, 6, 5, 4, 3, 2, 1, 0]
  up_faces := [26, 25, 24, 17, 16, 15, 8, 7, 6]
  down_faces := [20, 19, 18, 11, 10, 9, 2, 1, 0]

/-- The function `reset_cubes`.  The line `int rotation_option = -1;` of the source declares
a local variable, so the global `rotation_option` keeps its value. -/
def reset_cubes (s : State) : State where
  cubes := List.replicate 27 1
  faces := solvedFaces
  frames := []
  frame_cnt := -1
  rotation_option := s.rotation_option
  rotation_options := []
  rotation_started := []
  rotation_reversed := []

/-- The globals as initialised at program start, before `main` calls `reset_cubes`. -/
def startState : State where
  cubes := []
  faces := ⟨[], [], [], [], [], []⟩
  frames := []
  frame_cnt := -1
  rotation_option := -1
  rotation_options := []
  rotation_started := []
  rotation_reversed := []

/-- The state in which `main` enters its loop: `reset_cubes()` on the initial globals. -/
def resetState : State := reset_cubes startState

/-! ## Enqueueing and solve -/

/-- The body shared by `key_callback_F` .. `key_callback_D`, `key_callback_ccw` and the
gesture release: `rotation_options.push(m); rotation_started.push(false);`. -/
def enqueue (m : Nat) (s : State) : State :=
  { s with rotation_options := s.rotation_options ++ [m],
           rotation_started := s.rotation_started ++ [false] }

/-- The loop of `key_callback_SPACE` on the three containers it touches
(queue, started flags, history). -/
def solveLoop : List Nat → List Nat → List Bool → List Nat × List Bool × List Nat
  | [], q, st => (q, st, [])
  | top :: rest, q, st => solveLoop rest (q ++ [(top + 6) % 12]) (st ++ [false])

/-- The function `key_callback_SPACE` (on key release). -/
def key_callback_SPACE (s : State) : State :=
  let r := solveLoop s.rotation_reversed s.rotation_options s.rotation_started
  { s with rotation_options := r.1, rotation_started := r.2.1, rotation_reversed := r.2.2 }

/-! ## Priming: the twelve rotate functions -/

/-- The inner loop of a `rotate_*` function: the 24 poses of one cubie. -/
def poses (tr : Trig) (sign : ℚ) (ax : Axis) (T : Mat) : List Mat :=
  (List.range FRAME_NUM).map fun f => angleAxis tr sign f ax * T

/-- The outer loop of a `rotate_*` function over the turning face set: the poses of its
cubies are appended to `frames` in iteration order. -/
def primeLoop (tr : Trig) (sign : ℚ) (ax : Axis) (cubes : List Mat) :
    List Nat → Option (List Mat)
  | [] => some []
  | face :: rest =>
    match cubes[face]?, primeLoop tr sign ax cubes rest with
    | some T, some more => some (poses tr sign ax T ++ more)
    | _, _ => none

/-- The common body of the twelve `rotate_*` functions, for the turning face `face`, the
sign of the angle and the axis. -/
def rotate (tr : Trig) (face : Face) (sign : ℚ) (ax : Axis) (s : State) : Option State :=
  match s.rotation_started with
  | [] => none
  | true :: _ => some s
  | false :: rest =>
    match primeLoop tr sign ax s.cubes (s.faces.get face) with
    | some fr => some { s with frames := fr, frame_cnt := 0, rotation_started := true :: rest }
    | none => none

def rotate_front (tr : Trig) : State → Option State := rotate tr .FR (-1) .Z
def rotate_back (tr : Trig) : State → Option State := rotate tr .BA 1 .Z
def rotate_right (tr : Trig) : State → Option State := rotate tr .RI (-1) .X
def rotate_left (tr : Trig) : State → Option State := rotate tr .LE 1 .X
def rotate_up (tr : Trig) : State → Option State := rotate tr .UP (-1) .Y
def rotate_down (tr : Trig) : State → Option State := rotate tr .DO 1 .Y
def rotate_front_ccw (tr : Trig) : State → Option State := rotate tr .FR 1 .Z
def rotate_back_ccw (tr : Trig) : State → Option State := rotate tr .BA (-1) .Z
def rotate_right_ccw (tr : Trig) : State → Option State := rotate tr .RI 1 .X
def rotate_left_ccw (tr : Trig) : State → Option State := rotate tr .LE (-1) .X
def rotate_up_ccw (tr : Trig) : State → Option State := rotate tr .UP 1 .Y
def rotate_down_ccw (tr : Trig) : State → Option State := rotate tr .DO (-1) .Y

/-- The turning face of a move code, as used by both branches of `play`. -/
def turning : Nat → Option Face
  | 0 => some .FR | 1 => some .BA | 2 => some .RI | 3 => some .LE | 4 => some .UP | 5 => some .DO
  | 6 => some .FR | 7 => some .BA | 8 => some .RI | 9 => some .LE | 10 => some .UP | 11 => some .DO
  | _ => none

/-- The priming function that the interpolation branch of `play` calls for a move code. -/
def rotateOf (tr : Trig) : Nat → State → Option State
  | 0 => rotate_front tr | 1 => rotate_back tr | 2 => rotate_right tr
  | 3 => rotate_left tr | 4 => rotate_up tr | 5 => rotate_down tr
  | 6 => rotate_front_ccw tr | 7 => rotate_back_ccw tr | 8 => rotate_right_ccw tr
  | 9 => rotate_left_ccw tr | 10 => rotate_up_ccw tr | 11 => rotate_down_ccw tr
  | _ => some

/-! ## play -/

/-- Element `i` of a vector indexed by an `int`; outside the vector there is no value. -/
def atIdx (l : List Mat) (i : Int) : Option Mat :=
  if 0 ≤ i then l[i.toNat]? else none

/-- The statement `a_faces.erase(face);`. -/
def FaceSets.erase (F : FaceSets) (a : Face) (face : Nat) : FaceSets :=
  F.set a ((F.get a).erase face)

/-- The statement `b_faces.insert(face);`. -/
def FaceSets.insert (F : FaceSets) (b : Face) (face : Nat) : FaceSets :=
  F.set b ((F.get b).insert face)

/-- The statement `if (a_faces.find(face) != a_faces.end()) { a_faces.erase(face);
b_faces.insert(face); }` of a commit block. -/
def moveIf (a b : Face) (face : Nat) (F : FaceSets) : FaceSets :=
  if face ∈ F.get a then (F.erase a face).insert b face else F

/-- The body of the `for (const auto &face : ..._faces)` loop of a commit block of `play`
on the face sets, for one cubie `face`: with `(n0, n1, n2, n3)` the four neighbour sets in
the order the block tests them, membership in `n0` is parked in `temp`, membership in `n1`
moves to `n0`, `n2` to `n1`, `n3` to `n2`, and `temp` goes to `n3`. -/
def relabel (n0 n1 n2 n3 : Face) (face : Nat) (F : FaceSets) : FaceSets :=
  let temp : Bool := decide (face ∈ F.get n0)
  let F := if face ∈ F.get n0 then F.erase n0 face else F
  let F := moveIf n1 n0 face F
  let F := moveIf n2 n1 face F
  let F := moveIf n3 n2 face F
  if temp then F.insert n3 face else F

/-- The row of a commit block of `play`: the turning face whose set the loop runs over and
the four neighbour sets in the order the block tests them (see `relabel`). -/
def moveRow : Nat → Option (Face × Face × Face × Face × Face)
  | 0 => some (.FR, .UP, .LE, .DO, .RI)
  | 1 => some (.BA, .UP, .RI, .DO, .LE)
  | 2 => some (.RI, .UP, .FR, .DO, .BA)
  | 3 => some (.LE, .UP, .BA, .DO, .FR)
  | 4 => some (.UP, .FR, .RI, .BA, .LE)
  | 5 => some (.DO, .FR, .LE, .BA, .RI)
  | 6 => some (.FR, .UP, .RI, .DO, .LE)
  | 7 => some (.BA, .UP, .LE, .DO, .RI)
  | 8 => some (.RI, .UP, .BA, .DO, .FR)
  | 9 => some (.LE, .UP, .FR, .DO, .BA)
  | 10 => some (.UP, .FR, .LE, .BA, .RI)
  | 11 => some (.DO, .FR, .RI, .BA, .LE)
  | _ => none

/-- The loop of a commit block of `play` over the turning face set, from the cubie number
`count` on: `cubes[face].T = frames[count*FRAME_NUM+FRAME_NUM-1]`, then the relabelling. -/
def commitLoop (n0 n1 n2 n3 : Face) (frames : List Mat) :
    List Nat → Nat → List Mat → FaceSets → Option (List Mat × FaceSets)
  | [], _, cubes, F => some (cubes, F)
  | face :: rest, count, cubes, F =>
    match frames[count * FRAME_NUM + FRAME_NUM - 1]? with
    | some T =>
      if face < cubes.length then
        commitLoop n0 n1 n2 n3 frames rest (count + 1) (cubes.set face T) (relabel n0 n1 n2 n3 face F)
      else none
    | none => none

/-- The twelve `if (rotation_option == k)` commit blocks of `play`. -/
def commitBlocks (s : State) : Option (List Mat × FaceSets) :=
  if 0 ≤ s.rotation_option then
    match moveRow s.rotation_option.toNat with
    | some (t, n0, n1, n2, n3) => commitLoop n0 n1 n2 n3 s.frames (s.faces.get t) 0 s.cubes s.faces
    | none => some (s.cubes, s.faces)
  else some (s.cubes, s.faces)

/-- The history update of `play`: cancel against the top or push. -/
def pushOrCancel (front : Nat) : List Nat → List Nat
  | [] => [front]
  | top :: rest => if (top + 6) % 12 = front then rest else front :: top :: rest

/-- The part of `play` that runs when `frame_cnt == FRAME_NUM - 2` and `time > 1`: the
commit blocks, the history update, the two `pop()`s and the choice of the next move. -/
def finish (s : State) : Option State :=
  match commitBlocks s, s.rotation_options, s.rotation_started with
  | some (cubes, F), front :: q, _ :: st =>
    some { s with
      cubes := cubes
      faces := F
      rotation_reversed := pushOrCancel front s.rotation_reversed
      rotation_options := q
      rotation_started := st
      rotation_option := match q with
        | m :: _ => (m : Int)
        | [] => -1
      frame_cnt := match q with
        | _ :: _ => 0
        | [] => -1 }
  | _, _, _ => none

/-- The loop of the interpolation branch of `play` over the turning face set:
`cubes[face].T = (1-time) * frames[FRAME_NUM*count+frame_cnt] + time * frames[FRAME_NUM*count+frame_cnt+1]`. -/
def blendLoop (time : ℚ) (frames : List Mat) (frame_cnt : Int) :
    List Nat → Nat → List Mat → Option (List Mat)
  | [], _, cubes => some cubes
  | face :: rest, count, cubes =>
    match atIdx frames (FRAME_NUM * count + frame_cnt),
          atIdx frames (FRAME_NUM * count + frame_cnt + 1) with
    | some A, some B =>
      if face < cubes.length then
        blendLoop time frames frame_cnt rest (count + 1) (cubes.set face ((1 - time) • A + time • B))
      else none
    | _, _ => none

/-- The `else` branch of `play` (`time <= 1`): the six `if (rotation_option == a || ... == b)`
blocks, each of which calls the `rotate_*` function of the move and blends two poses. -/
def interpolate (tr : Trig) (time : ℚ) (s : State) : Option State :=
  if 0 ≤ s.rotation_option then
    match turning s.rotation_option.toNat with
    | some t =>
      match rotateOf tr s.rotation_option.toNat s with
      | some s1 =>
        match blendLoop time s1.frames s1.frame_cnt (s1.faces.get t) 0 s1.cubes with
        | some cubes => some { s1 with cubes := cubes }
        | none => none
      | none => none
    | none => some s
  else some s

/-- The first statement of `play`: with no current move and a non-empty queue, the head of
the queue becomes the current move and the step index is set to 0. -/
def fetch (s : State) : State :=
  if s.rotation_option = -1 then
    match s.rotation_options with
    | m :: _ => { s with rotation_option := (m : Int), frame_cnt := 0 }
    | [] => s
  else s

/-- The final statement of the `time > 1` branch: `if (frame_cnt != -1) frame_cnt++`. -/
def advance (s : State) : State :=
  if s.frame_cnt ≠ -1 then { s with frame_cnt := s.frame_cnt + 1 } else s

/-- The function `play`, for one value `time` of elapsed seconds times 24. -/
def play (tr : Trig) (time : ℚ) (s : State) : Option State :=
  let s := fetch s
  if s.frame_cnt ≠ -1 ∧ s.frame_cnt < (FRAME_NUM : Int) - 1 then
    if 1 < time then
      if s.frame_cnt = (FRAME_NUM : Int) - 2 then (finish s).map advance
      else some (advance s)
    else interpolate tr time s
  else some s

/-! ## Events and runs -/

/-- The inputs of the engine: the key `1` (reset), a key or gesture that enqueues the move
code `m`, the space key (solve), and one pass of the main loop with its clock reading. -/
inductive Event where
  | reset
  | key (m : Fin 12)
  | solve
  | tick (time : ℚ)

/-- The effect of one event. -/
def step (tr : Trig) : Event → State → Option State
  | .reset, s => some (reset_cubes s)
  | .key m, s => some (enqueue m.val s)
  | .solve, s => some (key_callback_SPACE s)
  | .tick time, s => play tr time s

/-- The effect of a sequence of events, first event first. -/
def run (tr : Trig) : List Event → State → Option State
  | [], s => some s
  | e :: es, s => (step tr e s).bind (run tr es)

/-- The commit that a call of `play` performs, if any: the move at the head of the queue
and its started flag, when the call reaches the branch `frame_cnt == FRAME_NUM - 2` with
`time > 1`. -/
def committing (time : ℚ) (s : State) : Option (Nat × Bool) :=
  if (fetch s).frame_cnt = (FRAME_NUM : Int) - 2 ∧ 1 < time then
    match s.rotation_options, s.rotation_started with
    | m :: _, b :: _ => some (m, b)
    | _, _ => none
  else none

/-- The commit performed by an event, as a list with at most one entry. -/
def logOf : Event → State → List (Nat × Bool)
  | .tick time, s => (committing time s).toList
  | _, _ => []

/-- The commits performed along a run, in order: each entry is the committed move and the
started flag it had when it was committed. -/
def commitLog (tr : Trig) : List Event → State → List (Nat × Bool)
  | [], _ => []
  | e :: es, s =>
    match step tr e s with
    | some s1 => logOf e s ++ commitLog tr es s1
    | none => []

/-! ## Auxiliary notions used in the statements -/

/-- Every face set is duplicate free. -/
def FaceSets.Nodup (F : FaceSets) : Prop := ∀ f, (F.get f).Nodup

/-- The face set from which the membership in `g` is taken by a relabelling. -/
def srcOf (n0 n1 n2 n3 : Face) (g : Face) : Face :=
  if g = n0 then n1 else if g = n1 then n2 else if g = n2 then n3 else if g = n3 then n0 else g

/-- The turning face of a move code as a total function (codes above 11 never occur). -/
def turnFace (m : Nat) : Face := (turning m).getD .FR

/-- The face sets after the commit block of move `m`: the fold of `relabel` over the
turning face set, which is the face-set component of `commitLoop`. -/
def turnSets (m : Nat) (F : FaceSets) : FaceSets :=
  match moveRow m with
  | some (t, n0, n1, n2, n3) => (F.get t).foldl (fun G face => relabel n0 n1 n2 n3 face G) F
  | none => F

/-- The face set whose membership a cubie of the turning face of move `m` carries over to
the face set `g`. -/
def srcFace (m : Nat) (g : Face) : Face :=
  match moveRow m with
  | some (_, n0, n1, n2, n3) => srcOf n0 n1 n2 n3 g
  | none => g

/-- Consistency of the scheduler registers: the two queues have the same length, the queue
holds move codes, and while a step index is set (`frame_cnt != -1`) it lies in `0..22` and
the current move is the head of the queue. -/
def Sync (s : State) : Prop :=
  s.rotation_options.length = s.rotation_started.length ∧
  (∀ m ∈ s.rotation_options, m < 12) ∧
  (s.frame_cnt = -1 ∨
    (0 ≤ s.frame_cnt ∧ s.frame_cnt ≤ 22 ∧
      ∃ m q, s.rotation_options = m :: q ∧ s.rotation_option = (m : Int)))

/-- The sign of the angle in the `rotate_*` function of a move code. -/
def signOf : Nat → ℚ
  | 0 => -1 | 1 => 1 | 2 => -1 | 3 => 1 | 4 => -1 | 5 => 1
  | 6 => 1 | 7 => -1 | 8 => 1 | 9 => -1 | 10 => 1 | _ => -1

/-- The axis in the `rotate_*` function of a move code. -/
def axisOf : Nat → Axis
  | 0 => .Z | 1 => .Z | 2 => .X | 3 => .X | 4 => .Y | 5 => .Y
  | 6 => .Z | 7 => .Z | 8 => .X | 9 => .X | 10 => .Y | _ => .Y

/-- The six faces in the order of their codes. -/
def Face.all : List Face := [.FR, .BA, .RI, .LE, .UP, .DO]

/-- The code of a face. -/
def Face.idx : Face → Nat
  | .FR => 0 | .BA => 1 | .RI => 2 | .LE => 3 | .UP => 4 | .DO => 5

/-- The memberships of cubie `c` in the six face sets, in the order of the face codes. -/
def sig (F : FaceSets) (c : Nat) : List Bool :=
  Face.all.map fun f => decide (c ∈ F.get f)

/-- The effect of committing move `m` on the memberships of one cubie: a cubie of the
turning face takes, for each face, the membership it had in the source face. -/
def moveSig (m : Nat) (p : List Bool) : List Bool :=
  if p.getD (turnFace m).idx false then
    Face.all.map fun g => p.getD (srcFace m g).idx false
  else p

/-- The memberships of the 27 cubies in the solved layout. -/
def solvedSigs : List (List Bool) := (List.range 27).map (sig solvedFaces)

/-- The invariant of the face sets: they are duplicate free, hold cubie indices below 27,
and the memberships of the 27 cubies are those of the solved layout up to a permutation
of the cubies. -/
def FaceInv (F : FaceSets) : Prop :=
  F.Nodup ∧ (∀ f, ∀ c ∈ F.get f, c < 27) ∧ ((List.range 27).map (sig F)).Perm solvedSigs

/-! ## Sample inputs -/

/-- A table that is exact at both ends of the quarter turn. -/
def sampleTrig : Trig where
  cos := fun f => if f = 23 then 0 else 1
  sin := fun f => if f = 0 then 0 else 1

/-- Clock values of one animated turn: one pass with little time elapsed (the move is
primed), then 23 passes with `time > 1`. -/
def frontTurnTicks : List ℚ := 0 :: List.replicate 23 2

/-- The events of one front turn: the key `F`, one pass of the main loop with little time
elapsed (the move is primed) and 23 passes with `time > 1` (the last of them commits). -/
def frontTurnEvents : List Event :=
  .key 0 :: frontTurnTicks.map .tick

/-- The state after one front turn from the reset state. -/
def frontTurned : State := (run sampleTrig frontTurnEvents resetState).getD resetState

/-- The event is a reset. -/
def Event.isReset : Event → Bool
  | .reset => true
  | _ => false

/-- The event is the solve key. -/
def Event.isSolve : Event → Bool
  | .solve => true
  | _ => false

/-- The moves committed along a run, in order. -/
def committed (tr : Trig) (evs : List Event) (s : State) : List Nat :=
  (commitLog tr evs s).map Prod.fst

/-- The face sets after committing the moves `ms` in order. -/
def turnAll (ms : List Nat) (F : FaceSets) : FaceSets :=
  ms.foldl (fun G m => turnSets m G) F

/-- The history after the commits of the moves `ms` in order. -/
def pushAll (ms : List Nat) (hist : List Nat) : List Nat :=
  ms.foldl (fun h m => pushOrCancel m h) hist

/-- The move codes enqueued by the key events of a run, in order. -/
def keysOf : List Event → List Nat
  | [] => []
  | .key m :: evs => m.val :: keysOf evs
  | _ :: evs => keysOf evs

/-- The events of a front turn up to, but not including, the pass of `play` that commits. -/
def frontTurningEvents : List Event :=
  [.key 0, .tick 0] ++ List.replicate 22 (.tick 2)

/-- The state just before the commit of a front turn from the reset state. -/
def frontTurning : State := (run sampleTrig frontTurningEvents resetState).getD resetState

/-- The events of the scenario "front turn, then its inverse enqueued behind it", up to
the commit of the front turn. -/
def frontThenBackEvents : List Event :=
  .key 0 :: .key 6 :: frontTurnTicks.map .tick

/-- The state right after the front turn of that scenario has been committed. -/
def frontOfPair : State := (run sampleTrig frontThenBackEvents resetState).getD resetState

/-! ## Free reduction of a word of moves -/

/-- Remove the first adjacent pair `a, b` of a word in which `b` is the inverse move
`(a + 6) % 12` of `a`, if there is such a pair. -/
def cancelFirst : List Nat → Option (List Nat)
  | a :: b :: rest =>
    if b = (a + 6) % 12 then some rest else (cancelFirst (b :: rest)).map (a :: ·)
  | _ => none

/-- Cancel adjacent inverse pairs one after the other, at most `n` times. -/
def cancelRepeat : Nat → List Nat → List Nat
  | 0, w => w
  | n + 1, w =>
    match cancelFirst w with
    | some w1 => cancelRepeat n w1
    | none => w

/-- The free reduction of a word of move codes: adjacent inverse pairs are cancelled
repeatedly until none is left (a word of length `n` allows at most `n / 2` cancellations). -/
def freeReduction (w : List Nat) : List Nat := cancelRepeat w.length w

/-- A word of moves, written first move first, is reduced: no entry is followed by its
inverse. -/
def Reduced (w : List Nat) : Prop := List.Chain' (fun a b => b ≠ (a + 6) % 12) w

/-- The letter of the free group on the six faces for a move code: the face and the sense
of the turn. -/
def letter (m : Nat) : Nat × Bool := (m % 6, decide (m < 6))

/-- Two families of face sets have the same members. -/
def SameSets (F G : FaceSets) : Prop := ∀ f c, c ∈ F.get f ↔ c ∈ G.get f

/-- The state after one front turn from the reset state, the solve key and the animation
of the solving move. -/
def frontSolved : State :=
  (run sampleTrig (frontTurnTicks.map .tick) (key_callback_SPACE frontTurned)).getD resetState

/-! ## Committed poses -/

/-- The quarter turn of a move code: the last pose matrix of its `rotate_*` function. -/
def quarter (tr : Trig) (m : Nat) : Mat :=
  angleAxis tr (signOf m) (FRAME_NUM - 1) (axisOf m)

/-- The transforms after a primed commit of move `m`: the cubies of the turning face get
the quarter turn applied on the left, the others keep their transform. -/
def turnPoses (tr : Trig) (m : Nat) (F : FaceSets) (base : List Mat) : List Mat :=
  base.mapIdx fun c T => if c ∈ F.get (turnFace m) then quarter tr m * T else T

/-- The transforms and the face sets after a primed commit of move `m`. -/
def turnBoth (tr : Trig) (m : Nat) (p : List Mat × FaceSets) : List Mat × FaceSets :=
  (turnPoses tr m p.2 p.1, turnSets m p.2)

/-- The transforms and the face sets after primed commits of the moves `ms` in order. -/
def turnBothAll (tr : Trig) (ms : List Nat) (p : List Mat × FaceSets) : List Mat × FaceSets :=
  ms.foldl (fun r m => turnBoth tr m r) p

/-- The head move has been primed from the transforms `base`: its started flag is set, the
pose buffer holds the poses computed from `base` for the cubies of the turning face, and
the cubies outside the turning face have the transforms of `base`. -/
def Primed (tr : Trig) (s : State) (base : List Mat) : Prop :=
  ∃ m q st, s.rotation_options = m :: q ∧ s.rotation_started = true :: st ∧
    primeLoop tr (signOf m) (axisOf m) base (s.faces.get (turnFace m)) = some s.frames ∧
    s.cubes.length = base.length ∧
    ∀ c, c ∉ s.faces.get (turnFace m) → s.cubes[c]? = base[c]?

/-- No move is in flight (the head of the queue, if any, has not been primed) and the
transforms are `base`. -/
def Settled (s : State) (base : List Mat) : Prop :=
  s.rotation_started.head? ≠ some true ∧ s.cubes = base

/-- The invariant that ties the state to the committed transforms `base`. -/
def PoseInv (tr : Trig) (s : State) (base : List Mat) : Prop :=
  Sync s ∧ s.faces.Nodup ∧ (∀ f, ∀ c ∈ s.faces.get f, c < base.length) ∧
    (∀ b ∈ s.rotation_started.tail, b = false) ∧ (Settled s base ∨ Primed tr s base)

/-- The scheduler is idle: nothing is queued and there is no current move. -/
def Idle (s : State) : Prop :=
  s.rotation_options = [] ∧ s.rotation_started = [] ∧ s.rotation_option = -1 ∧
    s.frame_cnt = -1

/-- The membership invariant of the cube state: each face set holds exactly 9 distinct
cubie indices below 27. -/
def MembershipInv (F : FaceSets) : Prop :=
  ∀ f, (F.get f).Nodup ∧ (F.get f).length = 9 ∧ ∀ c ∈ F.get f, c < 27

/-- The transforms of the cubies in `L` are multiplied by `A` on the left. -/
def spin (A : Mat) (L : List Nat) (base : List Mat) : List Mat :=
  base.mapIdx fun c T => if c ∈ L then A * T else T

/-- The events of the scenario "front turn, then its inverse": both keys, then the
animation of the two moves. -/
def pairEvents : List Event :=
  .key 0 :: .key 6 :: (frontTurnTicks ++ frontTurnTicks).map .tick

/-- The state after the scenario "front turn, then its inverse" from the reset state. -/
def pairDone : State := (run sampleTrig pairEvents resetState).getD resetState

/-- The events of four front turns: the key `F` four times, then four animations. -/
def fourEvents : List Event :=
  .key 0 :: .key 0 :: .key 0 :: .key 0 ::
    (frontTurnTicks ++ frontTurnTicks ++ frontTurnTicks ++ frontTurnTicks).map .tick

/-- The state after four front turns from the reset state. -/
def fourDone : State := (run sampleTrig fourEvents resetState).getD resetState

/-! ## Poses and layers -/

/-- The lattice position of cubie `c = 9x + 3y + z` in homogeneous coordinates:
`(x - 1, y - 1, z - 1, 1)`, the centre of the cubie built by `reset_cubes` in units of the
offset 0.30. -/
def latticePos (c : Nat) : Fin 4 → ℚ :=
  ![((c / 9 : Nat) : ℚ) - 1, ((c / 3 % 3 : Nat) : ℚ) - 1, ((c % 3 : Nat) : ℚ) - 1, 1]

/-- The point `v` lies in the outer layer of a face: front and back `z = 1` and `z = -1`,
right and left `x = 1` and `x = -1`, up and down `y = 1` and `y = -1`. -/
def inLayer : Face → (Fin 4 → ℚ) → Prop
  | .FR, v => v 2 = 1
  | .BA, v => v 2 = -1
  | .RI, v => v 0 = 1
  | .LE, v => v 0 = -1
  | .UP, v => v 1 = 1
  | .DO, v => v 1 = -1

/-- Membership agrees with pose: every cubie is in a face set exactly if its transform
takes its lattice position into the outer layer of that face. -/
def Agree (base : List Mat) (F : FaceSets) : Prop :=
  ∀ c T, base[c]? = some T → ∀ g, c ∈ F.get g ↔ inLayer g (T.mulVec (latticePos c))

/-- The events of the scenario "front turn, then its inverse" in which every pass of
`play` after the commit of the front turn has `time > 1`, so that move 6 is committed
without having been primed. -/
def staleEvents : List Event :=
  .key 0 :: .key 6 :: (frontTurnTicks ++ List.replicate 22 2).map .tick

/-- The state after the run `staleEvents` from the reset state. -/
def staleDone : State := (run sampleTrig staleEvents resetState).getD resetState

/-- The events of four front turns in which every pass of `play` after the commit of the
first turn has `time > 1`, so that the other three turns are committed without having been
primed. -/
def fourStaleEvents : List Event :=
  .key 0 :: .key 0 :: .key 0 :: .key 0 ::
    (frontTurnTicks ++ List.replicate 66 2).map .tick

/-- The state after the run `fourStaleEvents` from the reset state. -/
def fourStaleDone : State := (run sampleTrig fourStaleEvents resetState).getD resetState

/-! ## Queue bookkeeping along a run -/

/-- The move codes that an event appends to the tail of the queue: a key or gesture its
code, the solve key the inverses of the history entries from the top down, and any other
event nothing. -/
def appendedBy : Event → State → List Nat
  | .key m, _ => [m.val]
  | .solve, s => s.rotation_reversed.map fun t => (t + 6) % 12
  | _, _ => []

/-- The move codes appended to the queue along a run, in the order of their appending. -/
def appended (tr : Trig) : List Event → State → List Nat
  | [], _ => []
  | e :: es, s =>
    match step tr e s with
    | some s1 => appendedBy e s ++ appended tr es s1
    | none => []

/-- The events of a front turn followed by the solve key and the animation of the solving
move. -/
def frontSolveEvents : List Event :=
  frontTurnEvents ++ .solve :: frontTurnTicks.map .tick

/-! ## Neighbour faces -/

/-- The face opposite to a face. -/
def opposite : Face → Face
  | .FR => .BA | .BA => .FR | .RI => .LE | .LE => .RI | .UP => .DO | .DO => .UP

/-- The cycle of the four faces adjacent to a face, as the specification lists it for the
front, back, right, left, up and down face (clockwise as seen from outside the face). -/
def neighbourCycle : Face → List Face
  | .FR => [.UP, .RI, .DO, .LE]
  | .BA => [.UP, .LE, .DO, .RI]
  | .RI => [.UP, .BA, .DO, .FR]
  | .LE => [.UP, .FR, .DO, .BA]
  | .UP => [.FR, .LE, .BA, .RI]
  | .DO => [.FR, .RI, .BA, .LE]

/-- The entry `n_i` of the neighbour cycle of the face `t`. -/
def neighbour (t : Face) (i : Fin 4) : Face := (neighbourCycle t).getD i.val t
/-! ## The committed quarter turn -/

/-- The values `GLFW_RELEASE`, `GLFW_PRESS` and `GLFW_REPEAT` of the parameter `action` of
a callback. -/
inductive Action where
  | GLFW_RELEASE | GLFW_PRESS | GLFW_REPEAT
  deriving DecidableEq, Repr

/-- The keys that the key callbacks tell apart; `other` stands for every other key. -/
inductive Key where
  | GLFW_KEY_1 | GLFW_KEY_C | GLFW_KEY_F | GLFW_KEY_B | GLFW_KEY_R | GLFW_KEY_L
  | GLFW_KEY_U | GLFW_KEY_D | GLFW_KEY_LEFT_SHIFT | GLFW_KEY_SPACE | other
  deriving DecidableEq, Repr

def key_callback_F (action : Action) (s : State) : State :=
  if action = .GLFW_RELEASE then enqueue 0 s else s

def key_callback_B (action : Action) (s : State) : State :=
  if action = .GLFW_RELEASE then enqueue 1 s else s

def key_callback_R (action : Action) (s : State) : State :=
  if action = .GLFW_RELEASE then enqueue 2 s else s

def key_callback_L (action : Action) (s : State) : State :=
  if action = .GLFW_RELEASE then enqueue 3 s else s

def key_callback_U (action : Action) (s : State) : State :=
  if action = .GLFW_RELEASE then enqueue 4 s else s

def key_callback_D (action : Action) (s : State) : State :=
  if action = .GLFW_RELEASE then enqueue 5 s else s

/-- The function `key_callback_ccw`, the key callback while the left shift key is held, on
the globals of `State`.  The case `GLFW_KEY_LEFT_SHIFT` registers a key callback and
touches none of them. -/
def key_callback_ccw (key : Key) (action : Action) (s : State) : State :=
  match key with
  | .GLFW_KEY_F => if action = .GLFW_RELEASE then enqueue 6 s else s
  | .GLFW_KEY_B => if action = .GLFW_RELEASE then enqueue 7 s else s
  | .GLFW_KEY_R => if action = .GLFW_RELEASE then enqueue 8 s else s
  | .GLFW_KEY_L => if action = .GLFW_RELEASE then enqueue 9 s else s
  | .GLFW_KEY_U => if action = .GLFW_RELEASE then enqueue 10 s else s
  | .GLFW_KEY_D => if action = .GLFW_RELEASE then enqueue 11 s else s
  | _ => s

/-! ## Picking -/

/-- The fields `V` and `F` of a `Cube`: the columns of the vertex matrix and the columns of
the triangle matrix, each of which holds three column numbers of `V`. -/
structure Mesh where
  V : List (Fin 3 → ℚ)
  F : List (Fin 3 → Nat)

/-- The globals of the pointer handling: `selected_obj`, `original_xcanonical`,
`original_ycanonical`, `pressed`, the matrix `view`, and whether `cursor_pos_callback` has
been registered with `glfwSetCursorPosCallback`. -/
structure Pointer where
  selected_obj : Int
  original_xcanonical : ℚ
  original_ycanonical : ℚ
  pressed : Bool
  view : Mat
  cursor_pos_callback_set : Bool

/-- The vector `ray_direction(0, 0, -1)` of `mouse_button_callback`. -/
def ray_direction : Fin 3 → ℚ := ![0, 0, -1]

/-- The initial value of `min_param`. -/
def INT_MAX : ℚ := 2147483647

/-- The vertex `a` (`b`, `c`) of `mouse_button_callback` for the column `k` of `V`: the first
three coordinates of `view * cubes[m].T * Eigen::Vector4f(V(0,k), V(1,k), V(2,k), 1)`.
There is no value when `V` has no column `k`. -/
def corner (view T : Mat) (mesh : Mesh) (k : Nat) : Option (Fin 3 → ℚ) :=
  (mesh.V[k]?).map fun v =>
    let a_temp := (view * T).mulVec ![v 0, v 1, v 2, 1]
    ![a_temp 0, a_temp 1, a_temp 2]

/-- The matrix `coeff` with the columns `b - a`, `c - a` and `-ray_direction`. -/
def coeff (a b c : Fin 3 → ℚ) : Matrix (Fin 3) (Fin 3) ℚ :=
  !![b 0 - a 0, c 0 - a 0, -ray_direction 0;
     b 1 - a 1, c 1 - a 1, -ray_direction 1;
     b 2 - a 2, c 2 - a 2, -ray_direction 2]

/-- The determinant of a 3x3 matrix, expanded along the first row. -/
def det3 (M : Matrix (Fin 3) (Fin 3) ℚ) : ℚ :=
  M 0 0 * (M 1 1 * M 2 2 - M 1 2 * M 2 1) - M 0 1 * (M 1 0 * M 2 2 - M 1 2 * M 2 0)
    + M 0 2 * (M 1 0 * M 2 1 - M 1 1 * M 2 0)

/-- The matrix `M.inverse()` of a `Matrix3f`, which Eigen computes from the cofactors and
the determinant.  With determinant 0 the entries of the IEEE result are infinite or NaN,
and so are the entries of every product with it: there is no value, and the test of
`mouse_button_callback` on `ans` fails. -/
def inverse (M : Matrix (Fin 3) (Fin 3) ℚ) : Option (Matrix (Fin 3) (Fin 3) ℚ) :=
  if det3 M = 0 then none
  else some ((det3 M)⁻¹ •
    !![M 1 1 * M 2 2 - M 1 2 * M 2 1, M 0 2 * M 2 1 - M 0 1 * M 2 2, M 0 1 * M 1 2 - M 0 2 * M 1 1;
       M 1 2 * M 2 0 - M 1 0 * M 2 2, M 0 0 * M 2 2 - M 0 2 * M 2 0, M 0 2 * M 1 0 - M 0 0 * M 1 2;
       M 1 0 * M 2 1 - M 1 1 * M 2 0, M 0 1 * M 2 0 - M 0 0 * M 2 1, M 0 0 * M 1 1 - M 0 1 * M 1 0])

/-- The vector `ans = coeff.inverse() * (ray_origin - a)` for one triangle of one cube.  The
outer `none` is an index outside `V`, the inner `none` a matrix `coeff` with determinant 0. -/
def answer (view : Mat) (ray_origin : Fin 3 → ℚ) (T : Mat) (mesh : Mesh) (tri : Fin 3 → Nat) :
    Option (Option (Fin 3 → ℚ)) :=
  match corner view T mesh (tri 0), corner view T mesh (tri 1), corner view T mesh (tri 2) with
  | some a, some b, some c =>
    some ((inverse (coeff a b c)).map fun N => N.mulVec (ray_origin - a))
  | _, _, _ => none

/-- The test `ans(0) >= 0 && ans(0) <= 1 && ans(1) >= 0 && ans(1) <= 1 &&
ans(0) + ans(1) >= 0 && ans(0) + ans(1) <= 1`. -/
def isHit (ans : Fin 3 → ℚ) : Bool :=
  decide (0 ≤ ans 0 ∧ ans 0 ≤ 1 ∧ 0 ≤ ans 1 ∧ ans 1 ≤ 1 ∧ 0 ≤ ans 0 + ans 1 ∧ ans 0 + ans 1 ≤ 1)

/-- The variables that the picking loops update: the locals `intersection_found` and
`min_param` and the global `selected_obj`. -/
structure PickVars where
  intersection_found : Bool
  min_param : ℚ
  selected_obj : Int

/-- The end of the body of the inner picking loop for a triangle of cube `m`: a hit sets
`intersection_found`, and a hit with `ans(2) < min_param` is recorded. -/
def record (m : Nat) (p : PickVars) : Option (Fin 3 → ℚ) → PickVars
  | some ans =>
    if isHit ans then
      if ans 2 < p.min_param then ⟨true, ans 2, (m : Int)⟩
      else { p with intersection_found := true }
    else p
  | none => p

/-- The loop `for (int i = 0; i < cubes[m].F.cols(); i++)` of `mouse_button_callback`. -/
def triangleLoop (view : Mat) (ray_origin : Fin 3 → ℚ) (m : Nat) (T : Mat) (mesh : Mesh) :
    List (Fin 3 → Nat) → PickVars → Option PickVars
  | [], p => some p
  | tri :: rest, p =>
    match answer view ray_origin T mesh tri with
    | some a => triangleLoop view ray_origin m T mesh rest (record m p a)
    | none => none

/-- The loop `for (int m = 0; m < cubes.size(); m++)` of `mouse_button_callback`, from the
cube number `m` on; the list holds the fields `V`, `F` and `T` of the cubes. -/
def cubeLoop (view : Mat) (ray_origin : Fin 3 → ℚ) :
    List (Mesh × Mat) → Nat → PickVars → Option PickVars
  | [], _, p => some p
  | c :: rest, m, p =>
    match triangleLoop view ray_origin m c.2 c.1 c.1.F p with
    | some p1 => cubeLoop view ray_origin rest (m + 1) p1
    | none => none

/-- The block `if (action == GLFW_PRESS) { ... }` of `mouse_button_callback`: the value of
`selected_obj` after it. -/
def pick (view : Mat) (xcanonical ycanonical : ℚ) (scene : List (Mesh × Mat))
    (selected_obj : Int) : Option Int :=
  (cubeLoop view ![xcanonical, ycanonical, 1] scene 0 ⟨false, INT_MAX, selected_obj⟩).map
    fun p => if p.intersection_found then p.selected_obj else -1

/-! ## Gestures -/

/-- The test `faces.find(selected_obj) != faces.end()` on a face set. -/
def inSet (L : List Nat) (selected_obj : Int) : Prop := 0 ≤ selected_obj ∧ selected_obj.toNat ∈ L

instance (L : List Nat) (x : Int) : Decidable (inSet L x) := by
  unfold inSet
  infer_instance

/-- The drag `(x, y)` after the statements `xy_temp = view_transform * xy; x = xy_temp(0);
y = xy_temp(1)` with `view_transform = view * view_original.inverse()`.  The matrix
`view_original.inverse()` is a constant of the program whose entries are products of the
cosine and sine of `pi/4`; it is an input here. -/
def canonicalDrag (view view_original_inv : Mat) (x y : ℚ) : ℚ × ℚ :=
  let view_transform := view * view_original_inv
  let xy_temp := view_transform.mulVec ![x, y, 0, 1]
  (xy_temp 0, xy_temp 1)

/-- The six `if (..._faces.find(selected_obj) != ..._faces.end())` blocks at the end of
`mouse_button_callback`: the move code that is pushed, if any.  The function `abs` is the
absolute value of a `double`. -/
def gesture (F : FaceSets) (selected_obj : Int) (x y : ℚ) : Option Nat :=
  if inSet F.front_faces selected_obj ∧ x * y ≤ 0 ∧ abs x < abs y then
    some (if 0 < x then 0 else 6)
  else if inSet F.back_faces selected_obj ∧ x * y ≤ 0 ∧ abs x < abs y then
    some (if 0 < x then 7 else 1)
  else if inSet F.right_faces selected_obj ∧ 0 < x * y ∧ abs x < abs y then
    some (if 0 < x then 2 else 8)
  else if inSet F.left_faces selected_obj ∧ 0 < x * y ∧ abs x < abs y then
    some (if 0 < x then 9 else 3)
  else if inSet F.up_faces selected_obj ∧ abs y < abs x then
    some (if 0 < x then 10 else 4)
  else if inSet F.down_faces selected_obj ∧ abs y < abs x then
    some (if 0 < x then 5 else 11)
  else none

/-- The function `mouse_button_callback` for the pointer position `(xcanonical,
ycanonical)` in the canonical viewing volume.  `meshes` holds the fields `V` and `F` of the
cubes, in the order of `cubes`. -/
def mouse_button_callback (meshes : List Mesh) (view_original_inv : Mat) (action : Action)
    (xcanonical ycanonical : ℚ) (s : State) (p : Pointer) : Option (State × Pointer) :=
  let picked : Option Int :=
    if action = .GLFW_PRESS then
      pick p.view xcanonical ycanonical (meshes.zip s.cubes) p.selected_obj
    else some p.selected_obj
  match picked with
  | none => none
  | some sel =>
    let p := { p with selected_obj := sel }
    if sel = -1 then
      if action = .GLFW_PRESS then
        some (s, { p with cursor_pos_callback_set := true, original_xcanonical := xcanonical,
                          original_ycanonical := ycanonical, pressed := true })
      else some (s, { p with pressed := false })
    else if action = .GLFW_PRESS then
      some (s, { p with original_xcanonical := xcanonical, original_ycanonical := ycanonical })
    else if action = .GLFW_RELEASE then
      let d := canonicalDrag p.view view_original_inv (xcanonical - p.original_xcanonical)
        (ycanonical - p.original_ycanonical)
      match gesture s.faces sel d.1 d.2 with
      | some m => some (enqueue m s, p)
      | none => some (s, p)
    else some (s, p)

/-! ## The meshes built by reset_cubes -/

/-- The columns of the matrix `front` of `reset_cubes`: two triangles of side 0.30. -/
def frontQuad : List (Fin 3 → ℚ) :=
  [![3/20, 3/20, 3/20], ![3/20, -3/20, 3/20], ![-3/20, -3/20, 3/20],
   ![3/20, 3/20, 3/20], ![-3/20, 3/20, 3/20], ![-3/20, -3/20, 3/20]]

/-- The columns of `front` turned by a rotation, as the loops that fill `back`, `right`,
`left`, `up` and `down` do. -/
def turnedQuad (R : Mat) : List (Fin 3 → ℚ) :=
  frontQuad.map fun p =>
    let v := R.mulVec ![p 0, p 1, p 2, 1]
    ![v 0, v 1, v 2]

/-- The cube `center` of `reset_cubes`: the six quads in the order front, back, right,
left, up, down, and the twelve triangles `(3c, 3c+1, 3c+2)`. -/
def center : Mesh where
  V := frontQuad ++ turnedQuad (rotation .X (-1) 0) ++ turnedQuad (rotation .Y 0 1) ++
    turnedQuad (rotation .Y 0 (-1)) ++ turnedQuad (rotation .X 0 (-1)) ++
    turnedQuad (rotation .X 0 1)
  F := (List.range 12).map fun c => ![c * 3 + 0, c * 3 + 1, c * 3 + 2]

/-- The array `offset` of `reset_cubes`. -/
def offset (i : Nat) : ℚ := [-3/10, 0, 3/10].getD i 0

/-- The meshes of the 27 cubes that `reset_cubes` builds, cube `9x + 3y + z` being the cube
`center` moved by `(offset[x], offset[y], offset[z])`. -/
def resetMeshes : List Mesh :=
  (List.range 3).flatMap fun x => (List.range 3).flatMap fun y => (List.range 3).map fun z =>
    { V := center.V.map fun p => ![p 0 + offset x, p 1 + offset y, p 2 + offset z]
      F := center.F }

/-- The pointer globals at program start, with the view matrix given. -/
def startPointer (view : Mat) : Pointer where
  selected_obj := -1
  original_xcanonical := 0
  original_ycanonical := 0
  pressed := false
  view := view
  cursor_pos_callback_set := false
/-! ## Hits of the picking ray -/

/-- The hit of one triangle of cube `m`, if the ray hits it: the cube number and the ray
parameter `ans(2)`. -/
def triangleHit (view : Mat) (ray_origin : Fin 3 → ℚ) (m : Nat) (T : Mat) (mesh : Mesh)
    (tri : Fin 3 → Nat) : Option (Nat × ℚ) :=
  match answer view ray_origin T mesh tri with
  | some (some ans) => if isHit ans then some (m, ans 2) else none
  | _ => none

/-- The hits of the picking ray in the order in which the loops of `mouse_button_callback`
meet them, the first cube of the list having the number `m`. -/
def sceneHits (view : Mat) (ray_origin : Fin 3 → ℚ) : List (Mesh × Mat) → Nat → List (Nat × ℚ)
  | [], _ => []
  | c :: rest, m =>
    c.1.F.filterMap (triangleHit view ray_origin m c.2 c.1) ++
      sceneHits view ray_origin rest (m + 1)

/-- The effect of one hit on the variables of the picking loops. -/
def note (p : PickVars) (h : Nat × ℚ) : PickVars :=
  if h.2 < p.min_param then ⟨true, h.2, (h.1 : Int)⟩ else { p with intersection_found := true }

/-- The ray through the point `(x, y)` of the canonical viewing volume hits a triangle of
cube `m` of the scene at the parameter `t`, in the words of the specification: the system
`[b - a, c - a, -d] [u, v, t]^T = o - a` with `o = (x, y, 1)` and `d = (0, 0, -1)` has one
solution, and that solution has `u >= 0`, `v >= 0` and `u + v <= 1`. -/
def HitAt (view : Mat) (x y : ℚ) (scene : List (Mesh × Mat)) (m : Nat) (t : ℚ) : Prop :=
  ∃ mesh T tri a b c u v, scene[m]? = some (mesh, T) ∧ tri ∈ mesh.F ∧
    corner view T mesh (tri 0) = some a ∧ corner view T mesh (tri 1) = some b ∧
    corner view T mesh (tri 2) = some c ∧ (coeff a b c).det ≠ 0 ∧
    (coeff a b c).mulVec ![u, v, t] = ![x, y, 1] - a ∧ 0 ≤ u ∧ 0 ≤ v ∧ u + v ≤ 1
/-- The triangles of a mesh name columns of its vertex matrix. -/
def MeshOk (mesh : Mesh) : Prop := ∀ tri ∈ mesh.F, ∀ i : Fin 3, tri i < mesh.V.length

instance (mesh : Mesh) : Decidable (MeshOk mesh) := by
  unfold MeshOk
  infer_instance
/-- The fields `V`, `F` and `T` of the cube 14 (the centre of the front face) in the reset
state. -/
def cube14 : Mesh × Mat := ((resetMeshes.zip resetState.cubes)[14]?).getD (center, 1)
/-- The condition on the drag `(x, y)` in the gesture block of a face of
`mouse_button_callback`. -/
def faceCondition : Face → ℚ → ℚ → Prop
  | .FR, x, y => x * y ≤ 0 ∧ abs x < abs y
  | .BA, x, y => x * y ≤ 0 ∧ abs x < abs y
  | .RI, x, y => 0 < x * y ∧ abs x < abs y
  | .LE, x, y => 0 < x * y ∧ abs x < abs y
  | .UP, x, y => abs y < abs x
  | .DO, x, y => abs y < abs x

/-- A pointer state in which the cube `k` is selected and the press happened at the origin
of the canonical viewing volume, with the identity as view matrix. -/
def selectedPointer (k : Nat) : Pointer :=
  { startPointer 1 with selected_obj := (k : Int) }

/-! ## Queue safety -/

/-- A call of `play` with the clock value `time` evaluates `front()` or `pop()` of an empty
queue.  The first statement of `play` tests `rotation_options.size() > 0` before it reads
the front.  The commit (step index 22, `time > 1`) reads `rotation_options.front()` in the
history update and pops both queues.  The interpolation branch (`time <= 1`) calls the
`rotate_*` function of a current move in `0..11`, which reads `rotation_started.front()`. -/
def frontOnEmpty (time : ℚ) (s : State) : Prop :=
  (fetch s).frame_cnt ≠ -1 ∧ (fetch s).frame_cnt < (FRAME_NUM : Int) - 1 ∧
    if 1 < time then
      (fetch s).frame_cnt = (FRAME_NUM : Int) - 2 ∧
        ((fetch s).rotation_options = [] ∨ (fetch s).rotation_started = [])
    else
      (0 ≤ (fetch s).rotation_option ∧ (turning (fetch s).rotation_option.toNat).isSome) ∧
        (fetch s).rotation_started = []

/-- Every started flag behind the front of the queue is false. -/
def TailFalse (s : State) : Prop := ∀ b ∈ s.rotation_started.tail, b = false

/-- A run with resets, keys, the solve key and passes of `play`. -/
def mixedEvents : List Event :=
  frontTurnEvents ++ [.key 3, .key 8, .tick 0, .tick 2, .solve, .tick 2, .reset, .key 1,
    .tick 0, .tick 2]

/-- The state after the run `mixedEvents` from the reset state. -/
def mixedDone : State := (run sampleTrig mixedEvents resetState).getD resetState
/-! ## A move in flight -/

/-- One for a pass of `play` with `time > 1`, zero for any other event. -/
def longOf : Event → Nat
  | .tick time => if 1 < time then 1 else 0
  | _ => 0

/-- The number of passes of `play` with `time > 1` among the events. -/
def longTicks : List Event → Nat
  | [] => 0
  | e :: evs => longOf e + longTicks evs

/-- The head move has been primed from the transforms `base`, the scheduler registers are
consistent and the step index is `k`. -/
def Running (tr : Trig) (s : State) (base : List Mat) (k : Nat) : Prop :=
  Sync s ∧ s.frame_cnt = (k : Int) ∧ Primed tr s base

/-- The events "front turn enqueued, one pass of `play` with `time <= 1`": the front turn
is primed. -/
def frontPrimedEvents : List Event := [.key 0, .tick 0]

/-- The state in which the front turn has just been primed from the reset state. -/
def frontPrimed : State := (run sampleTrig frontPrimedEvents resetState).getD resetState

/-- Events while the front turn is in flight: keys, the solve key, passes of `play` with
`time <= 1`, and 22 passes with `time > 1`. -/
def inFlightEvents : List Event :=
  [.key 3, .tick 0, .tick 2, .solve, .key 8, .tick 1] ++ List.replicate 21 (.tick 2)

/-- The state after the events `inFlightEvents` from `frontPrimed`. -/
def inFlight : State := (run sampleTrig inFlightEvents frontPrimed).getD resetState
/-! ## Reset while a move is animating -/

/-- The events "front turn enqueued and primed, reset, left turn enqueued". -/
def resetMidEvents : List Event := [.key 0, .tick 0, .reset, .key 3]

/-- The state after the run `resetMidEvents` from the reset state. -/
def resetMid : State := (run sampleTrig resetMidEvents resetState).getD resetState

/-- The events "front turn enqueued, 22 passes of `play` with `time > 1`": no pass with
`time <= 1` happens, so `rotate_front` is never called. -/
def unprimedEvents : List Event := .key 0 :: List.replicate 22 (.tick 2)

/-- The state after the run `unprimedEvents` from the reset state. -/
def unprimed : State := (run sampleTrig unprimedEvents resetState).getD resetState

/-- The events "front turn enqueued and primed, one pass of `play` with `time > 1`". -/
def stepOneEvents : List Event := [.key 0, .tick 0, .tick 2]

/-- The state after the run `stepOneEvents` from the reset state. -/
def stepOne : State := (run sampleTrig stepOneEvents resetState).getD resetState
/-! ## The relabelling as a simultaneous update -/

/-- The relabelling of the commit block of move `m` with the cubies visited in the order of
the list `L`. -/
def turnSetsIn (m : Nat) (L : List Nat) (F : FaceSets) : FaceSets :=
  match moveRow m with
  | some (_, n0, n1, n2, n3) => L.foldl (fun G face => relabel n0 n1 n2 n3 face G) F
  | none => F

/-- The face whose membership becomes membership in the face `g` by the move `m`, in the
words of the specification: with the neighbour cycle `n_0, n_1, n_2, n_3` of the turning
face, membership in `n_i` becomes membership in `n_(i+1)` for a clockwise move and in
`n_(i-1)` for a counter-clockwise move; the turning face and its opposite keep theirs. -/
def specSource (m : Nat) (g : Face) : Face :=
  let cycle := neighbourCycle (turnFace m)
  let j := cycle.indexOf g
  if j < 4 then cycle.getD ((j + (if m < 6 then 3 else 1)) % 4) g else g

/-- One face set after the simultaneous update for the move `m`: the cubies outside the
turning face that were in the set, and the cubies of the turning face that were in the
source set, all memberships being those before the update. -/
def simultaneousSet (m : Nat) (F : FaceSets) (g : Face) : List Nat :=
  (F.get g).filter (fun c => decide (c ∉ F.get (turnFace m))) ++
    (F.get (specSource m g)).filter (fun c => decide (c ∈ F.get (turnFace m)))

/-- The six face sets after the simultaneous update for the move `m`. -/
def simultaneous (m : Nat) (F : FaceSets) : FaceSets where
  right_faces := simultaneousSet m F .RI
  left_faces := simultaneousSet m F .LE
  front_faces := simultaneousSet m F .FR
  back_faces := simultaneousSet m F .BA
  up_faces := simultaneousSet m F .UP
  down_faces := simultaneousSet m F .DO
/-! ## Properties of the gesture table -/

/-- The face with a given code (`FR 0` .. `DO 5`). -/
def Face.ofIdx : Nat → Face
  | 0 => .FR | 1 => .BA | 2 => .RI | 3 => .LE | 4 => .UP | _ => .DO

/-! ## Cubie types -/

/-- The number of the face sets that hold the cubie `c`. -/
def memberships (F : FaceSets) (c : Nat) : Nat :=
  (Face.all.filter fun f => decide (c ∈ F.get f)).length

/-- The six face-center cubies of the layout of `reset_cubes`. -/
def centerCubies : List Nat := [4, 10, 12, 14, 16, 22]

/-- The twelve edge cubies of the layout of `reset_cubes`. -/
def edgeCubies : List Nat := [1, 3, 5, 7, 9, 11, 15, 17, 19, 21, 23, 25]

/-- The eight corner cubies of the layout of `reset_cubes`. -/
def cornerCubies : List Nat := [0, 2, 6, 8, 18, 20, 24, 26]

/-- A list of six memberships (in the order of the face codes) has `n` entries `true` and
no two of them in a pair of opposite faces. -/
def typeOk (n : Nat) (p : List Bool) : Bool :=
  p.length == 6 && p.count true == n &&
    !(p.getD 0 false && p.getD 1 false) && !(p.getD 2 false && p.getD 3 false) &&
    !(p.getD 4 false && p.getD 5 false)

/-- The cubie-type invariant of the face sets: they are duplicate free, and every cubie is
in as many face sets as in the solved layout and in no two opposite ones. -/
def TypeInv (F : FaceSets) : Prop :=
  F.Nodup ∧ ∀ c, typeOk (memberships solvedFaces c) (sig F c) = true
/-! ## Draining the queue -/

/-- The clock values of `k` animated turns, one after the other: for each turn one pass of
`play` with little time elapsed and 23 passes with `time > 1`. -/
def drainTicks : Nat → List ℚ
  | 0 => []
  | k + 1 => frontTurnTicks ++ drainTicks k

/-- The events "front turn and left turn enqueued, then the passes of `play` of two animated
turns". -/
def twoTurnsEvents : List Event :=
  [.key 0, .key 3] ++ (drainTicks 2).map .tick

/-- The state after the run `twoTurnsEvents` from the reset state. -/
def twoTurns : State := (run sampleTrig twoTurnsEvents resetState).getD resetState
/-! ## Solve while a move is pending -/

/-- The events "front turn enqueued, solve key, then the passes of `play` of one animated
turn": the solve key is pressed before the front turn has been committed. -/
def solveEarlyEvents : List Event :=
  .key 0 :: .solve :: frontTurnTicks.map .tick

/-- The state after the run `solveEarlyEvents` from the reset state. -/
def solveEarly : State := (run sampleTrig solveEarlyEvents resetState).getD resetState
/-! ## A turning face set without nine members -/

/-- A state that violates the membership invariant: the reset state with the front turn
enqueued, but with only eight cubies in the front set (cubie 2 is missing). -/
def shortFront : State :=
  { enqueue 0 resetState with
    faces := { solvedFaces with front_faces := [26, 23, 20, 17, 14, 11, 8, 5] } }

/-- The state after the passes of `play` of one animated turn from `shortFront`. -/
def shortDone : State :=
  (run sampleTrig (frontTurnTicks.map .tick) shortFront).getD resetState
/-! ## Picking with a singular system: infinities and NaN -/

/-- A value of type `float` as far as the test of the picking loop needs it: a number, one
of the two infinities, or NaN.  Numbers are exact (rounding is not modelled). -/
inductive Flt where
  | fin (q : ℚ)
  | pinf
  | ninf
  | nan
  deriving DecidableEq

/-- IEEE multiplication: NaN is absorbing, zero times an infinity is NaN, and a product
with an infinity has the product of the signs. -/
def Flt.mul : Flt → Flt → Flt
  | .nan, _ => .nan
  | _, .nan => .nan
  | .fin a, .fin b => .fin (a * b)
  | .fin a, .pinf => if a = 0 then .nan else if 0 < a then .pinf else .ninf
  | .fin a, .ninf => if a = 0 then .nan else if 0 < a then .ninf else .pinf
  | .pinf, .fin b => if b = 0 then .nan else if 0 < b then .pinf else .ninf
  | .ninf, .fin b => if b = 0 then .nan else if 0 < b then .ninf else .pinf
  | .pinf, .pinf => .pinf
  | .pinf, .ninf => .ninf
  | .ninf, .pinf => .ninf
  | .ninf, .ninf => .pinf

/-- IEEE addition: NaN is absorbing, and the sum of the two infinities is NaN. -/
def Flt.add : Flt → Flt → Flt
  | .nan, _ => .nan
  | _, .nan => .nan
  | .fin a, .fin b => .fin (a + b)
  | .fin _, .pinf => .pinf
  | .fin _, .ninf => .ninf
  | .pinf, .fin _ => .pinf
  | .ninf, .fin _ => .ninf
  | .pinf, .pinf => .pinf
  | .ninf, .ninf => .ninf
  | .pinf, .ninf => .nan
  | .ninf, .pinf => .nan

/-- The IEEE comparison `x <= y` (and `y >= x`): false as soon as one side is NaN. -/
def Flt.le : Flt → Flt → Bool
  | .nan, _ => false
  | _, .nan => false
  | .fin a, .fin b => decide (a ≤ b)
  | .ninf, _ => true
  | _, .pinf => true
  | .pinf, _ => false
  | .fin _, .ninf => false

/-- The value is a number (neither an infinity nor NaN). -/
def Flt.isFinite : Flt → Bool
  | .fin _ => true
  | _ => false

/-- The quotient `Scalar(1) / det` of Eigen's inverse of a 3x3 matrix.  A determinant 0
gives an infinity, whose sign is the sign of the zero (`negativeZero`). -/
def invdet (negativeZero : Bool) (det : ℚ) : Flt :=
  if det = 0 then (if negativeZero then .ninf else .pinf) else .fin det⁻¹

/-- The transposed matrix of the cofactors of a 3x3 matrix. -/
def cofactors (M : Matrix (Fin 3) (Fin 3) ℚ) : Matrix (Fin 3) (Fin 3) ℚ :=
  !![M 1 1 * M 2 2 - M 1 2 * M 2 1, M 0 2 * M 2 1 - M 0 1 * M 2 2, M 0 1 * M 1 2 - M 0 2 * M 1 1;
     M 1 2 * M 2 0 - M 1 0 * M 2 2, M 0 0 * M 2 2 - M 0 2 * M 2 0, M 0 2 * M 1 0 - M 0 0 * M 1 2;
     M 1 0 * M 2 1 - M 1 1 * M 2 0, M 0 1 * M 2 0 - M 0 0 * M 2 1, M 0 0 * M 1 1 - M 0 1 * M 1 0]

/-- The entries of `M.inverse()` as Eigen computes them for a `Matrix3f`: each entry is a
cofactor times `Scalar(1) / det`. -/
def ieeeInverse (negativeZero : Bool) (M : Matrix (Fin 3) (Fin 3) ℚ) (i j : Fin 3) : Flt :=
  Flt.mul (.fin (cofactors M i j)) (invdet negativeZero (det3 M))

/-- The entries of `ans = coeff.inverse() * (ray_origin - a)`: the sum of the three
products of a row of the inverse with the right-hand side `r`. -/
def ieeeAnswer (negativeZero : Bool) (M : Matrix (Fin 3) (Fin 3) ℚ) (r : Fin 3 → ℚ)
    (i : Fin 3) : Flt :=
  Flt.add
    (Flt.add (Flt.mul (ieeeInverse negativeZero M i 0) (.fin (r 0)))
      (Flt.mul (ieeeInverse negativeZero M i 1) (.fin (r 1))))
    (Flt.mul (ieeeInverse negativeZero M i 2) (.fin (r 2)))

/-- The test `ans(0) >= 0 && ans(0) <= 1 && ans(1) >= 0 && ans(1) <= 1 &&
ans(0) + ans(1) >= 0 && ans(0) + ans(1) <= 1` on IEEE values. -/
def ieeeHit (ans : Fin 3 → Flt) : Bool :=
  Flt.le (.fin 0) (ans 0) && Flt.le (ans 0) (.fin 1) &&
    Flt.le (.fin 0) (ans 1) && Flt.le (ans 1) (.fin 1) &&
    Flt.le (.fin 0) (Flt.add (ans 0) (ans 1)) && Flt.le (Flt.add (ans 0) (ans 1)) (.fin 1)

/-- A mesh with one triangle whose three vertices lie on a line. -/
def collinearMesh : Mesh where
  V := [![0, 0, 0], ![1, 0, 0], ![2, 0, 0]]
  F := [![0, 1, 2]]

/-! ## The table of the float values -/

@[simp] theorem FaceSets.get_set (F : FaceSets) (f g : Face) (l : List Nat) :
    (F.set f l).get g = if g = f then l else F.get g := by
  cases f <;> cases g <;> rfl

theorem FaceSets.nodup_erase {F : FaceSets} (h : F.Nodup) (a : Face) (x : Nat) :
    (F.erase a x).Nodup := by
  intro g
  simp only [FaceSets.erase, FaceSets.get_set]
  split
  · exact (h a).erase x
  · exact h g

theorem FaceSets.nodup_insert {F : FaceSets} (h : F.Nodup) (b : Face) (x : Nat) :
    (F.insert b x).Nodup := by
  intro g
  simp only [FaceSets.insert, FaceSets.get_set]
  split
  · exact (h b).insert
  · exact h g

theorem FaceSets.mem_erase {F : FaceSets} (h : F.Nodup) (a g : Face) (x y : Nat) :
    y ∈ (F.erase a x).get g ↔ y ∈ F.get g ∧ ¬ (g = a ∧ y = x) := by
  simp only [FaceSets.erase, FaceSets.get_set]
  by_cases hg : g = a
  · subst hg
    simp [(h g).mem_erase_iff, and_comm]
  · simp [hg]

theorem FaceSets.mem_insert {F : FaceSets} (b g : Face) (x y : Nat) :
    y ∈ (F.insert b x).get g ↔ y ∈ F.get g ∨ (g = b ∧ y = x) := by
  simp only [FaceSets.insert, FaceSets.get_set]
  by_cases hg : g = b
  · subst hg
    simp [List.mem_insert_iff, or_comm]
  · simp [hg]

theorem nodup_moveIf {F : FaceSets} (h : F.Nodup) (a b : Face) (x : Nat) :
    (moveIf a b x F).Nodup := by
  unfold moveIf
  split
  · exact FaceSets.nodup_insert (FaceSets.nodup_erase h a x) b x
  · exact h

theorem mem_moveIf {F : FaceSets} (h : F.Nodup) (a b g : Face) (x y : Nat) :
    y ∈ (moveIf a b x F).get g ↔
      (y ∈ F.get g ∧ ¬ (g = a ∧ y = x)) ∨ (g = b ∧ y = x ∧ x ∈ F.get a) := by
  unfold moveIf
  split
  · rename_i hx
    simp [FaceSets.mem_insert, FaceSets.mem_erase h, hx]
  · rename_i hx
    constructor
    · intro hy
      refine Or.inl ⟨hy, ?_⟩
      rintro ⟨rfl, rfl⟩
      exact hx hy
    · rintro (⟨hy, -⟩ | ⟨-, -, hx2⟩)
      · exact hy
      · exact absurd hx2 hx

theorem relabel_nodup {n0 n1 n2 n3 : Face} {x : Nat} {F : FaceSets} (h : F.Nodup) :
    (relabel n0 n1 n2 n3 x F).Nodup := by
  unfold relabel
  have h1 : (if x ∈ F.get n0 then F.erase n0 x else F).Nodup := by
    split
    · exact FaceSets.nodup_erase h _ _
    · exact h
  have h4 := nodup_moveIf (nodup_moveIf (nodup_moveIf h1 n1 n0 x) n2 n1 x) n3 n2 x
  simp only
  split
  · exact FaceSets.nodup_insert h4 _ _
  · exact h4

theorem mem_relabel {n0 n1 n2 n3 : Face} (h01 : n0 ≠ n1) (h02 : n0 ≠ n2) (h03 : n0 ≠ n3)
    (h12 : n1 ≠ n2) (h13 : n1 ≠ n3) (h23 : n2 ≠ n3) {x : Nat} {F : FaceSets} (h : F.Nodup)
    (g : Face) (y : Nat) :
    y ∈ (relabel n0 n1 n2 n3 x F).get g ↔
      if y = x then x ∈ F.get (srcOf n0 n1 n2 n3 g) else y ∈ F.get g := by
  unfold relabel
  have h1 : (if x ∈ F.get n0 then F.erase n0 x else F).Nodup := by
    split
    · exact FaceSets.nodup_erase h _ _
    · exact h
  have m1 : ∀ g y, y ∈ (if x ∈ F.get n0 then F.erase n0 x else F).get g ↔
      y ∈ F.get g ∧ ¬ (g = n0 ∧ y = x) := by
    intro g y
    split
    · exact FaceSets.mem_erase h _ _ _ _
    · rename_i hx
      constructor
      · intro hy
        refine ⟨hy, ?_⟩
        rintro ⟨rfl, rfl⟩
        exact hx hy
      · exact fun hy => hy.1
  have c01 := h01.symm
  have c02 := h02.symm
  have c03 := h03.symm
  have c12 := h12.symm
  have c13 := h13.symm
  have c23 := h23.symm
  simp only [srcOf]
  generalize (if x ∈ F.get n0 then F.erase n0 x else F) = F1 at h1 m1 ⊢
  have h2 := nodup_moveIf h1 n1 n0 x
  have h3 := nodup_moveIf h2 n2 n1 x
  by_cases t : x ∈ F.get n0
  · simp only [t, decide_True, if_true, FaceSets.mem_insert, mem_moveIf h3, mem_moveIf h2, mem_moveIf h1, m1]
    by_cases hy : y = x
    · subst hy
      by_cases g0 : g = n0
      · subst g0; simp [*]
      by_cases g1 : g = n1
      · subst g1; simp [*]
      by_cases g2 : g = n2
      · subst g2; simp [*]
      by_cases g3 : g = n3
      · subst g3; simp [*]
      simp [*]
    · simp [hy]
  · simp only [t, decide_False, Bool.false_eq_true, if_false, FaceSets.mem_insert, mem_moveIf h3, mem_moveIf h2, mem_moveIf h1, m1]
    by_cases hy : y = x
    · subst hy
      by_cases g0 : g = n0
      · subst g0; simp [*]
      by_cases g1 : g = n1
      · subst g1; simp [*]
      by_cases g2 : g = n2
      · subst g2; simp [*]
      by_cases g3 : g = n3
      · subst g3; simp [*]
      simp [*]
    · simp [hy]

theorem relabel_get_other {n0 n1 n2 n3 t : Face} (h0 : t ≠ n0) (h1 : t ≠ n1) (h2 : t ≠ n2)
    (h3 : t ≠ n3) (x : Nat) (F : FaceSets) : (relabel n0 n1 n2 n3 x F).get t = F.get t := by
  simp only [relabel, moveIf, FaceSets.erase, FaceSets.insert]
  split_ifs <;> simp [h0, h1, h2, h3]

theorem foldl_relabel_get_other {n0 n1 n2 n3 t : Face} (h0 : t ≠ n0) (h1 : t ≠ n1)
    (h2 : t ≠ n2) (h3 : t ≠ n3) (L : List Nat) (F : FaceSets) :
    (L.foldl (fun G face => relabel n0 n1 n2 n3 face G) F).get t = F.get t := by
  induction L generalizing F with
  | nil => rfl
  | cons x L ih => simp only [List.foldl_cons, ih, relabel_get_other h0 h1 h2 h3]

theorem foldl_relabel_nodup {n0 n1 n2 n3 : Face} (L : List Nat) {F : FaceSets}
    (h : F.Nodup) : (L.foldl (fun G face => relabel n0 n1 n2 n3 face G) F).Nodup := by
  induction L generalizing F with
  | nil => exact h
  | cons x L ih => exact ih (relabel_nodup h)

theorem mem_foldl_relabel {n0 n1 n2 n3 : Face} (h01 : n0 ≠ n1) (h02 : n0 ≠ n2)
    (h03 : n0 ≠ n3) (h12 : n1 ≠ n2) (h13 : n1 ≠ n3) (h23 : n2 ≠ n3) (L : List Nat)
    (hL : L.Nodup) {F : FaceSets} (h : F.Nodup) (g : Face) (y : Nat) :
    y ∈ (L.foldl (fun G face => relabel n0 n1 n2 n3 face G) F).get g ↔
      if y ∈ L then y ∈ F.get (srcOf n0 n1 n2 n3 g) else y ∈ F.get g := by
  induction L generalizing F with
  | nil => simp
  | cons x L ih =>
    have hx : x ∉ L := (List.nodup_cons.mp hL).1
    rw [List.foldl_cons, ih (List.nodup_cons.mp hL).2 (relabel_nodup h)]
    by_cases hy : y = x
    · subst hy
      simp [hx, mem_relabel h01 h02 h03 h12 h13 h23 h]
    · simp [hy, mem_relabel h01 h02 h03 h12 h13 h23 h]

theorem moveRow_turning {m : Nat} (hm : m < 12) :
    ∃ n0 n1 n2 n3, moveRow m = some (turnFace m, n0, n1, n2, n3) ∧
      n0 ≠ n1 ∧ n0 ≠ n2 ∧ n0 ≠ n3 ∧ n1 ≠ n2 ∧ n1 ≠ n3 ∧ n2 ≠ n3 ∧
      turnFace m ≠ n0 ∧ turnFace m ≠ n1 ∧ turnFace m ≠ n2 ∧ turnFace m ≠ n3 := by
  interval_cases m <;> exact ⟨_, _, _, _, rfl, by decide⟩

theorem turning_eq {m : Nat} (hm : m < 12) : turning m = some (turnFace m) := by
  interval_cases m <;> rfl

theorem turnSets_nodup (m : Nat) {F : FaceSets} (h : F.Nodup) : (turnSets m F).Nodup := by
  unfold turnSets
  split
  · exact foldl_relabel_nodup _ h
  · exact h

theorem turnSets_get_turnFace {m : Nat} (hm : m < 12) (F : FaceSets) :
    (turnSets m F).get (turnFace m) = F.get (turnFace m) := by
  obtain ⟨n0, n1, n2, n3, hr, -, -, -, -, -, -, t0, t1, t2, t3⟩ := moveRow_turning hm
  simp only [turnSets, hr]
  exact foldl_relabel_get_other t0 t1 t2 t3 _ _

theorem mem_turnSets {m : Nat} (hm : m < 12) {F : FaceSets} (h : F.Nodup) (g : Face)
    (y : Nat) :
    y ∈ (turnSets m F).get g ↔
      if y ∈ F.get (turnFace m) then y ∈ F.get (srcFace m g) else y ∈ F.get g := by
  obtain ⟨n0, n1, n2, n3, hr, h01, h02, h03, h12, h13, h23, -⟩ := moveRow_turning hm
  simp only [turnSets, srcFace, hr]
  exact mem_foldl_relabel h01 h02 h03 h12 h13 h23 _ (h _) h g y

/-! ## The scheduler registers -/

theorem solveLoop_eq (h q : List Nat) (st : List Bool) :
    solveLoop h q st =
      (q ++ h.map (fun t => (t + 6) % 12), st ++ List.replicate h.length false, []) := by
  induction h generalizing q st with
  | nil => simp [solveLoop]
  | cons t h ih =>
    simp [solveLoop, ih, List.replicate_succ]

theorem sync_reset (s : State) : Sync (reset_cubes s) := by
  simp [Sync, reset_cubes]

theorem sync_enqueue {s : State} (h : Sync s) {m : Nat} (hm : m < 12) :
    Sync (enqueue m s) := by
  obtain ⟨h1, h2, h3⟩ := h
  refine ⟨by simp [enqueue, h1], ?_, ?_⟩
  · intro x hx
    simp only [enqueue, List.mem_append, List.mem_singleton] at hx
    rcases hx with hx | rfl
    · exact h2 x hx
    · exact hm
  · rcases h3 with h3 | ⟨a, b, m0, q, hq, hr⟩
    · exact Or.inl h3
    · exact Or.inr ⟨a, b, m0, q ++ [m], by simp [enqueue, hq], hr⟩

theorem sync_solve {s : State} (h : Sync s) : Sync (key_callback_SPACE s) := by
  obtain ⟨h1, h2, h3⟩ := h
  refine ⟨by simp [key_callback_SPACE, solveLoop_eq, h1], ?_, ?_⟩
  · intro x hx
    simp only [key_callback_SPACE, solveLoop_eq, List.mem_append, List.mem_map] at hx
    rcases hx with hx | ⟨t, -, rfl⟩
    · exact h2 x hx
    · exact Nat.mod_lt _ (by decide)
  · rcases h3 with h3 | ⟨a, b, m0, q, hq, hr⟩
    · exact Or.inl h3
    · exact Or.inr ⟨a, b, m0, q ++ s.rotation_reversed.map (fun t => (t + 6) % 12),
        by simp [key_callback_SPACE, solveLoop_eq, hq], hr⟩

theorem sync_fetch {s : State} (h : Sync s) : Sync (fetch s) := by
  obtain ⟨h1, h2, h3⟩ := h
  unfold fetch
  split
  · split
    · rename_i m q hq
      exact ⟨h1, h2, Or.inr ⟨le_refl _, by simp, m, q, hq, rfl⟩⟩
    · exact ⟨h1, h2, h3⟩
  · exact ⟨h1, h2, h3⟩

/-! ## One call of play: the face sets, the queue and the history -/

theorem commitLoop_faces {n0 n1 n2 n3 : Face} {frames : List Mat} (L : List Nat)
    (count : Nat) (cubes : List Mat) (F : FaceSets) {r : List Mat × FaceSets}
    (h : commitLoop n0 n1 n2 n3 frames L count cubes F = some r) :
    r.2 = L.foldl (fun G face => relabel n0 n1 n2 n3 face G) F := by
  induction L generalizing count cubes F with
  | nil =>
    simp only [commitLoop, Option.some.injEq] at h
    subst h
    rfl
  | cons x L ih =>
    simp only [commitLoop] at h
    split at h
    · split at h
      · exact ih _ _ _ h
      · exact absurd h (by simp)
    · exact absurd h (by simp)

theorem commitBlocks_faces {s : State} {m : Nat} (hm : s.rotation_option = (m : Int))
    {r : List Mat × FaceSets} (h : commitBlocks s = some r) : r.2 = turnSets m s.faces := by
  simp only [commitBlocks, hm, Int.toNat_ofNat, Int.ofNat_nonneg, if_true] at h
  unfold turnSets
  split at h
  · rename_i t n0 n1 n2 n3 hr
    exact commitLoop_faces _ _ _ _ h
  · rename_i hr
    simp only [Option.some.injEq] at h
    subst h
    rfl

theorem finish_spec {s s' : State} (h : finish s = some s') :
    ∃ m q b st, s.rotation_options = m :: q ∧ s.rotation_started = b :: st ∧
      commitBlocks s = some (s'.cubes, s'.faces) ∧
      s'.rotation_options = q ∧ s'.rotation_started = st ∧
      s'.rotation_reversed = pushOrCancel m s.rotation_reversed ∧
      s'.frames = s.frames ∧
      ((q = [] ∧ s'.rotation_option = -1 ∧ s'.frame_cnt = -1) ∨
        (∃ m1 q1, q = m1 :: q1 ∧ s'.rotation_option = (m1 : Int) ∧ s'.frame_cnt = 0)) := by
  unfold finish at h
  split at h
  · rename_i cubes F front q b st hc hq hst
    simp only [Option.some.injEq] at h
    subst h
    refine ⟨front, q, b, st, hq, hst, hc, rfl, rfl, rfl, rfl, ?_⟩
    cases q with
    | nil => exact Or.inl ⟨rfl, rfl, rfl⟩
    | cons m1 q1 => exact Or.inr ⟨m1, q1, rfl, rfl, rfl⟩
  · exact absurd h (by simp)

theorem rotate_spec {tr : Trig} {face : Face} {sign : ℚ} {ax : Axis} {s s' : State}
    (h : rotate tr face sign ax s = some s') :
    s'.faces = s.faces ∧ s'.rotation_options = s.rotation_options ∧
      s'.rotation_reversed = s.rotation_reversed ∧ s'.rotation_option = s.rotation_option ∧
      s'.cubes = s.cubes ∧
      ((∃ st, s.rotation_started = true :: st ∧ s' = s) ∨
        (∃ st fr, s.rotation_started = false :: st ∧ s'.rotation_started = true :: st ∧
          primeLoop tr sign ax s.cubes (s.faces.get face) = some fr ∧ s'.frames = fr ∧
          s'.frame_cnt = 0)) := by
  unfold rotate at h
  split at h
  · exact absurd h (by simp)
  · rename_i st hst
    simp only [Option.some.injEq] at h
    subst h
    exact ⟨rfl, rfl, rfl, rfl, rfl, Or.inl ⟨st, hst, rfl⟩⟩
  · rename_i st hst
    split at h
    · rename_i fr hfr
      simp only [Option.some.injEq] at h
      subst h
      exact ⟨rfl, rfl, rfl, rfl, rfl, Or.inr ⟨st, fr, hst, rfl, hfr, rfl, rfl⟩⟩
    · exact absurd h (by simp)

theorem rotateOf_eq (tr : Trig) {m : Nat} (hm : m < 12) :
    rotateOf tr m = rotate tr (turnFace m) (signOf m) (axisOf m) := by
  interval_cases m <;> rfl

theorem blendLoop_length {time : ℚ} {frames : List Mat} {fc : Int} (L : List Nat)
    (count : Nat) (cubes : List Mat) {r : List Mat}
    (h : blendLoop time frames fc L count cubes = some r) : r.length = cubes.length := by
  induction L generalizing count cubes with
  | nil =>
    simp only [blendLoop, Option.some.injEq] at h
    subst h
    rfl
  | cons x L ih =>
    simp only [blendLoop] at h
    split at h
    · split at h
      · simpa using ih _ _ h
      · exact absurd h (by simp)
    · exact absurd h (by simp)

theorem interpolate_spec {tr : Trig} {time : ℚ} {s s' : State} {m : Nat} (hm : m < 12)
    (hr : s.rotation_option = (m : Int)) (h : interpolate tr time s = some s') :
    ∃ s1 cubes, rotate tr (turnFace m) (signOf m) (axisOf m) s = some s1 ∧
      blendLoop time s1.frames s1.frame_cnt (s1.faces.get (turnFace m)) 0 s1.cubes = some cubes ∧
      s' = { s1 with cubes := cubes } := by
  simp only [interpolate, hr, Int.toNat_ofNat, Int.ofNat_nonneg, if_true, turning_eq hm,
    rotateOf_eq tr hm] at h
  split at h
  · rename_i s1 h1
    split at h
    · rename_i cubes hc
      simp only [Option.some.injEq] at h
      exact ⟨s1, cubes, h1, hc, h.symm⟩
    · exact absurd h (by simp)
  · exact absurd h (by simp)

theorem play_cases {tr : Trig} {time : ℚ} {s s' : State} (hs : Sync s)
    (h : play tr time s = some s') :
    ((fetch s).frame_cnt = -1 ∧ s' = fetch s) ∨
    (0 ≤ (fetch s).frame_cnt ∧ (fetch s).frame_cnt < 22 ∧ 1 < time ∧
      s' = { fetch s with frame_cnt := (fetch s).frame_cnt + 1 }) ∨
    ((fetch s).frame_cnt = 22 ∧ 1 < time ∧
      ∃ s2, finish (fetch s) = some s2 ∧ s' = advance s2) ∨
    (0 ≤ (fetch s).frame_cnt ∧ (fetch s).frame_cnt ≤ 22 ∧ ¬ 1 < time ∧
      interpolate tr time (fetch s) = some s') := by
  obtain ⟨-, -, h3⟩ := sync_fetch hs
  simp only [play, FRAME_NUM] at h
  rcases h3 with h3 | ⟨a, b, -⟩
  · left
    simp only [h3, ne_eq, not_true_eq_false, false_and, if_false, Option.some.injEq] at h
    exact ⟨h3, h.symm⟩
  · right
    have hne : (fetch s).frame_cnt ≠ -1 := by omega
    have hlt : (fetch s).frame_cnt < ((24 : Nat) : Int) - 1 := by omega
    rw [if_pos ⟨hne, hlt⟩] at h
    by_cases ht : 1 < time
    · rw [if_pos ht] at h
      by_cases h22 : (fetch s).frame_cnt = 22
      · right; left
        have : (fetch s).frame_cnt = ((24 : Nat) : Int) - 2 := by omega
        rw [if_pos this] at h
        cases hf : finish (fetch s) with
        | none => rw [hf] at h; exact absurd h (by simp)
        | some s2 =>
          rw [hf] at h
          simp only [Option.map_some', Option.some.injEq] at h
          exact ⟨h22, ht, s2, rfl, h.symm⟩
      · left
        have : ¬ (fetch s).frame_cnt = ((24 : Nat) : Int) - 2 := by omega
        rw [if_neg this] at h
        simp only [advance, hne, ne_eq, not_false_eq_true, if_true, Option.some.injEq] at h
        exact ⟨a, by omega, ht, h.symm⟩
    · right; right
      rw [if_neg ht] at h
      exact ⟨a, b, ht, h⟩

theorem fetch_proj (s : State) :
    (fetch s).faces = s.faces ∧ (fetch s).rotation_options = s.rotation_options ∧
      (fetch s).rotation_started = s.rotation_started ∧
      (fetch s).rotation_reversed = s.rotation_reversed ∧ (fetch s).cubes = s.cubes ∧
      (fetch s).frames = s.frames := by
  unfold fetch
  split
  · split <;> exact ⟨rfl, rfl, rfl, rfl, rfl, rfl⟩
  · exact ⟨rfl, rfl, rfl, rfl, rfl, rfl⟩

theorem advance_proj (s : State) :
    (advance s).faces = s.faces ∧ (advance s).rotation_options = s.rotation_options ∧
      (advance s).rotation_started = s.rotation_started ∧
      (advance s).rotation_reversed = s.rotation_reversed ∧ (advance s).cubes = s.cubes ∧
      (advance s).frames = s.frames ∧ (advance s).rotation_option = s.rotation_option := by
  unfold advance
  split <;> exact ⟨rfl, rfl, rfl, rfl, rfl, rfl, rfl⟩

/-- The scheduler view of one call of `play`: either nothing is committed and the face
sets, the queue and the history stay as they are, or the head move is committed. -/
theorem play_sched {tr : Trig} {time : ℚ} {s s' : State} (hs : Sync s)
    (h : play tr time s = some s') :
    (committing time s = none ∧ s'.faces = s.faces ∧
      s'.rotation_options = s.rotation_options ∧
      s'.rotation_reversed = s.rotation_reversed) ∨
    (∃ m q b st, s.rotation_options = m :: q ∧ s.rotation_started = b :: st ∧
      committing time s = some (m, b) ∧ s'.faces = turnSets m s.faces ∧
      s'.rotation_options = q ∧ s'.rotation_started = st ∧
      s'.rotation_reversed = pushOrCancel m s.rotation_reversed) := by
  obtain ⟨f1, f2, f3, f4, f5, f6⟩ := fetch_proj s
  have hsf := sync_fetch hs
  rcases play_cases hs h with ⟨a, rfl⟩ | ⟨a, b, c, rfl⟩ | ⟨a, b, s2, hf, rfl⟩ | ⟨a, b, c, hi⟩
  · left
    refine ⟨?_, f1, f2, f4⟩
    simp [committing, a, FRAME_NUM]
  · left
    refine ⟨?_, f1, f2, f4⟩
    have : ¬ (fetch s).frame_cnt = 22 := by omega
    simp [committing, FRAME_NUM, this]
  · right
    obtain ⟨m, q, b0, st, hq, hst, hc, e1, e2, e3, -⟩ := finish_spec hf
    obtain ⟨g1, g2, g3, g4, g5, g6, g7⟩ := advance_proj s2
    rw [f2] at hq
    rw [f3] at hst
    have hro : (fetch s).rotation_option = (m : Int) := by
      rcases hsf.2.2 with h0 | ⟨-, -, m0, q0, hq0, hr0⟩
      · rw [a] at h0; exact absurd h0 (by decide)
      · rw [f2, hq] at hq0
        simp only [List.cons.injEq] at hq0
        rw [hr0, hq0.1]
    refine ⟨m, q, b0, st, hq, hst, ?_, ?_, by rw [g2, e1], by rw [g3, e2], by rw [g4, e3, f4]⟩
    · simp [committing, FRAME_NUM, a, b, hq, hst]
    · rw [g1, ← f1]
      exact commitBlocks_faces hro hc
  · left
    have hro : ∃ m : Nat, m < 12 ∧ (fetch s).rotation_option = (m : Int) := by
      rcases hsf.2.2 with h0 | ⟨-, -, m0, q0, hq0, hr0⟩
      · omega
      · exact ⟨m0, hsf.2.1 m0 (by rw [hq0]; exact List.mem_cons_self _ _), hr0⟩
    obtain ⟨m, hm, hro⟩ := hro
    obtain ⟨s1, cubes, h1, -, rfl⟩ := interpolate_spec hm hro hi
    obtain ⟨r1, r2, r3, -⟩ := rotate_spec h1
    refine ⟨?_, by rw [← f1]; exact r1, by rw [← f2]; exact r2, by rw [← f4]; exact r3⟩
    simp [committing, c]

theorem sync_play {tr : Trig} {time : ℚ} {s s' : State} (hs : Sync s)
    (h : play tr time s = some s') : Sync s' := by
  have hsf := sync_fetch hs
  obtain ⟨k1, k2, k3⟩ := hsf
  rcases play_cases hs h with ⟨a, rfl⟩ | ⟨a, b, c, rfl⟩ | ⟨a, b, s2, hf, rfl⟩ | ⟨a, b, c, hi⟩
  · exact ⟨k1, k2, k3⟩
  · refine ⟨k1, k2, Or.inr ?_⟩
    rcases k3 with k3 | ⟨-, -, m0, q0, hq0, hr0⟩
    · omega
    · exact ⟨by show 0 ≤ (fetch s).frame_cnt + 1; omega,
        by show (fetch s).frame_cnt + 1 ≤ 22; omega, m0, q0, hq0, hr0⟩
  · obtain ⟨m, q, b0, st, hq, hst, hc, e1, e2, e3, -, e5⟩ := finish_spec hf
    obtain ⟨g1, g2, g3, g4, g5, g6, g7⟩ := advance_proj s2
    refine ⟨?_, ?_, ?_⟩
    · rw [g2, g3, e1, e2]
      rw [hq, hst] at k1
      simpa using k1
    · intro x hx
      rw [g2, e1] at hx
      exact k2 x (by rw [hq]; exact List.mem_cons_of_mem _ hx)
    · rcases e5 with ⟨-, -, e6⟩ | ⟨m1, q1, rfl, e6, e7⟩
      · left
        simp [advance, e6]
      · right
        have : (advance s2).frame_cnt = 1 := by simp [advance, e7]
        exact ⟨by omega, by omega, m1, q1, by rw [g2, e1], by rw [g7, e6]⟩
  · have hro : ∃ m : Nat, m < 12 ∧ (fetch s).rotation_option = (m : Int) := by
      rcases k3 with h0 | ⟨-, -, m0, q0, hq0, hr0⟩
      · omega
      · exact ⟨m0, k2 m0 (by rw [hq0]; exact List.mem_cons_self _ _), hr0⟩
    obtain ⟨m, hm, hro⟩ := hro
    obtain ⟨s1, cubes, h1, -, rfl⟩ := interpolate_spec hm hro hi
    obtain ⟨r1, r2, r3, r4, r5, r6⟩ := rotate_spec h1
    rcases r6 with ⟨st, -, rfl⟩ | ⟨st, fr, p1, p2, p3, p4, p5⟩
    · exact ⟨k1, k2, k3⟩
    · refine ⟨?_, ?_, ?_⟩
      · show s1.rotation_options.length = s1.rotation_started.length
        rw [r2, p2, k1, p1]
        rfl
      · show ∀ x ∈ s1.rotation_options, x < 12
        rw [r2]
        exact k2
      · right
        show 0 ≤ s1.frame_cnt ∧ s1.frame_cnt ≤ 22 ∧
          ∃ m q, s1.rotation_options = m :: q ∧ s1.rotation_option = (m : Int)
        rw [p5, r2, r4]
        rcases k3 with h0 | ⟨-, -, m0, q0, hq0, hr0⟩
        · omega
        · exact ⟨le_refl _, by decide, m0, q0, hq0, hr0⟩

theorem sync_step {tr : Trig} {e : Event} {s s' : State} (hs : Sync s)
    (h : step tr e s = some s') : Sync s' := by
  cases e with
  | reset =>
    simp only [step, Option.some.injEq] at h
    subst h
    exact sync_reset s
  | key m =>
    simp only [step, Option.some.injEq] at h
    subst h
    exact sync_enqueue hs m.isLt
  | solve =>
    simp only [step, Option.some.injEq] at h
    subst h
    exact sync_solve hs
  | tick time => exact sync_play hs h

theorem sync_run {tr : Trig} (evs : List Event) {s s' : State} (hs : Sync s)
    (h : run tr evs s = some s') : Sync s' := by
  induction evs generalizing s with
  | nil =>
    simp only [run, Option.some.injEq] at h
    subst h
    exact hs
  | cons e evs ih =>
    simp only [run] at h
    cases h1 : step tr e s with
    | none => rw [h1] at h; exact absurd h (by simp)
    | some s1 =>
      rw [h1] at h
      exact ih (sync_step hs h1) h

theorem sync_resetState : Sync resetState := sync_reset _

/-! ## The face-membership invariant -/

theorem sig_getD (F : FaceSets) (c : Nat) (f : Face) :
    (sig F c).getD f.idx false = decide (c ∈ F.get f) := by
  cases f <;> rfl

theorem sig_turnSets {m : Nat} (hm : m < 12) {F : FaceSets} (h : F.Nodup) (c : Nat) :
    sig (turnSets m F) c = moveSig m (sig F c) := by
  have key : ∀ g, decide (c ∈ (turnSets m F).get g) =
      if decide (c ∈ F.get (turnFace m)) then decide (c ∈ F.get (srcFace m g))
      else decide (c ∈ F.get g) := by
    intro g
    by_cases hc : c ∈ F.get (turnFace m) <;> simp [mem_turnSets hm h, hc]
  unfold moveSig
  simp only [sig_getD]
  by_cases hc : c ∈ F.get (turnFace m)
  · simp only [hc, decide_True, if_true]
    unfold sig
    apply List.map_congr_left
    intro g _
    rw [key]
    simp [hc]
  · simp only [hc, decide_False, Bool.false_eq_true, if_false]
    unfold sig
    apply List.map_congr_left
    intro g _
    rw [key]
    simp [hc]

set_option maxRecDepth 100000 in
theorem solvedSigs_moveSig {m : Nat} (hm : m < 12) :
    (solvedSigs.map (moveSig m)).Perm solvedSigs := by
  interval_cases m <;> decide

theorem faceInv_solved : FaceInv solvedFaces := by
  refine ⟨?_, ?_, List.Perm.refl _⟩
  · intro f
    cases f <;> decide
  · intro f
    cases f <;> decide

theorem faceInv_turnSets {m : Nat} (hm : m < 12) {F : FaceSets} (h : FaceInv F) :
    FaceInv (turnSets m F) := by
  obtain ⟨h1, h2, h3⟩ := h
  refine ⟨turnSets_nodup m h1, ?_, ?_⟩
  · intro g c hc
    rw [mem_turnSets hm h1] at hc
    split at hc
    · exact h2 _ c hc
    · exact h2 _ c hc
  · have e : (List.range 27).map (sig (turnSets m F)) =
        ((List.range 27).map (sig F)).map (moveSig m) := by
      rw [List.map_map]
      apply List.map_congr_left
      intro c _
      exact sig_turnSets hm h1 c
    rw [e]
    exact (h3.map _).trans (solvedSigs_moveSig hm)

theorem length_eq_countP {L : List Nat} (hL : L.Nodup) (hb : ∀ c ∈ L, c < 27) :
    L.length = (List.range 27).countP (fun c => decide (c ∈ L)) := by
  rw [List.countP_eq_length_filter]
  apply List.Perm.length_eq
  rw [List.perm_ext_iff_of_nodup hL ((List.nodup_range 27).filter _)]
  intro a
  simp only [List.mem_filter, List.mem_range, decide_eq_true_eq]
  exact ⟨fun h => ⟨hb a h, h⟩, fun h => h.2⟩

theorem faceInv_length {F : FaceSets} (h : FaceInv F) (f : Face) : (F.get f).length = 9 := by
  obtain ⟨h1, h2, h3⟩ := h
  rw [length_eq_countP (h1 f) (h2 f)]
  have e : (List.range 27).countP (fun c => decide (c ∈ F.get f)) =
      ((List.range 27).map (sig F)).countP (fun p => p.getD f.idx false) := by
    rw [List.countP_map]
    apply List.countP_congr
    intro c _
    simp only [Function.comp_apply, sig_getD]
  rw [e, h3.countP_eq]
  cases f <;> decide

theorem faceInv_step {tr : Trig} {e : Event} {s s' : State} (hs : Sync s)
    (hF : FaceInv s.faces) (h : step tr e s = some s') : FaceInv s'.faces := by
  cases e with
  | reset =>
    simp only [step, Option.some.injEq] at h
    subst h
    exact faceInv_solved
  | key m =>
    simp only [step, Option.some.injEq] at h
    subst h
    exact hF
  | solve =>
    simp only [step, Option.some.injEq] at h
    subst h
    exact hF
  | tick time =>
    rcases play_sched hs h with ⟨-, e1, -⟩ | ⟨m, q, b, st, hq, -, -, e1, -⟩
    · rw [e1]; exact hF
    · rw [e1]
      exact faceInv_turnSets (hs.2.1 m (by rw [hq]; exact List.mem_cons_self _ _)) hF

theorem faceInv_run {tr : Trig} (evs : List Event) {s s' : State} (hs : Sync s)
    (hF : FaceInv s.faces) (h : run tr evs s = some s') : FaceInv s'.faces := by
  induction evs generalizing s with
  | nil =>
    simp only [run, Option.some.injEq] at h
    subst h
    exact hF
  | cons e evs ih =>
    simp only [run] at h
    cases h1 : step tr e s with
    | none => rw [h1] at h; exact absurd h (by simp)
    | some s1 =>
      rw [h1] at h
      exact ih (sync_step hs h1) (faceInv_step hs hF h1) h

theorem some_getD_of_isSome {α : Type} {o : Option α} (d : α) (h : o.isSome = true) :
    o = some (o.getD d) := by
  cases o with
  | none => exact absurd h (by simp)
  | some a => rfl

set_option maxRecDepth 100000 in
theorem frontTurned_run : run sampleTrig frontTurnEvents resetState = some frontTurned :=
  some_getD_of_isSome _ (by decide)

/-- C1. Face-membership invariant: in every state reached from the reset state by any
sequence of events (resets, enqueued moves, solve, passes of `play` with any clock values,
hence after any sequence of committed moves), each of the six face sets holds exactly 9
distinct cubie indices below 27, and the six cardinalities sum to 54. -/
theorem face_membership_invariant (tr : Trig) (evs : List Event) (s : State)
    (h : run tr evs resetState = some s) :
    (∀ f, (s.faces.get f).Nodup ∧ (s.faces.get f).length = 9 ∧
      ∀ c ∈ s.faces.get f, c < 27) ∧
    s.faces.front_faces.length + s.faces.back_faces.length + s.faces.right_faces.length +
      s.faces.left_faces.length + s.faces.up_faces.length + s.faces.down_faces.length
      = 54 := by
  have hF : FaceInv s.faces := faceInv_run evs sync_resetState faceInv_solved h
  have hl := faceInv_length hF
  refine ⟨fun f => ⟨hF.1 f, hl f, hF.2.1 f⟩, ?_⟩
  have h1 := hl .FR
  have h2 := hl .BA
  have h3 := hl .RI
  have h4 := hl .LE
  have h5 := hl .UP
  have h6 := hl .DO
  simp only [FaceSets.get] at h1 h2 h3 h4 h5 h6
  omega

/-- Witness for C1: the state after one committed front turn. -/
theorem face_membership_invariant_witness :
    run sampleTrig frontTurnEvents resetState = some frontTurned ∧
    ((∀ f, (frontTurned.faces.get f).Nodup ∧ (frontTurned.faces.get f).length = 9 ∧
      ∀ c ∈ frontTurned.faces.get f, c < 27) ∧
    frontTurned.faces.front_faces.length + frontTurned.faces.back_faces.length +
      frontTurned.faces.right_faces.length + frontTurned.faces.left_faces.length +
      frontTurned.faces.up_faces.length + frontTurned.faces.down_faces.length = 54) :=
  ⟨frontTurned_run, face_membership_invariant _ _ _ frontTurned_run⟩

/-! ## Runs: face sets and history as functions of the committed moves -/

theorem run_cons {tr : Trig} {e : Event} {evs : List Event} {s s' : State}
    (h : run tr (e :: evs) s = some s') :
    ∃ s1, step tr e s = some s1 ∧ run tr evs s1 = some s' := by
  simp only [run] at h
  cases h1 : step tr e s with
  | none => rw [h1] at h; exact absurd h (by simp)
  | some s1 => rw [h1] at h; exact ⟨s1, rfl, h⟩

theorem committed_cons {tr : Trig} {e : Event} {evs : List Event} {s s1 : State}
    (h : step tr e s = some s1) :
    committed tr (e :: evs) s = (logOf e s).map Prod.fst ++ committed tr evs s1 := by
  simp [committed, commitLog, h]

theorem run_append {tr : Trig} (evs1 evs2 : List Event) (s : State) :
    run tr (evs1 ++ evs2) s = (run tr evs1 s).bind (run tr evs2) := by
  induction evs1 generalizing s with
  | nil => rfl
  | cons e evs ih =>
    simp only [List.cons_append, run]
    cases step tr e s with
    | none => rfl
    | some s1 => simpa using ih s1

theorem committed_append {tr : Trig} (evs1 evs2 : List Event) {s s1 : State}
    (h : run tr evs1 s = some s1) :
    committed tr (evs1 ++ evs2) s = committed tr evs1 s ++ committed tr evs2 s1 := by
  induction evs1 generalizing s with
  | nil =>
    simp only [run, Option.some.injEq] at h
    subst h
    simp [committed, commitLog]
  | cons e evs ih =>
    obtain ⟨s2, h2, h3⟩ := run_cons h
    rw [List.cons_append, committed_cons h2, committed_cons h2, ih h3, List.append_assoc]

/-- What one event does to the face sets, the history and the committed-move log. -/
theorem step_sched {tr : Trig} {e : Event} {s s' : State} (hs : Sync s)
    (h : step tr e s = some s') (hr : e.isReset = false) :
    s'.faces = turnAll ((logOf e s).map Prod.fst) s.faces ∧
    (e.isSolve = false →
      s'.rotation_reversed = pushAll ((logOf e s).map Prod.fst) s.rotation_reversed) := by
  cases e with
  | reset => exact absurd hr (by simp [Event.isReset])
  | key m =>
    simp only [step, Option.some.injEq] at h
    subst h
    exact ⟨rfl, fun _ => rfl⟩
  | solve =>
    simp only [step, Option.some.injEq] at h
    subst h
    exact ⟨rfl, fun h => absurd h (by simp [Event.isSolve])⟩
  | tick time =>
    rcases play_sched hs h with ⟨c, e1, -, e3⟩ | ⟨m, q, b, st, -, -, c, e1, -, -, e3⟩
    · simp only [logOf, c, Option.toList, List.map_nil, turnAll, pushAll, List.foldl_nil]
      exact ⟨e1, fun _ => e3⟩
    · simp only [logOf, c, Option.toList, List.map_cons, List.map_nil, turnAll, pushAll,
        List.foldl_cons, List.foldl_nil]
      exact ⟨e1, fun _ => e3⟩

theorem run_faces {tr : Trig} (evs : List Event) {s s' : State} (hs : Sync s)
    (h : run tr evs s = some s') (hr : ∀ e ∈ evs, e.isReset = false) :
    s'.faces = turnAll (committed tr evs s) s.faces := by
  induction evs generalizing s with
  | nil =>
    simp only [run, Option.some.injEq] at h
    subst h
    rfl
  | cons e evs ih =>
    obtain ⟨s1, h1, h2⟩ := run_cons h
    rw [committed_cons h1, ih (sync_step hs h1) h2 (fun e he => hr e (List.mem_cons_of_mem _ he)),
      (step_sched hs h1 (hr e (List.mem_cons_self _ _))).1]
    simp [turnAll, List.foldl_append]

theorem run_history {tr : Trig} (evs : List Event) {s s' : State} (hs : Sync s)
    (h : run tr evs s = some s') (hr : ∀ e ∈ evs, e.isReset = false)
    (hv : ∀ e ∈ evs, e.isSolve = false) :
    s'.rotation_reversed = pushAll (committed tr evs s) s.rotation_reversed := by
  induction evs generalizing s with
  | nil =>
    simp only [run, Option.some.injEq] at h
    subst h
    rfl
  | cons e evs ih =>
    obtain ⟨s1, h1, h2⟩ := run_cons h
    rw [committed_cons h1, ih (sync_step hs h1) h2 (fun e he => hr e (List.mem_cons_of_mem _ he))
      (fun e he => hv e (List.mem_cons_of_mem _ he)),
      (step_sched hs h1 (hr e (List.mem_cons_self _ _))).2 (hv e (List.mem_cons_self _ _))]
    simp [pushAll, List.foldl_append]

theorem play_commit_eq (tr : Trig) {time : ℚ} {s : State} {f : Nat} {b : Bool}
    (hc : committing time s = some (f, b)) :
    play tr time s = (finish (fetch s)).map advance ∧
      ∃ q st, s.rotation_options = f :: q ∧ s.rotation_started = b :: st := by
  unfold committing at hc
  split at hc
  · rename_i hcond
    obtain ⟨h22, ht⟩ := hcond
    split at hc
    · rename_i m q b0 st hq hst
      simp only [Option.some.injEq, Prod.mk.injEq] at hc
      obtain ⟨rfl, rfl⟩ := hc
      refine ⟨?_, q, st, hq, hst⟩
      have hne : (fetch s).frame_cnt ≠ -1 := by rw [h22]; simp [FRAME_NUM]
      have hlt : (fetch s).frame_cnt < (FRAME_NUM : Int) - 1 := by rw [h22]; omega
      simp only [play]
      rw [if_pos ⟨hne, hlt⟩, if_pos ht, if_pos h22]
    · exact absurd hc (by simp)
  · exact absurd hc (by simp)

/-- C6. When a call of `play` commits the head move `f` (started flag `b`), exactly one
entry leaves the front of the move queue and of the started-flag queue, and the history is
updated as push-or-cancel: a top `t` with `(t + 6) % 12 = f` is popped and nothing is
pushed; with an empty history or any other top, `f` is pushed. -/
theorem commit_push_or_cancel (tr : Trig) (time : ℚ) (s s' : State) (f : Nat) (b : Bool)
    (hc : committing time s = some (f, b)) (h : play tr time s = some s') :
    s.rotation_options = f :: s'.rotation_options ∧
    s.rotation_started = b :: s'.rotation_started ∧
    (∀ t rest, s.rotation_reversed = t :: rest → (t + 6) % 12 = f →
      s'.rotation_reversed = rest) ∧
    (∀ t rest, s.rotation_reversed = t :: rest → (t + 6) % 12 ≠ f →
      s'.rotation_reversed = f :: t :: rest) ∧
    (s.rotation_reversed = [] → s'.rotation_reversed = [f]) := by
  obtain ⟨hp, q, st, hq, hst⟩ := play_commit_eq tr hc
  rw [hp] at h
  cases hf : finish (fetch s) with
  | none => rw [hf] at h; exact absurd h (by simp)
  | some s2 =>
    rw [hf] at h
    simp only [Option.map_some', Option.some.injEq] at h
    subst h
    obtain ⟨m, q2, b2, st2, hq2, hst2, -, e1, e2, e3, -⟩ := finish_spec hf
    obtain ⟨f1, f2, f3, f4, -⟩ := fetch_proj s
    obtain ⟨g1, g2, g3, g4, -⟩ := advance_proj s2
    rw [f2, hq] at hq2
    rw [f3, hst] at hst2
    simp only [List.cons.injEq] at hq2 hst2
    obtain ⟨rfl, rfl⟩ := hq2
    obtain ⟨rfl, rfl⟩ := hst2
    rw [g2, g3, g4, e1, e2, e3, f4]
    refine ⟨hq, hst, ?_, ?_, ?_⟩
    · intro t rest ht hinv
      simp [ht, pushOrCancel, hinv]
    · intro t rest ht hinv
      simp [ht, pushOrCancel, hinv]
    · intro ht
      simp [ht, pushOrCancel]

set_option maxRecDepth 100000 in
theorem frontTurning_run :
    run sampleTrig frontTurningEvents resetState = some frontTurning :=
  some_getD_of_isSome _ (by decide)

theorem frontTurning_play : play sampleTrig 2 frontTurning = some frontTurned := by
  have h := frontTurned_run
  have e : frontTurnEvents = frontTurningEvents ++ [.tick 2] := by
    simp [frontTurnEvents, frontTurnTicks, frontTurningEvents, List.replicate]
  rw [e, run_append, frontTurning_run] at h
  simp only [Option.some_bind, run, step] at h
  cases hp : play sampleTrig 2 frontTurning with
  | none => rw [hp] at h; exact absurd h (by simp)
  | some s => rw [hp] at h; simpa using h

set_option maxRecDepth 100000 in
theorem frontTurning_committing : committing 2 frontTurning = some (0, true) := by
  decide

/-- Witness for C6: the pass of `play` that commits a front turn from the reset state. -/
theorem commit_push_or_cancel_witness :
    committing 2 frontTurning = some (0, true) ∧
    play sampleTrig 2 frontTurning = some frontTurned ∧
    (frontTurning.rotation_options = 0 :: frontTurned.rotation_options ∧
    frontTurning.rotation_started = true :: frontTurned.rotation_started ∧
    (∀ t rest, frontTurning.rotation_reversed = t :: rest → (t + 6) % 12 = 0 →
      frontTurned.rotation_reversed = rest) ∧
    (∀ t rest, frontTurning.rotation_reversed = t :: rest → (t + 6) % 12 ≠ 0 →
      frontTurned.rotation_reversed = 0 :: t :: rest) ∧
    (frontTurning.rotation_reversed = [] → frontTurned.rotation_reversed = [0])) :=
  ⟨frontTurning_committing, frontTurning_play,
    commit_push_or_cancel _ _ _ _ _ _ frontTurning_committing frontTurning_play⟩

/-- The queue is first in, first out: what was in the queue followed by what the keys
enqueued is what has been committed followed by what is still in the queue. -/
theorem run_queue {tr : Trig} (evs : List Event) {s s' : State} (hs : Sync s)
    (h : run tr evs s = some s') (hr : ∀ e ∈ evs, e.isReset = false)
    (hv : ∀ e ∈ evs, e.isSolve = false) :
    s.rotation_options ++ keysOf evs = committed tr evs s ++ s'.rotation_options := by
  induction evs generalizing s with
  | nil =>
    simp only [run, Option.some.injEq] at h
    subst h
    simp [keysOf, committed, commitLog]
  | cons e evs ih =>
    obtain ⟨s1, h1, h2⟩ := run_cons h
    have ih' := ih (sync_step hs h1) h2 (fun e he => hr e (List.mem_cons_of_mem _ he))
      (fun e he => hv e (List.mem_cons_of_mem _ he))
    rw [committed_cons h1]
    cases e with
    | reset => exact absurd (hr _ (List.mem_cons_self _ _)) (by simp [Event.isReset])
    | solve => exact absurd (hv _ (List.mem_cons_self _ _)) (by simp [Event.isSolve])
    | key m =>
      simp only [step, Option.some.injEq] at h1
      subst h1
      simp only [enqueue, List.append_assoc, List.singleton_append] at ih'
      simpa [keysOf, logOf] using ih'
    | tick time =>
      rcases play_sched hs h1 with ⟨c, -, e2, -⟩ | ⟨m, q, b, st, hq, -, c, -, e2, -⟩
      · rw [e2] at ih'
        simpa [keysOf, logOf, c] using ih'
      · rw [e2] at ih'
        simp only [keysOf, logOf, c, Option.toList, List.map_cons, List.map_nil, hq,
          List.cons_append, List.nil_append, List.cons.injEq, true_and]
        exact ih'

theorem isReset_ticks (ts : List ℚ) : ∀ e ∈ ts.map Event.tick, e.isReset = false := by
  intro e he
  obtain ⟨t, -, rfl⟩ := List.mem_map.mp he
  rfl

theorem isSolve_ticks (ts : List ℚ) : ∀ e ∈ ts.map Event.tick, e.isSolve = false := by
  intro e he
  obtain ⟨t, -, rfl⟩ := List.mem_map.mp he
  rfl

theorem keysOf_ticks (ts : List ℚ) : keysOf (ts.map Event.tick) = [] := by
  induction ts with
  | nil => rfl
  | cons t ts ih => simpa [keysOf] using ih

theorem turnSets_zero_solved :
    turnSets 0 solvedFaces =
      { right_faces := [8, 17, 26, 25, 24, 22, 21, 19, 18]
        left_faces := [2, 11, 20, 7, 6, 4, 3, 1, 0]
        front_faces := [26, 23, 20, 17, 14, 11, 8, 5, 2]
        back_faces := [24, 21, 18, 15, 12, 9, 6, 3, 0]
        up_faces := [2, 5, 8, 25, 24, 16, 15, 7, 6]
        down_faces := [20, 23, 26, 19, 18, 10, 9, 1, 0] } := by
  decide

/-- C8. Scenario Front CW: from the reset state moves are enqueued and `play` runs (any
clock values) until exactly the move 0 has been committed.  Then the
cubies that were in both the front and the up set, which are 8, 17 and 26, are in the
right set, the front set is still {2, 5, 8, 11, 14, 17, 20, 23, 26}, and the history is
`[0]`. -/
theorem front_turn_scenario (tr : Trig) (evs : List Event) (s : State)
    (hev : ∀ e ∈ evs, e.isReset = false ∧ e.isSolve = false)
    (h : run tr evs resetState = some s)
    (hc : committed tr evs resetState = [0]) :
    (∀ c, c ∈ resetState.faces.front_faces ∧ c ∈ resetState.faces.up_faces ↔
      c = 8 ∨ c = 17 ∨ c = 26) ∧
    (8 ∈ s.faces.right_faces ∧ 17 ∈ s.faces.right_faces ∧ 26 ∈ s.faces.right_faces) ∧
    (∀ c, c ∈ s.faces.front_faces ↔ c ∈ [2, 5, 8, 11, 14, 17, 20, 23, 26]) ∧
    (∀ c, c ∈ s.faces.front_faces ↔ c ∈ resetState.faces.front_faces) ∧
    s.rotation_reversed = [0] := by
  have hr : ∀ e ∈ evs, e.isReset = false := fun e he => (hev e he).1
  have hv : ∀ e ∈ evs, e.isSolve = false := fun e he => (hev e he).2
  have hF := run_faces _ sync_resetState h hr
  have hH := run_history _ sync_resetState h hr hv
  rw [hc] at hF hH
  have e0 : resetState.faces = solvedFaces := rfl
  have e1 : resetState.rotation_reversed = [] := rfl
  simp only [turnAll, pushAll, List.foldl_cons, List.foldl_nil, e0, e1,
    turnSets_zero_solved] at hF hH
  rw [hF, hH, e0]
  refine ⟨?_, ?_, ?_, ?_, rfl⟩
  · intro c
    simp only [solvedFaces, List.mem_cons, List.mem_singleton, List.not_mem_nil, or_false]
    omega
  · simp
  · intro c
    simp only [List.mem_cons, List.mem_singleton, List.not_mem_nil, or_false]
    omega
  · intro c
    simp only [solvedFaces]

set_option maxRecDepth 100000 in
theorem frontTurned_committed : committed sampleTrig frontTurnEvents resetState = [0] := by
  decide

theorem frontTurnEvents_plain :
    ∀ e ∈ frontTurnEvents, e.isReset = false ∧ e.isSolve = false := by
  intro e he
  rcases List.mem_cons.mp he with rfl | he
  · exact ⟨rfl, rfl⟩
  · exact ⟨isReset_ticks _ e he, isSolve_ticks _ e he⟩

/-- Witness for C8: the key `F`, a priming pass and 23 passes with `time > 1`. -/
theorem front_turn_scenario_witness :
    (∀ e ∈ frontTurnEvents, e.isReset = false ∧ e.isSolve = false) ∧
    run sampleTrig frontTurnEvents resetState = some frontTurned ∧
    committed sampleTrig frontTurnEvents resetState = [0] ∧
    ((∀ c, c ∈ resetState.faces.front_faces ∧ c ∈ resetState.faces.up_faces ↔
      c = 8 ∨ c = 17 ∨ c = 26) ∧
    (8 ∈ frontTurned.faces.right_faces ∧ 17 ∈ frontTurned.faces.right_faces ∧
      26 ∈ frontTurned.faces.right_faces) ∧
    (∀ c, c ∈ frontTurned.faces.front_faces ↔ c ∈ [2, 5, 8, 11, 14, 17, 20, 23, 26]) ∧
    (∀ c, c ∈ frontTurned.faces.front_faces ↔ c ∈ resetState.faces.front_faces) ∧
    frontTurned.rotation_reversed = [0]) :=
  ⟨frontTurnEvents_plain, frontTurned_run, frontTurned_committed,
    front_turn_scenario _ _ _ frontTurnEvents_plain frontTurned_run frontTurned_committed⟩

set_option maxRecDepth 100000 in
theorem frontOfPair_run : run sampleTrig frontThenBackEvents resetState = some frontOfPair :=
  some_getD_of_isSome _ (by decide)

set_option maxRecDepth 100000 in
theorem frontOfPair_committed :
    committed sampleTrig frontThenBackEvents resetState = [0] := by
  decide

set_option maxRecDepth 100000 in
/-- C10, counterexample. The keys `F` and shift-`F` are pressed, the front turn is primed
and runs through its 23 steps.  Right after its commit, with move 6 still in the queue,
the history is `[0]`, not empty. -/
theorem history_after_first_commit_counterexample :
    run sampleTrig frontThenBackEvents resetState = some frontOfPair ∧
    committed sampleTrig frontThenBackEvents resetState = [0] ∧
    frontOfPair.rotation_options = [6] ∧
    frontOfPair.rotation_reversed = [0] ∧
    frontOfPair.rotation_reversed ≠ [] :=
  ⟨frontOfPair_run, frontOfPair_committed, by decide, by decide, by decide⟩

/-- C10, amended. From the reset state the moves 0 and 6 are enqueued, in this order and
nothing else, and `play` runs with any clock values: once exactly move 0 has been
committed, move 6 is still pending and the history is `[0]` (the move was pushed, since
the history was empty); once both moves have been committed, the queue and the history are
empty (the cancellation happens at the commit of move 6). -/
theorem history_after_first_commit (tr : Trig) (evs : List Event) (s : State)
    (hev : ∀ e ∈ evs, e.isReset = false ∧ e.isSolve = false)
    (hk : keysOf evs = [0, 6])
    (h : run tr evs resetState = some s) :
    (committed tr evs resetState = [0] →
      s.rotation_options = [6] ∧ s.rotation_reversed = [0]) ∧
    (committed tr evs resetState = [0, 6] →
      s.rotation_options = [] ∧ s.rotation_reversed = []) := by
  have hr : ∀ e ∈ evs, e.isReset = false := fun e he => (hev e he).1
  have hv : ∀ e ∈ evs, e.isSolve = false := fun e he => (hev e he).2
  have hQ := run_queue _ sync_resetState h hr hv
  have hH := run_history _ sync_resetState h hr hv
  have e1 : resetState.rotation_reversed = [] := rfl
  have e2 : resetState.rotation_options = [] := rfl
  simp only [hk, e2, List.nil_append] at hQ
  rw [e1] at hH
  constructor
  · intro hc
    rw [hc] at hQ hH
    simp only [List.singleton_append, List.cons.injEq, true_and] at hQ
    exact ⟨hQ.symm, by rw [hH]; rfl⟩
  · intro hc
    rw [hc] at hQ hH
    refine ⟨?_, by rw [hH]; rfl⟩
    have := congrArg List.length hQ
    simp only [List.length_cons, List.length_nil, List.length_append] at this
    exact List.eq_nil_of_length_eq_zero (by omega)

theorem frontThenBackEvents_plain :
    ∀ e ∈ frontThenBackEvents, e.isReset = false ∧ e.isSolve = false := by
  intro e he
  rcases List.mem_cons.mp he with rfl | he
  · exact ⟨rfl, rfl⟩
  rcases List.mem_cons.mp he with rfl | he
  · exact ⟨rfl, rfl⟩
  · exact ⟨isReset_ticks _ e he, isSolve_ticks _ e he⟩

theorem frontThenBackEvents_keys : keysOf frontThenBackEvents = [0, 6] := by
  simp only [frontThenBackEvents, keysOf, keysOf_ticks]
  rfl

/-- Witness for the amended C10: the run of the counterexample. -/
theorem history_after_first_commit_witness :
    (∀ e ∈ frontThenBackEvents, e.isReset = false ∧ e.isSolve = false) ∧
    keysOf frontThenBackEvents = [0, 6] ∧
    run sampleTrig frontThenBackEvents resetState = some frontOfPair ∧
    ((committed sampleTrig frontThenBackEvents resetState = [0] →
      frontOfPair.rotation_options = [6] ∧ frontOfPair.rotation_reversed = [0]) ∧
    (committed sampleTrig frontThenBackEvents resetState = [0, 6] →
      frontOfPair.rotation_options = [] ∧ frontOfPair.rotation_reversed = [])) :=
  ⟨frontThenBackEvents_plain, frontThenBackEvents_keys, frontOfPair_run,
    history_after_first_commit _ _ _ frontThenBackEvents_plain frontThenBackEvents_keys
      frontOfPair_run⟩

/-! ## The history is the free reduction of the committed moves -/

theorem letter_inv {a b : Nat} (ha : a < 12) (hb : b < 12) :
    b = (a + 6) % 12 ↔ letter b = ((letter a).1, !(letter a).2) := by
  interval_cases a <;> interval_cases b <;> simp [letter]

theorem letter_inj {a b : Nat} (ha : a < 12) (hb : b < 12) (h : letter a = letter b) :
    a = b := by
  revert h
  interval_cases a <;> interval_cases b <;> simp [letter]

theorem map_letter_inj {u v : List Nat} (hu : ∀ x ∈ u, x < 12) (hv : ∀ x ∈ v, x < 12)
    (h : u.map letter = v.map letter) : u = v := by
  induction u generalizing v with
  | nil =>
    cases v with
    | nil => rfl
    | cons b v => exact absurd h (by simp)
  | cons a u ih =>
    cases v with
    | nil => exact absurd h (by simp)
    | cons b v =>
      simp only [List.map_cons, List.cons.injEq] at h
      rw [letter_inj (hu a (List.mem_cons_self _ _)) (hv b (List.mem_cons_self _ _)) h.1,
        ih (fun x hx => hu x (List.mem_cons_of_mem _ hx))
          (fun x hx => hv x (List.mem_cons_of_mem _ hx)) h.2]

theorem cancelFirst_some {w w1 : List Nat} (hw : ∀ x ∈ w, x < 12)
    (h : cancelFirst w = some w1) :
    FreeGroup.Red.Step (w.map letter) (w1.map letter) ∧ w1.length + 2 = w.length ∧
      ∀ x ∈ w1, x < 12 := by
  induction w generalizing w1 with
  | nil => exact absurd h (by simp [cancelFirst])
  | cons a w ih =>
    cases w with
    | nil => exact absurd h (by simp [cancelFirst])
    | cons b rest =>
      simp only [cancelFirst] at h
      have ha := hw a (List.mem_cons_self _ _)
      have hb := hw b (List.mem_cons_of_mem _ (List.mem_cons_self _ _))
      split at h
      · rename_i hinv
        simp only [Option.some.injEq] at h
        subst h
        refine ⟨?_, rfl, fun x hx =>
          hw x (List.mem_cons_of_mem _ (List.mem_cons_of_mem _ hx))⟩
        simp only [List.map_cons]
        rw [(letter_inv ha hb).mp hinv]
        exact FreeGroup.Red.Step.cons_not
      · cases hc : cancelFirst (b :: rest) with
        | none => rw [hc] at h; exact absurd h (by simp)
        | some w2 =>
          rw [hc] at h
          simp only [Option.map_some', Option.some.injEq] at h
          subst h
          obtain ⟨i1, i2, i3⟩ := ih (fun x hx => hw x (List.mem_cons_of_mem _ hx)) hc
          refine ⟨?_, by simp only [List.length_cons] at i2 ⊢; omega, ?_⟩
          · simp only [List.map_cons] at i1 ⊢
            exact FreeGroup.Red.Step.cons i1
          · intro x hx
            rcases List.mem_cons.mp hx with rfl | hx
            · exact ha
            · exact i3 x hx

theorem cancelFirst_none {w : List Nat} (h : cancelFirst w = none) : Reduced w := by
  induction w with
  | nil => exact List.chain'_nil
  | cons a w ih =>
    cases w with
    | nil => exact List.chain'_singleton a
    | cons b rest =>
      simp only [cancelFirst] at h
      split at h
      · exact absurd h (by simp)
      · rename_i hinv
        cases hc : cancelFirst (b :: rest) with
        | none => exact List.Chain'.cons hinv (ih hc)
        | some w2 => rw [hc] at h; exact absurd h (by simp)

theorem cancelRepeat_spec (n : Nat) {w : List Nat} (hw : ∀ x ∈ w, x < 12)
    (hn : w.length ≤ 2 * n + 1) :
    FreeGroup.Red (w.map letter) ((cancelRepeat n w).map letter) ∧
      Reduced (cancelRepeat n w) ∧ ∀ x ∈ cancelRepeat n w, x < 12 := by
  induction n generalizing w with
  | zero =>
    refine ⟨FreeGroup.Red.refl, ?_, hw⟩
    simp only [cancelRepeat]
    cases w with
    | nil => exact List.chain'_nil
    | cons a w =>
      cases w with
      | nil => exact List.chain'_singleton a
      | cons b rest => simp at hn
  | succ n ih =>
    simp only [cancelRepeat]
    cases hc : cancelFirst w with
    | none => exact ⟨FreeGroup.Red.refl, cancelFirst_none hc, hw⟩
    | some w1 =>
      obtain ⟨i1, i2, i3⟩ := cancelFirst_some hw hc
      obtain ⟨j1, j2, j3⟩ := ih i3 (by omega)
      exact ⟨(FreeGroup.Red.Step.to_red i1).trans j1, j2, j3⟩

theorem freeReduction_spec {w : List Nat} (hw : ∀ x ∈ w, x < 12) :
    FreeGroup.Red (w.map letter) ((freeReduction w).map letter) ∧
      Reduced (freeReduction w) ∧ ∀ x ∈ freeReduction w, x < 12 :=
  cancelRepeat_spec _ hw (by omega)

theorem reduced_no_step {w : List Nat} (hw : ∀ x ∈ w, x < 12) (hr : Reduced w)
    {L : List (Nat × Bool)} : ¬ FreeGroup.Red.Step (w.map letter) L := by
  intro h
  generalize hL : w.map letter = L0 at h
  cases h with
  | @not L1 L2 x b =>
    obtain ⟨u, v, rfl, -, hv⟩ := List.map_eq_append_iff.mp hL
    obtain ⟨a, v1, rfl, ha, hv1⟩ := List.map_eq_cons_iff.mp hv
    obtain ⟨b1, v2, rfl, hb, -⟩ := List.map_eq_cons_iff.mp hv1
    have hc := (List.chain'_append.mp hr).2.1
    have hab : b1 ≠ (a + 6) % 12 := (List.chain'_cons.mp hc).1
    apply hab
    rw [letter_inv (hw a (by simp)) (hw b1 (by simp)), ha, hb]

theorem reduced_red_eq {w : List Nat} (hw : ∀ x ∈ w, x < 12) (hr : Reduced w)
    {L : List (Nat × Bool)} (h : FreeGroup.Red (w.map letter) L) : L = w.map letter := by
  rcases Relation.ReflTransGen.cases_head h with h | ⟨c, hc, -⟩
  · exact h.symm
  · exact absurd hc (reduced_no_step hw hr)

theorem reduced_pushOrCancel {m : Nat} {hist : List Nat} (h : Reduced hist.reverse) :
    Reduced (pushOrCancel m hist).reverse := by
  unfold Reduced at h ⊢
  rw [List.chain'_reverse] at h ⊢
  cases hist with
  | nil => exact List.chain'_singleton m
  | cons t rest =>
    simp only [pushOrCancel]
    split
    · exact h.tail
    · rename_i hne
      exact List.Chain'.cons (fun e => hne e.symm) h

theorem pushOrCancel_lt {m : Nat} {hist : List Nat} (hm : m < 12)
    (h : ∀ x ∈ hist, x < 12) : ∀ x ∈ pushOrCancel m hist, x < 12 := by
  cases hist with
  | nil =>
    intro x hx
    simp only [pushOrCancel, List.mem_singleton] at hx
    omega
  | cons t rest =>
    simp only [pushOrCancel]
    split
    · exact fun x hx => h x (List.mem_cons_of_mem _ hx)
    · intro x hx
      rcases List.mem_cons.mp hx with rfl | hx
      · exact hm
      · exact h x hx

theorem pushOrCancel_red {m : Nat} {hist : List Nat} (hm : m < 12)
    (h : ∀ x ∈ hist, x < 12) (tl : List Nat) :
    FreeGroup.Red ((hist.reverse ++ m :: tl).map letter)
      (((pushOrCancel m hist).reverse ++ tl).map letter) := by
  cases hist with
  | nil => exact FreeGroup.Red.refl
  | cons t rest =>
    simp only [pushOrCancel]
    split
    · rename_i hinv
      have ht := h t (List.mem_cons_self _ _)
      have e := (letter_inv ht hm).mp hinv.symm
      simp only [List.reverse_cons, List.append_assoc, List.singleton_append, List.map_append,
        List.map_cons]
      rw [e]
      exact FreeGroup.Red.Step.to_red FreeGroup.Red.Step.not
    · simp only [List.reverse_cons, List.append_assoc, List.singleton_append]
      exact FreeGroup.Red.refl

theorem pushAll_spec (ms : List Nat) (hist : List Nat) (hms : ∀ x ∈ ms, x < 12)
    (h : ∀ x ∈ hist, x < 12) (hr : Reduced hist.reverse) :
    FreeGroup.Red ((hist.reverse ++ ms).map letter) ((pushAll ms hist).reverse.map letter) ∧
      Reduced (pushAll ms hist).reverse ∧ ∀ x ∈ pushAll ms hist, x < 12 := by
  induction ms generalizing hist with
  | nil =>
    simp only [pushAll, List.foldl_nil, List.append_nil]
    exact ⟨FreeGroup.Red.refl, hr, h⟩
  | cons m ms ih =>
    have hm := hms m (List.mem_cons_self _ _)
    obtain ⟨i1, i2, i3⟩ := ih _ (fun x hx => hms x (List.mem_cons_of_mem _ hx))
      (pushOrCancel_lt hm h) (reduced_pushOrCancel hr)
    exact ⟨(pushOrCancel_red hm h ms).trans i1, i2, i3⟩

/-- The stack algorithm of `play` computes the free reduction. -/
theorem pushAll_eq_freeReduction {ms : List Nat} (hms : ∀ x ∈ ms, x < 12) :
    (pushAll ms []).reverse = freeReduction ms := by
  obtain ⟨a1, a2, a3⟩ := pushAll_spec ms [] hms (by simp) List.chain'_nil
  obtain ⟨b1, b2, b3⟩ := freeReduction_spec hms
  simp only [List.reverse_nil, List.nil_append] at a1
  have a3' : ∀ x ∈ (pushAll ms []).reverse, x < 12 := fun x hx => a3 x (List.mem_reverse.mp hx)
  obtain ⟨L, h1, h2⟩ := FreeGroup.Red.church_rosser a1 b1
  have e1 := reduced_red_eq a3' a2 h1
  have e2 := reduced_red_eq b3 b2 h2
  exact map_letter_inj a3' b3 (e1.symm.trans e2)

theorem logOf_lt {e : Event} {s : State} (hs : Sync s) :
    ∀ x ∈ (logOf e s).map Prod.fst, x < 12 := by
  intro x hx
  cases e with
  | tick time =>
    simp only [logOf] at hx
    cases hc : committing time s with
    | none => rw [hc] at hx; simp at hx
    | some p =>
      obtain ⟨m, b⟩ := p
      rw [hc] at hx
      simp only [Option.toList, List.map_cons, List.map_nil, List.mem_singleton] at hx
      obtain ⟨-, q, st, hq, -⟩ := play_commit_eq sampleTrig hc
      rw [hx]
      exact hs.2.1 m (by rw [hq]; exact List.mem_cons_self _ _)
  | reset => simp [logOf] at hx
  | key m => simp [logOf] at hx
  | solve => simp [logOf] at hx

theorem committed_lt {tr : Trig} (evs : List Event) {s s' : State} (hs : Sync s)
    (h : run tr evs s = some s') : ∀ x ∈ committed tr evs s, x < 12 := by
  induction evs generalizing s with
  | nil => simp [committed, commitLog]
  | cons e evs ih =>
    obtain ⟨s1, h1, h2⟩ := run_cons h
    rw [committed_cons h1]
    intro x hx
    rcases List.mem_append.mp hx with hx | hx
    · exact logOf_lt hs x hx
    · exact ih (sync_step hs h1) h2 x hx

theorem reduced_step {tr : Trig} {e : Event} {s s' : State} (hs : Sync s)
    (hr : Reduced s.rotation_reversed.reverse) (h : step tr e s = some s') :
    Reduced s'.rotation_reversed.reverse := by
  cases e with
  | reset =>
    simp only [step, Option.some.injEq] at h
    subst h
    exact List.chain'_nil
  | key m =>
    simp only [step, Option.some.injEq] at h
    subst h
    exact hr
  | solve =>
    simp only [step, Option.some.injEq] at h
    subst h
    simp only [key_callback_SPACE, solveLoop_eq]
    exact List.chain'_nil
  | tick time =>
    rcases play_sched hs h with ⟨-, -, -, e3⟩ | ⟨m, q, b, st, -, -, -, -, -, -, e3⟩
    · rw [e3]; exact hr
    · rw [e3]; exact reduced_pushOrCancel hr

theorem reduced_run {tr : Trig} (evs : List Event) {s s' : State} (hs : Sync s)
    (hr : Reduced s.rotation_reversed.reverse) (h : run tr evs s = some s') :
    Reduced s'.rotation_reversed.reverse := by
  induction evs generalizing s with
  | nil =>
    simp only [run, Option.some.injEq] at h
    subst h
    exact hr
  | cons e evs ih =>
    obtain ⟨s1, h1, h2⟩ := run_cons h
    exact ih (sync_step hs h1) (reduced_step hs hr h1) h2

/-- C7. In every state reached from the reset state by key, solve and tick events (and
resets), the history, read from the bottom of the stack to its top, is a reduced word: no
entry `a` has the entry `b = (a + 6) % 12` directly above it.  If the run contains no
solve (and no reset), the history read bottom to top is the free reduction of the
sequence of the moves committed so far. -/
theorem history_reduced_word (tr : Trig) (evs : List Event) (s : State)
    (h : run tr evs resetState = some s) :
    List.Chain' (fun a b => b ≠ (a + 6) % 12) s.rotation_reversed.reverse ∧
    ((∀ e ∈ evs, e.isReset = false ∧ e.isSolve = false) →
      s.rotation_reversed.reverse = freeReduction (committed tr evs resetState)) := by
  refine ⟨reduced_run evs sync_resetState List.chain'_nil h, fun hev => ?_⟩
  rw [run_history evs sync_resetState h (fun e he => (hev e he).1) (fun e he => (hev e he).2)]
  exact pushAll_eq_freeReduction (committed_lt evs sync_resetState h)

/-- Witness for C7: the state after one committed front turn. -/
theorem history_reduced_word_witness :
    run sampleTrig frontTurnEvents resetState = some frontTurned ∧
    (List.Chain' (fun a b => b ≠ (a + 6) % 12) frontTurned.rotation_reversed.reverse ∧
    ((∀ e ∈ frontTurnEvents, e.isReset = false ∧ e.isSolve = false) →
      frontTurned.rotation_reversed.reverse
        = freeReduction (committed sampleTrig frontTurnEvents resetState))) :=
  ⟨frontTurned_run, history_reduced_word _ _ _ frontTurned_run⟩

/-! ## Solve -/

theorem SameSets.refl (F : FaceSets) : SameSets F F := fun _ _ => Iff.rfl

theorem SameSets.trans {F G H : FaceSets} (h1 : SameSets F G) (h2 : SameSets G H) :
    SameSets F H := fun f c => (h1 f c).trans (h2 f c)

theorem turnSets_congr {m : Nat} (hm : m < 12) {F G : FaceSets} (hF : F.Nodup)
    (hG : G.Nodup) (h : SameSets F G) : SameSets (turnSets m F) (turnSets m G) := by
  intro f c
  rw [mem_turnSets hm hF, mem_turnSets hm hG]
  simp only [h _ c]

theorem turnAll_nodup (ms : List Nat) {F : FaceSets} (hF : F.Nodup) :
    (turnAll ms F).Nodup := by
  induction ms generalizing F with
  | nil => exact hF
  | cons m ms ih => exact ih (turnSets_nodup m hF)

theorem turnAll_congr (ms : List Nat) (hms : ∀ x ∈ ms, x < 12) {F G : FaceSets}
    (hF : F.Nodup) (hG : G.Nodup) (h : SameSets F G) :
    SameSets (turnAll ms F) (turnAll ms G) := by
  induction ms generalizing F G with
  | nil => exact h
  | cons m ms ih =>
    exact ih (fun x hx => hms x (List.mem_cons_of_mem _ hx)) (turnSets_nodup m hF)
      (turnSets_nodup m hG) (turnSets_congr (hms m (List.mem_cons_self _ _)) hF hG h)

theorem turnAll_append (u v : List Nat) (F : FaceSets) :
    turnAll (u ++ v) F = turnAll v (turnAll u F) := by
  simp [turnAll, List.foldl_append]

theorem turnAll_cons (m : Nat) (ms : List Nat) (F : FaceSets) :
    turnAll (m :: ms) F = turnAll ms (turnSets m F) := rfl

theorem turnFace_inv {t : Nat} (ht : t < 12) : turnFace ((t + 6) % 12) = turnFace t := by
  interval_cases t <;> rfl

theorem srcFace_inv {t : Nat} (ht : t < 12) (g : Face) :
    srcFace t (srcFace ((t + 6) % 12) g) = g := by
  interval_cases t <;> cases g <;> rfl

/-- On the face sets, a move followed by its inverse changes no membership. -/
theorem turnSets_inv {t : Nat} (ht : t < 12) {F : FaceSets} (hF : F.Nodup) :
    SameSets (turnSets ((t + 6) % 12) (turnSets t F)) F := by
  intro g c
  have hm : (t + 6) % 12 < 12 := Nat.mod_lt _ (by decide)
  rw [mem_turnSets hm (turnSets_nodup t hF), turnFace_inv ht, turnSets_get_turnFace ht]
  by_cases hc : c ∈ F.get (turnFace t)
  · rw [if_pos hc, mem_turnSets ht hF, if_pos hc, srcFace_inv ht]
  · rw [if_neg hc, mem_turnSets ht hF, if_neg hc]

theorem turnAll_pushAll (ms : List Nat) (hist : List Nat) (hms : ∀ x ∈ ms, x < 12)
    (hh : ∀ x ∈ hist, x < 12) {F : FaceSets} (hF : F.Nodup) :
    SameSets (turnAll (hist.reverse ++ ms) F) (turnAll (pushAll ms hist).reverse F) := by
  induction ms generalizing hist with
  | nil =>
    simp only [pushAll, List.foldl_nil, List.append_nil]
    exact SameSets.refl _
  | cons m ms ih =>
    have hm := hms m (List.mem_cons_self _ _)
    have hms' : ∀ x ∈ ms, x < 12 := fun x hx => hms x (List.mem_cons_of_mem _ hx)
    refine SameSets.trans ?_ (ih (pushOrCancel m hist) hms' (pushOrCancel_lt hm hh))
    cases hist with
    | nil => exact SameSets.refl _
    | cons t rest =>
      simp only [pushOrCancel]
      split
      · rename_i hinv
        have ht := hh t (List.mem_cons_self _ _)
        rw [List.reverse_cons, List.append_assoc, List.singleton_append, turnAll_append,
          turnAll_cons, turnAll_cons, turnAll_append]
        apply turnAll_congr ms hms' ?_ (turnAll_nodup _ hF)
        · have := turnSets_inv ht (turnAll_nodup rest.reverse hF)
          rw [hinv] at this
          exact this
        · exact turnSets_nodup _ (turnSets_nodup _ (turnAll_nodup _ hF))
      · simp only [List.reverse_cons, List.append_assoc, List.singleton_append]
        exact SameSets.refl _

/-- Committing the inverses of a word of moves, last move first, undoes the word on the
face sets. -/
theorem turnAll_undo (hist : List Nat) (hh : ∀ x ∈ hist, x < 12) {F : FaceSets}
    (hF : F.Nodup) :
    SameSets (turnAll (hist.map fun t => (t + 6) % 12) (turnAll hist.reverse F)) F := by
  induction hist with
  | nil => exact SameSets.refl _
  | cons t rest ih =>
    have ht := hh t (List.mem_cons_self _ _)
    have hrest : ∀ x ∈ rest, x < 12 := fun x hx => hh x (List.mem_cons_of_mem _ hx)
    have hinv : ∀ x ∈ rest.map (fun t => (t + 6) % 12), x < 12 := by
      intro x hx
      obtain ⟨y, -, rfl⟩ := List.mem_map.mp hx
      exact Nat.mod_lt _ (by decide)
    refine SameSets.trans ?_ (ih hrest)
    rw [List.map_cons, List.reverse_cons, turnAll_append, turnAll_cons, turnAll_cons]
    show SameSets (turnAll _ (turnSets ((t + 6) % 12) (turnSets t (turnAll rest.reverse F))))
      (turnAll _ (turnAll rest.reverse F))
    exact turnAll_congr _ hinv (turnSets_nodup _ (turnSets_nodup _ (turnAll_nodup _ hF)))
      (turnAll_nodup _ hF) (turnSets_inv ht (turnAll_nodup _ hF))

theorem solve_spec (s : State) :
    (key_callback_SPACE s).faces = s.faces ∧
    (key_callback_SPACE s).rotation_options =
      s.rotation_options ++ s.rotation_reversed.map (fun t => (t + 6) % 12) ∧
    (key_callback_SPACE s).rotation_reversed = [] ∧
    (key_callback_SPACE s).cubes = s.cubes := by
  simp [key_callback_SPACE, solveLoop_eq]

/-- C5. Solve property: from the reset state, moves are enqueued and `play` runs (any
interleaving, any clock values) until the queue is empty; then solve is invoked and `play`
runs until the queue is empty again.  Then each of the six face sets has the same members
as in the reset state. -/
theorem solve_restores_faces (tr : Trig) (evs : List Event) (ts : List ℚ) (s1 s3 : State)
    (h1 : run tr evs resetState = some s1)
    (hev : ∀ e ∈ evs, e.isReset = false ∧ e.isSolve = false)
    (hq1 : s1.rotation_options = [])
    (h3 : run tr (ts.map .tick) (key_callback_SPACE s1) = some s3)
    (hq3 : s3.rotation_options = []) :
    ∀ f c, c ∈ s3.faces.get f ↔ c ∈ resetState.faces.get f := by
  have hr1 : ∀ e ∈ evs, e.isReset = false := fun e he => (hev e he).1
  have hv1 : ∀ e ∈ evs, e.isSolve = false := fun e he => (hev e he).2
  have hs1 : Sync s1 := sync_run evs sync_resetState h1
  have hs2 : Sync (key_callback_SPACE s1) := sync_solve hs1
  obtain ⟨k1, k2, k3, -⟩ := solve_spec s1
  have hms := committed_lt evs sync_resetState h1
  have hF1 := run_faces evs sync_resetState h1 hr1
  have hH1 := run_history evs sync_resetState h1 hr1 hv1
  have hF3 := run_faces _ hs2 h3 (isReset_ticks ts)
  have hQ3 := run_queue _ hs2 h3 (isReset_ticks ts) (isSolve_ticks ts)
  rw [keysOf_ticks, List.append_nil, k2, hq1, hq3, List.nil_append, List.append_nil] at hQ3
  rw [← hQ3, k1, hF1, hH1] at hF3
  have e0 : resetState.rotation_reversed = [] := rfl
  have e1 : resetState.faces = solvedFaces := rfl
  rw [e0, e1] at hF3
  rw [hF3, e1]
  have hN : solvedFaces.Nodup := faceInv_solved.1
  obtain ⟨-, -, a3⟩ := pushAll_spec _ [] hms (by simp) List.chain'_nil
  have hinv : ∀ x ∈ (pushAll (committed tr evs resetState) []).map (fun t => (t + 6) % 12),
      x < 12 := by
    intro x hx
    obtain ⟨y, -, rfl⟩ := List.mem_map.mp hx
    exact Nat.mod_lt _ (by decide)
  have step1 := turnAll_pushAll _ [] hms (by simp) hN
  simp only [List.reverse_nil, List.nil_append] at step1
  exact SameSets.trans
    (turnAll_congr _ hinv (turnAll_nodup _ hN) (turnAll_nodup _ hN) step1)
    (turnAll_undo _ a3 hN)

set_option maxRecDepth 100000 in
theorem frontSolved_run :
    run sampleTrig (frontTurnTicks.map .tick) (key_callback_SPACE frontTurned)
      = some frontSolved :=
  some_getD_of_isSome _ (by decide)

set_option maxRecDepth 100000 in
theorem frontTurned_queue : frontTurned.rotation_options = [] := by decide

set_option maxRecDepth 100000 in
theorem frontSolved_queue : frontSolved.rotation_options = [] := by decide

/-- Witness for C5: a front turn, the solve key, and the animation of the solving move. -/
theorem solve_restores_faces_witness :
    run sampleTrig frontTurnEvents resetState = some frontTurned ∧
    (∀ e ∈ frontTurnEvents, e.isReset = false ∧ e.isSolve = false) ∧
    frontTurned.rotation_options = [] ∧
    run sampleTrig (frontTurnTicks.map .tick) (key_callback_SPACE frontTurned)
      = some frontSolved ∧
    frontSolved.rotation_options = [] ∧
    (∀ f c, c ∈ frontSolved.faces.get f ↔ c ∈ resetState.faces.get f) :=
  have hev : ∀ e ∈ frontTurnEvents, e.isReset = false ∧ e.isSolve = false := by
    intro e he
    rcases List.mem_cons.mp he with rfl | he
    · exact ⟨rfl, rfl⟩
    · exact ⟨isReset_ticks _ e he, isSolve_ticks _ e he⟩
  ⟨frontTurned_run, hev, frontTurned_queue, frontSolved_run, frontSolved_queue,
    solve_restores_faces _ _ _ _ _ frontTurned_run hev frontTurned_queue frontSolved_run
      frontSolved_queue⟩

/-! ## The pose buffer and the commit of the poses -/

theorem poses_length (tr : Trig) (sign : ℚ) (ax : Axis) (T : Mat) :
    (poses tr sign ax T).length = 24 := by
  simp [poses, FRAME_NUM]

theorem poses_getElem (tr : Trig) (sign : ℚ) (ax : Axis) (T : Mat) {f : Nat} (hf : f < 24) :
    (poses tr sign ax T)[f]? = some (angleAxis tr sign f ax * T) := by
  simp [poses, FRAME_NUM, List.getElem?_map, List.getElem?_range hf]

/-- The pose buffer after priming: pose `f` of the `i`-th cubie of the turning face is at
index `i * 24 + f`. -/
theorem primeLoop_getElem {tr : Trig} {sign : ℚ} {ax : Axis} {cubes : List Mat}
    (L : List Nat) {fr : List Mat} (h : primeLoop tr sign ax cubes L = some fr) :
    fr.length = L.length * 24 ∧
    ∀ i c, L[i]? = some c → ∃ T, cubes[c]? = some T ∧
      ∀ f, f < 24 → fr[i * 24 + f]? = some (angleAxis tr sign f ax * T) := by
  induction L generalizing fr with
  | nil =>
    simp only [primeLoop, Option.some.injEq] at h
    subst h
    simp
  | cons a L ih =>
    simp only [primeLoop] at h
    split at h
    · rename_i T more hT hmore
      simp only [Option.some.injEq] at h
      subst h
      obtain ⟨i1, i2⟩ := ih hmore
      refine ⟨by simp [poses_length, i1]; ring, ?_⟩
      intro i c hi
      cases i with
      | zero =>
        simp only [List.getElem?_cons_zero, Option.some.injEq] at hi
        subst hi
        refine ⟨T, hT, fun f hf => ?_⟩
        rw [Nat.zero_mul, Nat.zero_add,
          List.getElem?_append_left (by rw [poses_length]; exact hf)]
        exact poses_getElem tr sign ax T hf
      | succ i =>
        simp only [List.getElem?_cons_succ] at hi
        obtain ⟨T1, hT1, hfr⟩ := i2 i c hi
        refine ⟨T1, hT1, fun f hf => ?_⟩
        rw [List.getElem?_append_right (by rw [poses_length]; omega), poses_length]
        have e : (i + 1) * 24 + f - 24 = i * 24 + f := by omega
        rw [e]
        exact hfr f hf
    · exact absurd h (by simp)

/-- The transforms written by the loop of a commit block: every cubie of the turning face
gets the entry of the pose buffer that the loop reads for it. -/
theorem commitLoop_cubes {n0 n1 n2 n3 : Face} {frames : List Mat} (g : Nat → Mat)
    (L : List Nat) (hL : L.Nodup) (k : Nat) (cubes : List Mat) (F : FaceSets)
    (hfr : ∀ i c, L[i]? = some c → frames[(k + i) * 24 + 23]? = some (g c))
    {r : List Mat × FaceSets} (h : commitLoop n0 n1 n2 n3 frames L k cubes F = some r) :
    r.1.length = cubes.length ∧
    ∀ j, r.1[j]? = if j ∈ L then some (g j) else cubes[j]? := by
  induction L generalizing k cubes F with
  | nil =>
    simp only [commitLoop, Option.some.injEq] at h
    subst h
    simp
  | cons a L ih =>
    simp only [commitLoop, FRAME_NUM] at h
    have h0 := hfr 0 a (List.getElem?_cons_zero)
    have e : k * 24 + 24 - 1 = (k + 0) * 24 + 23 := by omega
    rw [e, h0] at h
    simp only at h
    split at h
    · rename_i ha
      have hfr' : ∀ i c, L[i]? = some c → frames[(k + 1 + i) * 24 + 23]? = some (g c) := by
        intro i c hi
        have := hfr (i + 1) c (by simpa using hi)
        have e2 : k + 1 + i = k + (i + 1) := by omega
        rw [e2]
        exact this
      obtain ⟨i1, i2⟩ := ih (List.nodup_cons.mp hL).2 (k + 1) _ _ hfr' h
      refine ⟨by rw [i1, List.length_set], fun j => ?_⟩
      rw [i2 j]
      have haL : a ∉ L := (List.nodup_cons.mp hL).1
      by_cases hj : j ∈ L
      · have : j ∈ a :: L := List.mem_cons_of_mem _ hj
        simp only [hj, this, if_true]
      · by_cases hja : j = a
        · subst hja
          simp [hj, List.getElem?_set_self ha]
        · have : j ∉ a :: L := by
            intro hmem
            rcases List.mem_cons.mp hmem with h1 | h1
            · exact hja h1
            · exact hj h1
          simp only [hj, this, if_false]
          exact List.getElem?_set_ne (fun e => hja e.symm)
    · exact absurd h (by simp)

theorem blendLoop_spec {time : ℚ} {frames : List Mat} {fc : Int} (L : List Nat)
    (count : Nat) (cubes : List Mat) {r : List Mat}
    (h : blendLoop time frames fc L count cubes = some r) :
    r.length = cubes.length ∧ ∀ j, j ∉ L → r[j]? = cubes[j]? := by
  induction L generalizing count cubes with
  | nil =>
    simp only [blendLoop, Option.some.injEq] at h
    subst h
    simp
  | cons a L ih =>
    simp only [blendLoop] at h
    split at h
    · split at h
      · obtain ⟨i1, i2⟩ := ih _ _ h
        refine ⟨by rw [i1, List.length_set], fun j hj => ?_⟩
        have hja : j ≠ a := fun e => hj (e ▸ List.mem_cons_self _ _)
        rw [i2 j (fun hm => hj (List.mem_cons_of_mem _ hm))]
        exact List.getElem?_set_ne (fun e => hja e.symm)
      · exact absurd h (by simp)
    · exact absurd h (by simp)

theorem turnPoses_length (tr : Trig) (m : Nat) (F : FaceSets) (base : List Mat) :
    (turnPoses tr m F base).length = base.length := by
  simp [turnPoses]

theorem turnPoses_getElem (tr : Trig) (m : Nat) (F : FaceSets) (base : List Mat) (j : Nat) :
    (turnPoses tr m F base)[j]? =
      (base[j]?).map fun T => if j ∈ F.get (turnFace m) then quarter tr m * T else T := by
  simp [turnPoses]

/-- The commit block of a primed move writes the quarter-turned transforms. -/
theorem commitLoop_primed {tr : Trig} {m : Nat} {n0 n1 n2 n3 : Face} {frames cubes : List Mat}
    {F G : FaceSets} {base : List Mat} (hN : (F.get (turnFace m)).Nodup)
    (hb : ∀ c ∈ F.get (turnFace m), c < base.length)
    (hfr : primeLoop tr (signOf m) (axisOf m) base (F.get (turnFace m)) = some frames)
    (hoff : ∀ c, c ∉ F.get (turnFace m) → cubes[c]? = base[c]?)
    {r : List Mat × FaceSets}
    (h : commitLoop n0 n1 n2 n3 frames (F.get (turnFace m)) 0 cubes G = some r) :
    r.1 = turnPoses tr m F base := by
  obtain ⟨-, p2⟩ := primeLoop_getElem _ hfr
  have hfr' : ∀ i c, (F.get (turnFace m))[i]? = some c →
      frames[(0 + i) * 24 + 23]? = some (quarter tr m * base.getD c 1) := by
    intro i c hi
    obtain ⟨T, hT, hp⟩ := p2 i c hi
    rw [Nat.zero_add, hp 23 (by decide), List.getD_eq_getElem?_getD, hT]
    rfl
  obtain ⟨-, c2⟩ := commitLoop_cubes (fun c => quarter tr m * base.getD c 1) _ hN 0 cubes G
    hfr' h
  apply List.ext_getElem?
  intro j
  rw [c2 j, turnPoses_getElem]
  by_cases hj : j ∈ F.get (turnFace m)
  · have hjb := hb j hj
    simp only [hj, if_true, List.getD_eq_getElem?_getD, List.getElem?_eq_getElem hjb,
      Option.getD_some, Option.map_some']
  · simp only [hj, if_false, hoff j hj]
    cases base[j]? <;> rfl

theorem head_append_false {st : List Bool} (h : st.head? ≠ some true) (tl : List Bool)
    (htl : ∀ b ∈ tl, b = false) : (st ++ tl).head? ≠ some true := by
  cases st with
  | nil =>
    cases tl with
    | nil => simp
    | cons b tl =>
      have := htl b (List.mem_cons_self _ _)
      simp [this]
  | cons b st => simpa using h

theorem tail_append_false {st : List Bool} (h : ∀ b ∈ st.tail, b = false) (tl : List Bool)
    (htl : ∀ b ∈ tl, b = false) : ∀ b ∈ (st ++ tl).tail, b = false := by
  cases st with
  | nil => exact fun b hb => htl b (List.mem_of_mem_tail hb)
  | cons a st =>
    intro b hb
    simp only [List.cons_append, List.tail_cons, List.mem_append] at hb
    rcases hb with hb | hb
    · exact h b hb
    · exact htl b hb

/-- Appending unstarted moves to the queue keeps the pose invariant. -/
theorem poseInv_append {tr : Trig} {s s' : State} {base : List Mat} (hI : PoseInv tr s base)
    (hs' : Sync s') (q : List Nat) (tl : List Bool) (htl : ∀ b ∈ tl, b = false)
    (e1 : s'.rotation_options = s.rotation_options ++ q)
    (e2 : s'.rotation_started = s.rotation_started ++ tl)
    (e3 : s'.faces = s.faces) (e4 : s'.cubes = s.cubes) (e5 : s'.frames = s.frames) :
    PoseInv tr s' base := by
  obtain ⟨-, i2, i3, i4, i5⟩ := hI
  refine ⟨hs', by rw [e3]; exact i2, by rw [e3]; exact i3, ?_, ?_⟩
  · rw [e2]
    exact tail_append_false i4 tl htl
  · rcases i5 with ⟨a, b⟩ | ⟨m, q0, st, a, b, c, d, e⟩
    · left
      exact ⟨by rw [e2]; exact head_append_false a tl htl, by rw [e4]; exact b⟩
    · right
      exact ⟨m, q0 ++ q, st ++ tl, by rw [e1, a]; rfl, by rw [e2, b]; rfl,
        by rw [e3, e5]; exact c, by rw [e4]; exact d, by rw [e3, e4]; exact e⟩

theorem poseInv_same {tr : Trig} {s s' : State} {base : List Mat} (hI : PoseInv tr s base)
    (hs' : Sync s') (e1 : s'.rotation_options = s.rotation_options)
    (e2 : s'.rotation_started = s.rotation_started)
    (e3 : s'.faces = s.faces) (e4 : s'.cubes = s.cubes) (e5 : s'.frames = s.frames) :
    PoseInv tr s' base :=
  poseInv_append hI hs' [] [] (by simp) (by rw [e1, List.append_nil])
    (by rw [e2, List.append_nil]) e3 e4 e5

theorem turnBothAll_nil (tr : Trig) (p : List Mat × FaceSets) : turnBothAll tr [] p = p := rfl

theorem turnBothAll_single (tr : Trig) (m : Nat) (p : List Mat × FaceSets) :
    turnBothAll tr [m] p = (turnPoses tr m p.2 p.1, turnSets m p.2) := rfl

/-- One call of `play` keeps the pose invariant, provided that a move it commits has been
primed; the committed transforms and the face sets change by the committed move. -/
theorem poseInv_play {tr : Trig} {time : ℚ} {s s' : State} {base : List Mat}
    (hI : PoseInv tr s base) (h : play tr time s = some s')
    (hp : ∀ x ∈ (committing time s).toList, x.2 = true) :
    PoseInv tr s' (turnBothAll tr ((committing time s).toList.map Prod.fst) (base, s.faces)).1 ∧
    s'.faces = (turnBothAll tr ((committing time s).toList.map Prod.fst) (base, s.faces)).2 := by
  have hs := hI.1
  have hs' := sync_play hs h
  obtain ⟨f1, f2, f3, f4, f5, f6⟩ := fetch_proj s
  have hsf := sync_fetch hs
  have hIf : PoseInv tr (fetch s) base := poseInv_same hI hsf f2 f3 f1 f5 f6
  rcases play_cases hs h with ⟨a, rfl⟩ | ⟨a, b, c, rfl⟩ | ⟨a, b, s2, hf, rfl⟩ | ⟨a, b, c, hi⟩
  · have hc : committing time s = none := by simp [committing, a, FRAME_NUM]
    simp only [hc, Option.toList, List.map_nil, turnBothAll_nil]
    exact ⟨hIf, f1⟩
  · have hne : ¬ (fetch s).frame_cnt = 22 := by omega
    have hc : committing time s = none := by simp [committing, FRAME_NUM, hne]
    simp only [hc, Option.toList, List.map_nil, turnBothAll_nil]
    exact ⟨poseInv_same hIf hs' rfl rfl rfl rfl rfl, f1⟩
  · obtain ⟨m, q, b0, st, hq, hst, hcb, e1, e2, e3, e4, -⟩ := finish_spec hf
    obtain ⟨g1, g2, g3, g4, g5, g6, g7⟩ := advance_proj s2
    have hq' := hq
    have hst' := hst
    rw [f2] at hq'
    rw [f3] at hst'
    have hc : committing time s = some (m, b0) := by
      simp [committing, FRAME_NUM, a, b, hq', hst']
    have hb0 : b0 = true := hp (m, b0) (by simp [hc])
    subst hb0
    simp only [hc, Option.toList, List.map_cons, List.map_nil, turnBothAll_single]
    have hm : m < 12 := hsf.2.1 m (by rw [hq]; exact List.mem_cons_self _ _)
    have hro : (fetch s).rotation_option = (m : Int) := by
      rcases hsf.2.2 with h0 | ⟨-, -, m0, q0, hq0, hr0⟩
      · rw [a] at h0; exact absurd h0 (by decide)
      · rw [hq] at hq0
        simp only [List.cons.injEq] at hq0
        rw [hr0, hq0.1]
    obtain ⟨-, i2, i3, i4, i5⟩ := hIf
    have hfaces : s2.faces = turnSets m s.faces := by
      have := commitBlocks_faces hro hcb
      rw [f1] at this
      exact this
    have hcubes : s2.cubes = turnPoses tr m s.faces base := by
      rcases i5 with ⟨x, -⟩ | ⟨m1, q1, st1, y1, y2, y3, y4, y5⟩
      · rw [hst] at x
        exact absurd rfl x
      · rw [hq] at y1
        simp only [List.cons.injEq] at y1
        obtain ⟨rfl, -⟩ := y1
        obtain ⟨n0, n1, n2, n3, hrow, -⟩ := moveRow_turning hm
        simp only [commitBlocks, hro, Int.toNat_ofNat, Int.ofNat_nonneg, if_true, hrow] at hcb
        rw [f1] at y3 y5 hcb i2 i3
        exact commitLoop_primed (i2 _) (i3 _) y3 y5 hcb
    refine ⟨⟨hs', ?_, ?_, ?_, Or.inl ⟨?_, by rw [g5, hcubes]⟩⟩, by rw [g1, hfaces]⟩
    · rw [g1, hfaces]
      rw [f1] at i2
      exact turnSets_nodup m i2
    · intro f c hc
      rw [g1, hfaces] at hc
      rw [f1] at i2 i3
      rw [turnPoses_length]
      rw [mem_turnSets hm i2] at hc
      split at hc
      · exact i3 _ c hc
      · exact i3 _ c hc
    · rw [g3, e2]
      rw [hst] at i4
      exact fun x hx => i4 x (List.mem_of_mem_tail hx)
    · rw [g3, e2]
      rw [hst] at i4
      simp only [List.tail_cons] at i4
      cases st with
      | nil => simp
      | cons x st =>
        have := i4 x (List.mem_cons_self _ _)
        simp [this]
  · have hc : committing time s = none := by simp [committing, c]
    simp only [hc, Option.toList, List.map_nil, turnBothAll_nil]
    have hro : ∃ m q, (fetch s).rotation_options = m :: q ∧ m < 12 ∧
        (fetch s).rotation_option = (m : Int) := by
      rcases hsf.2.2 with h0 | ⟨-, -, m0, q0, hq0, hr0⟩
      · omega
      · exact ⟨m0, q0, hq0, hsf.2.1 m0 (by rw [hq0]; exact List.mem_cons_self _ _), hr0⟩
    obtain ⟨m, q, hq, hm, hro⟩ := hro
    obtain ⟨s1, cubes, h1, hbl, rfl⟩ := interpolate_spec hm hro hi
    obtain ⟨r1, r2, r3, r4, r5, r6⟩ := rotate_spec h1
    obtain ⟨bl1, bl2⟩ := blendLoop_spec _ _ _ hbl
    obtain ⟨-, i2, i3, i4, i5⟩ := hIf
    refine ⟨⟨hs', ?_, ?_, ?_, Or.inr ⟨m, q, ?_⟩⟩, ?_⟩
    · show s1.faces.Nodup
      rw [r1]; exact i2
    · show ∀ f, ∀ c ∈ s1.faces.get f, c < base.length
      rw [r1]; exact i3
    · show ∀ b ∈ s1.rotation_started.tail, b = false
      rcases r6 with ⟨st, -, rfl⟩ | ⟨st, fr, p1, p2, -⟩
      · exact i4
      · rw [p2]
        rw [p1] at i4
        exact i4
    · show ∃ st, s1.rotation_options = m :: q ∧ s1.rotation_started = true :: st ∧
        primeLoop tr (signOf m) (axisOf m) base (s1.faces.get (turnFace m)) = some s1.frames ∧
        cubes.length = base.length ∧ ∀ c, c ∉ s1.faces.get (turnFace m) → cubes[c]? = base[c]?
      rcases r6 with ⟨st, p1, rfl⟩ | ⟨st, fr, p1, p2, p3, p4, -⟩
      · rcases i5 with ⟨x, -⟩ | ⟨m1, q1, st1, y1, y2, y3, y4, y5⟩
        · rw [p1] at x
          exact absurd rfl x
        · rw [hq] at y1
          simp only [List.cons.injEq] at y1
          obtain ⟨rfl, rfl⟩ := y1
          exact ⟨st1, hq, y2, y3, by rw [bl1, y4], fun c hc => by rw [bl2 c hc, y5 c hc]⟩
      · rcases i5 with ⟨-, x⟩ | ⟨m1, q1, st1, y1, y2, -⟩
        · rw [x] at p3
          refine ⟨st, by rw [r2, hq], p2, by rw [r1, p4]; exact p3, by rw [bl1, r5, x],
            fun c hc => by rw [bl2 c hc, r5, x]⟩
        · rw [p1] at y2
          exact absurd y2 (by simp)
    · show s1.faces = s.faces
      rw [r1, f1]

theorem poseInv_step {tr : Trig} {e : Event} {s s' : State} {base : List Mat}
    (hI : PoseInv tr s base) (h : step tr e s = some s') (hr : e.isReset = false)
    (hp : ∀ x ∈ logOf e s, x.2 = true) :
    PoseInv tr s' (turnBothAll tr ((logOf e s).map Prod.fst) (base, s.faces)).1 ∧
    s'.faces = (turnBothAll tr ((logOf e s).map Prod.fst) (base, s.faces)).2 := by
  cases e with
  | reset => exact absurd hr (by simp [Event.isReset])
  | key m =>
    simp only [step, Option.some.injEq] at h
    subst h
    exact ⟨poseInv_append hI (sync_enqueue hI.1 m.isLt) [m.val] [false] (by simp) rfl rfl
      rfl rfl rfl, rfl⟩
  | solve =>
    simp only [step, Option.some.injEq] at h
    subst h
    refine ⟨poseInv_append hI (sync_solve hI.1)
      (s.rotation_reversed.map fun t => (t + 6) % 12)
      (List.replicate s.rotation_reversed.length false) ?_ ?_ ?_ rfl rfl rfl, rfl⟩
    · intro b hb
      exact (List.mem_replicate.mp hb).2
    · simp [key_callback_SPACE, solveLoop_eq]
    · simp [key_callback_SPACE, solveLoop_eq]
  | tick time => exact poseInv_play hI h hp

theorem turnBothAll_append (tr : Trig) (u v : List Nat) (p : List Mat × FaceSets) :
    turnBothAll tr (u ++ v) p = turnBothAll tr v (turnBothAll tr u p) := by
  simp [turnBothAll, List.foldl_append]

theorem commitLog_cons {tr : Trig} {e : Event} {evs : List Event} {s s1 : State}
    (h : step tr e s = some s1) :
    commitLog tr (e :: evs) s = logOf e s ++ commitLog tr evs s1 := by
  simp [commitLog, h]

/-- A run without reset in which every committed move had been primed keeps the pose
invariant; the committed transforms and the face sets are those obtained by turning the
committed moves one after the other. -/
theorem poseInv_run {tr : Trig} (evs : List Event) {s s' : State} {base : List Mat}
    (hI : PoseInv tr s base) (h : run tr evs s = some s')
    (hr : ∀ e ∈ evs, e.isReset = false) (hp : ∀ x ∈ commitLog tr evs s, x.2 = true) :
    PoseInv tr s' (turnBothAll tr (committed tr evs s) (base, s.faces)).1 ∧
    s'.faces = (turnBothAll tr (committed tr evs s) (base, s.faces)).2 := by
  induction evs generalizing s base with
  | nil =>
    simp only [run, Option.some.injEq] at h
    subst h
    exact ⟨hI, rfl⟩
  | cons e evs ih =>
    obtain ⟨s1, h1, h2⟩ := run_cons h
    rw [commitLog_cons h1] at hp
    obtain ⟨j1, j2⟩ := poseInv_step hI h1 (hr e (List.mem_cons_self _ _))
      (fun x hx => hp x (List.mem_append_left _ hx))
    obtain ⟨k1, k2⟩ := ih j1 h2 (fun e he => hr e (List.mem_cons_of_mem _ he))
      (fun x hx => hp x (List.mem_append_right _ hx))
    rw [committed_cons h1, turnBothAll_append]
    rw [j2] at k1 k2
    exact ⟨k1, k2⟩

theorem poseInv_settled {tr : Trig} {s : State} {base : List Mat} (hI : PoseInv tr s base)
    (hq : s.rotation_started.head? ≠ some true) : s.cubes = base := by
  rcases hI.2.2.2.2 with ⟨-, x⟩ | ⟨m, q, st, -, y, -⟩
  · exact x
  · rw [y] at hq
    exact absurd rfl hq

/-! ## Quarter turns -/

theorem rotation_mul (ax : Axis) (c1 s1 c2 s2 : ℚ) :
    rotation ax c1 s1 * rotation ax c2 s2 =
      rotation ax (c1 * c2 - s1 * s2) (s1 * c2 + c1 * s2) := by
  cases ax <;>
    (ext i j
     fin_cases i <;> fin_cases j <;>
       simp [rotation, Matrix.mul_apply, Fin.sum_univ_four, Matrix.vecHead, Matrix.vecTail] <;>
       ring)

theorem rotation_one (ax : Axis) : rotation ax 1 0 = 1 := by
  cases ax <;>
    (ext i j
     fin_cases i <;> fin_cases j <;> simp [rotation, Matrix.vecHead, Matrix.vecTail])

theorem quarter_eq {tr : Trig} (hx : tr.Exact) (m : Nat) :
    quarter tr m = rotation (axisOf m) 0 (signOf m) := by
  obtain ⟨-, -, h3, h4⟩ := hx
  simp [quarter, angleAxis, h3, h4]

theorem signOf_sq {m : Nat} (hm : m < 12) : signOf m * signOf m = 1 := by
  interval_cases m <;> simp [signOf]

theorem signOf_inv {m : Nat} (hm : m < 12) : signOf ((m + 6) % 12) = -signOf m := by
  interval_cases m <;> simp [signOf]

theorem axisOf_inv {m : Nat} (hm : m < 12) : axisOf ((m + 6) % 12) = axisOf m := by
  interval_cases m <;> rfl

/-- The quarter turn of the inverse move undoes the quarter turn of a move. -/
theorem quarter_inv {tr : Trig} (hx : tr.Exact) {m : Nat} (hm : m < 12) :
    quarter tr ((m + 6) % 12) * quarter tr m = 1 := by
  rw [quarter_eq hx, quarter_eq hx, axisOf_inv hm, signOf_inv hm, rotation_mul]
  have h := signOf_sq hm
  have e1 : (0 : ℚ) * 0 - -signOf m * signOf m = 1 := by linarith
  have e2 : -signOf m * 0 + 0 * signOf m = 0 := by ring
  rw [e1, e2, rotation_one]

/-- Four quarter turns of the same move are the identity. -/
theorem quarter_four {tr : Trig} (hx : tr.Exact) {m : Nat} (hm : m < 12) :
    quarter tr m * (quarter tr m * (quarter tr m * quarter tr m)) = 1 := by
  rw [quarter_eq hx, rotation_mul, rotation_mul, rotation_mul]
  have h := signOf_sq hm
  have e1 : (0 : ℚ) * (0 * (0 * 0 - signOf m * signOf m) - signOf m * (signOf m * 0 + 0 * signOf m))
      - signOf m * (signOf m * (0 * 0 - signOf m * signOf m) + 0 * (signOf m * 0 + 0 * signOf m))
      = 1 := by
    have : signOf m * (signOf m * (0 * 0 - signOf m * signOf m)) = -1 := by
      rw [h]; linarith
    linarith
  have e2 : signOf m * (0 * (0 * 0 - signOf m * signOf m) - signOf m * (signOf m * 0 + 0 * signOf m))
      + 0 * (signOf m * (0 * 0 - signOf m * signOf m) + 0 * (signOf m * 0 + 0 * signOf m))
      = 0 := by ring
  rw [e1, e2, rotation_one]

/-! ## Round trips -/

theorem turnPoses_eq_spin (tr : Trig) (m : Nat) (F : FaceSets) (base : List Mat) :
    turnPoses tr m F base = spin (quarter tr m) (F.get (turnFace m)) base := rfl

theorem spin_spin (A B : Mat) (L : List Nat) (base : List Mat) :
    spin A L (spin B L base) = spin (A * B) L base := by
  apply List.ext_getElem?
  intro j
  simp only [spin, List.getElem?_mapIdx, Option.map_map]
  cases base[j]? with
  | none => rfl
  | some T =>
    by_cases hj : j ∈ L <;> simp [hj, Matrix.mul_assoc]

theorem spin_one (L : List Nat) (base : List Mat) : spin 1 L base = base := by
  apply List.ext_getElem?
  intro j
  simp only [spin, List.getElem?_mapIdx]
  cases base[j]? with
  | none => rfl
  | some T => simp

theorem poseInv_of_idle (tr : Trig) {s : State} (hidle : Idle s) (hF : MembershipInv s.faces)
    (hlen : s.cubes.length = 27) : PoseInv tr s s.cubes := by
  obtain ⟨a, b, c, d⟩ := hidle
  refine ⟨⟨by rw [a, b]; rfl, by rw [a]; simp, Or.inl d⟩, fun f => (hF f).1,
    fun f c hc => by rw [hlen]; exact (hF f).2.2 c hc, by rw [b]; simp,
    Or.inl ⟨by rw [b]; simp, rfl⟩⟩

theorem started_nil_of_queue_nil {s : State} (hs : Sync s) (hq : s.rotation_options = []) :
    s.rotation_started = [] := by
  have := hs.1
  rw [hq] at this
  exact List.eq_nil_of_length_eq_zero this.symm

/-- A primed commit of a move followed by a primed commit of its inverse restores the
face sets (as sets) and the transforms. -/
theorem pair_restores {tr : Trig} (hx : tr.Exact) {m : Nat} (hm : m < 12)
    {s s' : State} {evs : List Event} (hI : PoseInv tr s s.cubes)
    (hr : ∀ e ∈ evs, e.isReset = false) (h : run tr evs s = some s')
    (hlog : commitLog tr evs s = [(m, true), ((m + 6) % 12, true)])
    (hq : s'.rotation_options = []) :
    SameSets s'.faces s.faces ∧ s'.cubes = s.cubes := by
  have hp : ∀ x ∈ commitLog tr evs s, x.2 = true := by
    intro x hx'
    rw [hlog] at hx'
    simp only [List.mem_cons, List.mem_singleton, List.not_mem_nil, or_false] at hx'
    rcases hx' with rfl | rfl <;> rfl
  obtain ⟨j1, j2⟩ := poseInv_run evs hI h hr hp
  have hc : committed tr evs s = [m, (m + 6) % 12] := by simp [committed, hlog]
  rw [hc] at j1 j2
  have hst := started_nil_of_queue_nil j1.1 hq
  have hcubes := poseInv_settled j1 (by rw [hst]; simp)
  have e : turnBothAll tr [m, (m + 6) % 12] (s.cubes, s.faces) =
      (turnPoses tr ((m + 6) % 12) (turnSets m s.faces) (turnPoses tr m s.faces s.cubes),
        turnSets ((m + 6) % 12) (turnSets m s.faces)) := rfl
  rw [e] at j2 hcubes
  refine ⟨by rw [j2]; exact turnSets_inv hm hI.2.1, ?_⟩
  rw [hcubes, turnPoses_eq_spin, turnPoses_eq_spin, turnFace_inv hm,
    turnSets_get_turnFace hm, spin_spin, quarter_inv hx hm, spin_one]

/-- Round-trip law for primed commits (the part of C3 that holds on the code): let the
scheduler be idle in a cube state that satisfies the
membership invariant (27 transforms).  If a run of events commits exactly the move `m`
and then the move `(m + 6) % 12`, each after it has been primed by its `rotate_*`
function, and leaves the queue empty, then the six face sets have the same members and
every transform is the same as before the two moves (exact quarter turns). -/
theorem round_trip_primed (tr : Trig) (hx : tr.Exact) (m : Nat) (hm : m < 12) (s s' : State)
    (evs : List Event) (hidle : Idle s) (hF : MembershipInv s.faces)
    (hlen : s.cubes.length = 27) (hr : ∀ e ∈ evs, e.isReset = false)
    (h : run tr evs s = some s')
    (hlog : commitLog tr evs s = [(m, true), ((m + 6) % 12, true)])
    (hq : s'.rotation_options = []) :
    (∀ f c, c ∈ s'.faces.get f ↔ c ∈ s.faces.get f) ∧ s'.cubes = s.cubes :=
  pair_restores hx hm (poseInv_of_idle tr hidle hF hlen) hr h hlog hq

theorem sampleTrig_exact : sampleTrig.Exact := by
  simp [Trig.Exact, sampleTrig, FRAME_NUM]

theorem idle_resetState : Idle resetState := ⟨rfl, rfl, rfl, rfl⟩

theorem membershipInv_solved : MembershipInv resetState.faces := by
  intro f
  cases f <;> decide

theorem isReset_keys_ticks (ks : List Event) (hk : ∀ e ∈ ks, e.isReset = false)
    (ts : List ℚ) : ∀ e ∈ ks ++ ts.map Event.tick, e.isReset = false := by
  intro e he
  rcases List.mem_append.mp he with he | he
  · exact hk e he
  · exact isReset_ticks ts e he

theorem pairEvents_noReset : ∀ e ∈ pairEvents, e.isReset = false :=
  isReset_keys_ticks [.key 0, .key 6] (by decide) _

set_option maxRecDepth 1000000 in
theorem pairDone_run : run sampleTrig pairEvents resetState = some pairDone :=
  some_getD_of_isSome _ (by decide)

set_option maxRecDepth 1000000 in
theorem pairDone_log :
    commitLog sampleTrig pairEvents resetState = [(0, true), ((0 + 6) % 12, true)] := by
  decide

set_option maxRecDepth 1000000 in
theorem pairDone_queue : pairDone.rotation_options = [] := by decide

/-- The round-trip law at a sample input: front turn and its inverse from the reset
state. -/
theorem round_trip_primed_witness :
    sampleTrig.Exact ∧ 0 < 12 ∧ Idle resetState ∧ MembershipInv resetState.faces ∧
    resetState.cubes.length = 27 ∧ (∀ e ∈ pairEvents, e.isReset = false) ∧
    run sampleTrig pairEvents resetState = some pairDone ∧
    commitLog sampleTrig pairEvents resetState = [(0, true), ((0 + 6) % 12, true)] ∧
    pairDone.rotation_options = [] ∧
    ((∀ f c, c ∈ pairDone.faces.get f ↔ c ∈ resetState.faces.get f) ∧
      pairDone.cubes = resetState.cubes) :=
  ⟨sampleTrig_exact, by decide, idle_resetState, membershipInv_solved, rfl,
    pairEvents_noReset, pairDone_run, pairDone_log, pairDone_queue,
    round_trip_primed sampleTrig sampleTrig_exact 0 (by decide) resetState pairDone pairEvents
      idle_resetState membershipInv_solved rfl pairEvents_noReset pairDone_run pairDone_log
      pairDone_queue⟩

/-! ## Four turns of one face -/

theorem srcFace_four {m : Nat} (hm : m < 12) (g : Face) :
    srcFace m (srcFace m (srcFace m (srcFace m g))) = g := by
  interval_cases m <;> cases g <;> rfl

theorem mem_turnSets_in {m : Nat} (hm : m < 12) {F : FaceSets} (hF : F.Nodup) {c : Nat}
    (hc : c ∈ F.get (turnFace m)) (g : Face) :
    c ∈ (turnSets m F).get g ↔ c ∈ F.get (srcFace m g) := by
  rw [mem_turnSets hm hF, if_pos hc]

theorem mem_turnSets_out {m : Nat} (hm : m < 12) {F : FaceSets} (hF : F.Nodup) {c : Nat}
    (hc : c ∉ F.get (turnFace m)) (g : Face) :
    c ∈ (turnSets m F).get g ↔ c ∈ F.get g := by
  rw [mem_turnSets hm hF, if_neg hc]

/-- On the face sets, four commits of the same move change no membership. -/
theorem turnSets_four {m : Nat} (hm : m < 12) {F : FaceSets} (hF : F.Nodup) :
    SameSets (turnSets m (turnSets m (turnSets m (turnSets m F)))) F := by
  intro g c
  have h1 := turnSets_nodup m hF
  have h2 := turnSets_nodup m h1
  have h3 := turnSets_nodup m h2
  by_cases hc : c ∈ F.get (turnFace m)
  · have c1 : c ∈ (turnSets m F).get (turnFace m) := by
      rw [turnSets_get_turnFace hm]; exact hc
    have c2 : c ∈ (turnSets m (turnSets m F)).get (turnFace m) := by
      rw [turnSets_get_turnFace hm]; exact c1
    have c3 : c ∈ (turnSets m (turnSets m (turnSets m F))).get (turnFace m) := by
      rw [turnSets_get_turnFace hm]; exact c2
    rw [mem_turnSets_in hm h3 c3, mem_turnSets_in hm h2 c2, mem_turnSets_in hm h1 c1,
      mem_turnSets_in hm hF hc, srcFace_four hm]
  · have c1 : c ∉ (turnSets m F).get (turnFace m) := by
      rw [turnSets_get_turnFace hm]; exact hc
    have c2 : c ∉ (turnSets m (turnSets m F)).get (turnFace m) := by
      rw [turnSets_get_turnFace hm]; exact c1
    have c3 : c ∉ (turnSets m (turnSets m (turnSets m F))).get (turnFace m) := by
      rw [turnSets_get_turnFace hm]; exact c2
    rw [mem_turnSets_out hm h3 c3, mem_turnSets_out hm h2 c2, mem_turnSets_out hm h1 c1,
      mem_turnSets_out hm hF hc]

/-- Four primed commits of the same move restore the face sets (as sets) and the
transforms. -/
theorem four_restores {tr : Trig} (hx : tr.Exact) {m : Nat} (hm : m < 12)
    {s s' : State} {evs : List Event} (hI : PoseInv tr s s.cubes)
    (hr : ∀ e ∈ evs, e.isReset = false) (h : run tr evs s = some s')
    (hlog : commitLog tr evs s = [(m, true), (m, true), (m, true), (m, true)])
    (hq : s'.rotation_options = []) :
    SameSets s'.faces s.faces ∧ s'.cubes = s.cubes := by
  have hp : ∀ x ∈ commitLog tr evs s, x.2 = true := by
    intro x hx'
    rw [hlog] at hx'
    simp only [List.mem_cons, List.mem_singleton, List.not_mem_nil, or_false, or_self] at hx'
    rw [hx']
  obtain ⟨j1, j2⟩ := poseInv_run evs hI h hr hp
  have hc : committed tr evs s = [m, m, m, m] := by simp [committed, hlog]
  rw [hc] at j1 j2
  have hst := started_nil_of_queue_nil j1.1 hq
  have hcubes := poseInv_settled j1 (by rw [hst]; simp)
  have e : turnBothAll tr [m, m, m, m] (s.cubes, s.faces) =
      (turnPoses tr m (turnSets m (turnSets m (turnSets m s.faces)))
        (turnPoses tr m (turnSets m (turnSets m s.faces))
          (turnPoses tr m (turnSets m s.faces) (turnPoses tr m s.faces s.cubes))),
        turnSets m (turnSets m (turnSets m (turnSets m s.faces)))) := rfl
  rw [e] at j2 hcubes
  refine ⟨by rw [j2]; exact turnSets_four hm hI.2.1, ?_⟩
  rw [hcubes]
  simp only [turnPoses_eq_spin, turnSets_get_turnFace hm, spin_spin]
  rw [quarter_four hx hm, spin_one]

/-- Order four for primed commits (the part of C4 that holds on the code): let the
scheduler be idle in a cube state that satisfies the membership
invariant (27 transforms).  If a run of events commits exactly the same move `m` four
times in a row, each time after it has been primed by its `rotate_*` function, and leaves
the queue empty, then the six face sets have the same members and every transform is the
same as before (exact quarter turns).  This holds for every move code, in particular for
the six clockwise codes 0..5. -/
theorem order_four_primed (tr : Trig) (hx : tr.Exact) (m : Nat) (hm : m < 12) (s s' : State)
    (evs : List Event) (hidle : Idle s) (hF : MembershipInv s.faces)
    (hlen : s.cubes.length = 27) (hr : ∀ e ∈ evs, e.isReset = false)
    (h : run tr evs s = some s')
    (hlog : commitLog tr evs s = [(m, true), (m, true), (m, true), (m, true)])
    (hq : s'.rotation_options = []) :
    (∀ f c, c ∈ s'.faces.get f ↔ c ∈ s.faces.get f) ∧ s'.cubes = s.cubes :=
  four_restores hx hm (poseInv_of_idle tr hidle hF hlen) hr h hlog hq

theorem fourEvents_noReset : ∀ e ∈ fourEvents, e.isReset = false :=
  isReset_keys_ticks [.key 0, .key 0, .key 0, .key 0] (by decide) _

set_option maxRecDepth 1000000 in
theorem fourDone_run : run sampleTrig fourEvents resetState = some fourDone :=
  some_getD_of_isSome _ (by decide)

set_option maxRecDepth 1000000 in
theorem fourDone_log :
    commitLog sampleTrig fourEvents resetState
      = [(0, true), (0, true), (0, true), (0, true)] := by
  decide

set_option maxRecDepth 1000000 in
theorem fourDone_queue : fourDone.rotation_options = [] := by decide

/-- Order four at a sample input: four front turns from the reset state. -/
theorem order_four_primed_witness :
    sampleTrig.Exact ∧ 0 < 12 ∧ Idle resetState ∧ MembershipInv resetState.faces ∧
    resetState.cubes.length = 27 ∧ (∀ e ∈ fourEvents, e.isReset = false) ∧
    run sampleTrig fourEvents resetState = some fourDone ∧
    commitLog sampleTrig fourEvents resetState
      = [(0, true), (0, true), (0, true), (0, true)] ∧
    fourDone.rotation_options = [] ∧
    ((∀ f c, c ∈ fourDone.faces.get f ↔ c ∈ resetState.faces.get f) ∧
      fourDone.cubes = resetState.cubes) :=
  ⟨sampleTrig_exact, by decide, idle_resetState, membershipInv_solved, rfl,
    fourEvents_noReset, fourDone_run, fourDone_log, fourDone_queue,
    order_four_primed sampleTrig sampleTrig_exact 0 (by decide) resetState fourDone fourEvents
      idle_resetState membershipInv_solved rfl fourEvents_noReset fourDone_run fourDone_log
      fourDone_queue⟩

/-! ## The scenario: a front turn and its inverse, enqueued together -/

/-- The scenario Front CW then Front CCW for primed commits (the part of C9 that holds on
the code): from the reset state the moves 0 and 6 are enqueued, in this order and nothing
else (move 6 at any time, in particular before move 0 commits), and `play` runs (any clock
values) until both have been committed, each after it has been primed by its `rotate_*` function.  Then the queue is empty, the history is
empty, the six face sets have the members of the reset state and all transforms are those
of the reset state (exact quarter turns). -/
theorem front_then_back_primed (tr : Trig) (hx : tr.Exact) (evs : List Event) (s : State)
    (hev : ∀ e ∈ evs, e.isReset = false ∧ e.isSolve = false)
    (hk : keysOf evs = [0, 6])
    (h : run tr evs resetState = some s)
    (hlog : commitLog tr evs resetState = [(0, true), (6, true)]) :
    s.rotation_options = [] ∧ s.rotation_reversed = [] ∧
    (∀ f c, c ∈ s.faces.get f ↔ c ∈ resetState.faces.get f) ∧
    s.cubes = resetState.cubes := by
  have hr : ∀ e ∈ evs, e.isReset = false := fun e he => (hev e he).1
  have hv : ∀ e ∈ evs, e.isSolve = false := fun e he => (hev e he).2
  have hc : committed tr evs resetState = [0, 6] := by
    simp [committed, hlog]
  have hQ := run_queue _ sync_resetState h hr hv
  have hH := run_history _ sync_resetState h hr hv
  have e1 : resetState.rotation_reversed = [] := rfl
  have e2 : resetState.rotation_options = [] := rfl
  simp only [hk, e2, List.nil_append, hc] at hQ
  rw [e1, hc] at hH
  have hq : s.rotation_options = [] := by
    have := congrArg List.length hQ
    simp only [List.length_cons, List.length_nil, List.length_append] at this
    exact List.eq_nil_of_length_eq_zero (by omega)
  have hI := poseInv_of_idle tr idle_resetState membershipInv_solved rfl
  obtain ⟨k1, k2⟩ := pair_restores hx (by decide : 0 < 12) hI hr h hlog hq
  exact ⟨hq, by rw [hH]; rfl, k1, k2⟩

theorem pairEvents_plain : ∀ e ∈ pairEvents, e.isReset = false ∧ e.isSolve = false := by
  intro e he
  rcases List.mem_cons.mp he with rfl | he
  · exact ⟨rfl, rfl⟩
  rcases List.mem_cons.mp he with rfl | he
  · exact ⟨rfl, rfl⟩
  · exact ⟨isReset_ticks _ e he, isSolve_ticks _ e he⟩

theorem pairEvents_keys : keysOf pairEvents = [0, 6] := by
  simp only [pairEvents, keysOf, keysOf_ticks]
  rfl

/-- The scenario at a sample input: both keys, then the animation of the two moves. -/
theorem front_then_back_primed_witness :
    sampleTrig.Exact ∧
    (∀ e ∈ pairEvents, e.isReset = false ∧ e.isSolve = false) ∧
    keysOf pairEvents = [0, 6] ∧
    run sampleTrig pairEvents resetState = some pairDone ∧
    commitLog sampleTrig pairEvents resetState = [(0, true), (6, true)] ∧
    (pairDone.rotation_options = [] ∧ pairDone.rotation_reversed = [] ∧
    (∀ f c, c ∈ pairDone.faces.get f ↔ c ∈ resetState.faces.get f) ∧
    pairDone.cubes = resetState.cubes) :=
  ⟨sampleTrig_exact, pairEvents_plain, pairEvents_keys, pairDone_run, pairDone_log,
    front_then_back_primed sampleTrig sampleTrig_exact _ _ pairEvents_plain
      pairEvents_keys pairDone_run pairDone_log⟩

/-! ## Membership agrees with pose -/

theorem rotation_mulVec (ax : Axis) (c s : ℚ) (v : Fin 4 → ℚ) :
    (rotation ax c s).mulVec v =
      match ax with
      | .X => ![v 0, c * v 1 - s * v 2, s * v 1 + c * v 2, v 3]
      | .Y => ![c * v 0 + s * v 2, v 1, -(s * v 0) + c * v 2, v 3]
      | .Z => ![c * v 0 - s * v 1, s * v 0 + c * v 1, v 2, v 3] := by
  cases ax <;>
    (ext i
     fin_cases i <;>
       simp [rotation, Matrix.mulVec, Matrix.dotProduct, Fin.sum_univ_four, Matrix.vecHead,
         Matrix.vecTail] <;>
       ring)

/-- A quarter turn takes the layer of the source face to the layer of the face. -/
theorem inLayer_quarter {tr : Trig} (hx : tr.Exact) {m : Nat} (hm : m < 12) (g : Face)
    (v : Fin 4 → ℚ) :
    inLayer g ((quarter tr m).mulVec v) ↔ inLayer (srcFace m g) v := by
  rw [quarter_eq hx, rotation_mulVec]
  interval_cases m <;> cases g <;>
    simp [axisOf, signOf, srcFace, moveRow, srcOf, inLayer] <;>
    constructor <;> intro h <;> linarith

theorem agree_turn {tr : Trig} (hx : tr.Exact) {m : Nat} (hm : m < 12) {base : List Mat}
    {F : FaceSets} (hF : F.Nodup) (h : Agree base F) :
    Agree (turnPoses tr m F base) (turnSets m F) := by
  intro c T hT g
  rw [turnPoses_getElem] at hT
  cases hb : base[c]? with
  | none => rw [hb] at hT; exact absurd hT (by simp)
  | some T0 =>
    rw [hb] at hT
    simp only [Option.map_some', Option.some.injEq] at hT
    by_cases hc : c ∈ F.get (turnFace m)
    · rw [if_pos hc] at hT
      subst hT
      rw [mem_turnSets_in hm hF hc, ← Matrix.mulVec_mulVec, inLayer_quarter hx hm]
      exact h c T0 hb _
    · rw [if_neg hc] at hT
      subst hT
      rw [mem_turnSets_out hm hF hc]
      exact h c T0 hb _

theorem agree_solved : Agree (List.replicate 27 1) solvedFaces := by
  intro c T hT g
  rw [List.getElem?_replicate] at hT
  split at hT
  · rename_i hc
    simp only [Option.some.injEq] at hT
    subst hT
    rw [Matrix.one_mulVec]
    interval_cases c <;> cases g <;>
      simp [solvedFaces, FaceSets.get, inLayer, latticePos] <;> norm_num
  · exact absurd hT (by simp)

theorem turnBothAll_snd (tr : Trig) (ms : List Nat) (p : List Mat × FaceSets) :
    (turnBothAll tr ms p).2 = turnAll ms p.2 := by
  induction ms generalizing p with
  | nil => rfl
  | cons m ms ih =>
    show (turnBothAll tr ms (turnBoth tr m p)).2 = turnAll ms (turnSets m p.2)
    rw [ih]
    rfl

theorem agree_turnBothAll {tr : Trig} (hx : tr.Exact) (ms : List Nat)
    (hms : ∀ x ∈ ms, x < 12) {p : List Mat × FaceSets} (hF : p.2.Nodup)
    (h : Agree p.1 p.2) (hlen : p.1.length = 27) :
    Agree (turnBothAll tr ms p).1 (turnBothAll tr ms p).2 ∧
      (turnBothAll tr ms p).1.length = 27 := by
  induction ms generalizing p with
  | nil => exact ⟨h, hlen⟩
  | cons m ms ih =>
    have hm := hms m (List.mem_cons_self _ _)
    exact ih (fun x hx' => hms x (List.mem_cons_of_mem _ hx'))
      (turnSets_nodup m hF) (agree_turn hx hm hF h)
      (by show (turnPoses tr m p.2 p.1).length = 27; rw [turnPoses_length, hlen])

theorem poseInv_reset (tr : Trig) (s : State) :
    PoseInv tr (reset_cubes s) (List.replicate 27 1) := by
  refine ⟨sync_reset s, faceInv_solved.1, ?_, by simp [reset_cubes],
    Or.inl ⟨by simp [reset_cubes], rfl⟩⟩
  intro f c hc
  rw [List.length_replicate]
  exact faceInv_solved.2.1 f c hc

theorem agree_step {tr : Trig} (hx : tr.Exact) {e : Event} {s s' : State}
    (hJ : ∃ base, PoseInv tr s base ∧ Agree base s.faces ∧ base.length = 27)
    (h : step tr e s = some s') (hp : ∀ x ∈ logOf e s, x.2 = true) :
    ∃ base, PoseInv tr s' base ∧ Agree base s'.faces ∧ base.length = 27 := by
  obtain ⟨base, hI, hA, hlen⟩ := hJ
  by_cases hr : e.isReset = true
  · cases e with
    | reset =>
      simp only [step, Option.some.injEq] at h
      subst h
      exact ⟨_, poseInv_reset tr s, agree_solved, List.length_replicate _ _⟩
    | key m => exact absurd hr (by simp [Event.isReset])
    | solve => exact absurd hr (by simp [Event.isReset])
    | tick t => exact absurd hr (by simp [Event.isReset])
  · have hr' : e.isReset = false := by simpa using hr
    obtain ⟨j1, j2⟩ := poseInv_step hI h hr' hp
    obtain ⟨a1, a2⟩ := agree_turnBothAll hx ((logOf e s).map Prod.fst) (logOf_lt hI.1)
      (p := (base, s.faces)) hI.2.1 hA hlen
    exact ⟨_, j1, by rw [j2]; exact a1, a2⟩

theorem agree_run {tr : Trig} (hx : tr.Exact) (evs : List Event) {s s' : State}
    (hJ : ∃ base, PoseInv tr s base ∧ Agree base s.faces ∧ base.length = 27)
    (h : run tr evs s = some s') (hp : ∀ x ∈ commitLog tr evs s, x.2 = true) :
    ∃ base, PoseInv tr s' base ∧ Agree base s'.faces ∧ base.length = 27 := by
  induction evs generalizing s with
  | nil =>
    simp only [run, Option.some.injEq] at h
    subst h
    exact hJ
  | cons e evs ih =>
    obtain ⟨s1, h1, h2⟩ := run_cons h
    rw [commitLog_cons h1] at hp
    exact ih (agree_step hx hJ h1 (fun x hx' => hp x (List.mem_append_left _ hx'))) h2
      (fun x hx' => hp x (List.mem_append_right _ hx'))

/-- C2. Membership agrees with pose: in every state reached from the reset state by a run
in which every committed move had been primed (started flag set at its commit) and in
which no move is in flight (the head of the queue, if any, is not started), with exact
quarter turns, cubie `c` with lattice position `p` and transform `T` is in the front or
back set iff the z-coordinate of `T * p` is 1 or -1, in the right or left set iff its
x-coordinate is 1 or -1, and in the up or down set iff its y-coordinate is 1 or -1. -/
theorem membership_agrees_with_pose (tr : Trig) (hx : tr.Exact) (evs : List Event)
    (s : State) (h : run tr evs resetState = some s)
    (hp : ∀ x ∈ commitLog tr evs resetState, x.2 = true)
    (hq : s.rotation_started.head? ≠ some true) :
    ∀ c, c < 27 → ∃ T, s.cubes[c]? = some T ∧
      (c ∈ s.faces.front_faces ↔ (T.mulVec (latticePos c)) 2 = 1) ∧
      (c ∈ s.faces.back_faces ↔ (T.mulVec (latticePos c)) 2 = -1) ∧
      (c ∈ s.faces.right_faces ↔ (T.mulVec (latticePos c)) 0 = 1) ∧
      (c ∈ s.faces.left_faces ↔ (T.mulVec (latticePos c)) 0 = -1) ∧
      (c ∈ s.faces.up_faces ↔ (T.mulVec (latticePos c)) 1 = 1) ∧
      (c ∈ s.faces.down_faces ↔ (T.mulVec (latticePos c)) 1 = -1) := by
  have h0 : ∃ base, PoseInv tr resetState base ∧ Agree base resetState.faces ∧
      base.length = 27 :=
    ⟨_, poseInv_reset tr startState, agree_solved, List.length_replicate _ _⟩
  obtain ⟨base, hI, hA, hlen⟩ := agree_run hx evs h0 h hp
  have hc := poseInv_settled hI hq
  intro c hc27
  have hlt : c < s.cubes.length := by rw [hc, hlen]; exact hc27
  refine ⟨s.cubes[c], List.getElem?_eq_getElem hlt, ?_⟩
  have hA' := hA c s.cubes[c] (by rw [← hc]; exact List.getElem?_eq_getElem hlt)
  exact ⟨hA' .FR, hA' .BA, hA' .RI, hA' .LE, hA' .UP, hA' .DO⟩

set_option maxRecDepth 1000000 in
theorem frontTurned_primed :
    ∀ x ∈ commitLog sampleTrig frontTurnEvents resetState, x.2 = true := by
  decide

set_option maxRecDepth 1000000 in
theorem frontTurned_head : frontTurned.rotation_started.head? ≠ some true := by
  decide

/-- Witness for C2: the state after one committed front turn. -/
theorem membership_agrees_with_pose_witness :
    sampleTrig.Exact ∧ run sampleTrig frontTurnEvents resetState = some frontTurned ∧
    (∀ x ∈ commitLog sampleTrig frontTurnEvents resetState, x.2 = true) ∧
    frontTurned.rotation_started.head? ≠ some true ∧
    (∀ c, c < 27 → ∃ T, frontTurned.cubes[c]? = some T ∧
      (c ∈ frontTurned.faces.front_faces ↔ (T.mulVec (latticePos c)) 2 = 1) ∧
      (c ∈ frontTurned.faces.back_faces ↔ (T.mulVec (latticePos c)) 2 = -1) ∧
      (c ∈ frontTurned.faces.right_faces ↔ (T.mulVec (latticePos c)) 0 = 1) ∧
      (c ∈ frontTurned.faces.left_faces ↔ (T.mulVec (latticePos c)) 0 = -1) ∧
      (c ∈ frontTurned.faces.up_faces ↔ (T.mulVec (latticePos c)) 1 = 1) ∧
      (c ∈ frontTurned.faces.down_faces ↔ (T.mulVec (latticePos c)) 1 = -1)) :=
  ⟨sampleTrig_exact, frontTurned_run, frontTurned_primed, frontTurned_head,
    membership_agrees_with_pose sampleTrig sampleTrig_exact frontTurnEvents frontTurned
      frontTurned_run frontTurned_primed frontTurned_head⟩

/-! ## Commits without priming

When no pass of `play` with `time <= 1` happens while a move is at the head of the queue,
`play` still counts the steps and commits the move, but `rotate_*` has not run for it: the
commit block reads the pose buffer of the previous move. -/

set_option maxRecDepth 1000000 in
theorem staleDone_run : run sampleTrig staleEvents resetState = some staleDone :=
  some_getD_of_isSome _ (by decide)

theorem staleEvents_noReset : ∀ e ∈ staleEvents, e.isReset = false :=
  isReset_keys_ticks [.key 0, .key 6] (by decide) _

set_option maxRecDepth 1000000 in
theorem staleDone_entry : (staleDone.cubes[2]?).map (fun T => T 0 1) = some 1 := by
  decide!

theorem resetState_entry : (resetState.cubes[2]?).map (fun T => T 0 1) = some 0 := by
  decide!

theorem staleDone_cubes : staleDone.cubes ≠ resetState.cubes := by
  intro h
  have h1 := staleDone_entry
  rw [h, resetState_entry] at h1
  simp at h1

set_option maxRecDepth 1000000 in
/-- C9, the failing input. The keys `F` and shift-`F`, one pass of `play` with `time <= 1`
and then 45 passes with `time > 1`: both moves are committed (move 6 without priming), the
queue and the history are empty, but the transforms are not those of the reset state:
cubie 2 of the front face has the entry 1 in row 0, column 1 of its transform (the quarter
turn of move 0), where the identity has 0. -/
theorem front_then_back_unprimed :
    sampleTrig.Exact ∧
    keysOf staleEvents = [0, 6] ∧
    run sampleTrig staleEvents resetState = some staleDone ∧
    commitLog sampleTrig staleEvents resetState = [(0, true), (6, false)] ∧
    staleDone.rotation_options = [] ∧ staleDone.rotation_reversed = [] ∧
    (staleDone.cubes[2]?).map (fun T => T 0 1) = some 1 ∧
    (resetState.cubes[2]?).map (fun T => T 0 1) = some 0 ∧
    staleDone.cubes ≠ resetState.cubes :=
  ⟨sampleTrig_exact, by decide, staleDone_run, by decide, by decide, by decide,
    staleDone_entry, resetState_entry, staleDone_cubes⟩

set_option maxRecDepth 1000000 in
/-- C3, the failing input. From the reset state (idle, membership invariant, 27
transforms) the run `staleEvents` commits move 0 and then move `(0 + 6) % 12` and leaves
the queue empty, but the second commit happens without priming and the transforms are not
restored. -/
theorem round_trip_unprimed :
    sampleTrig.Exact ∧ Idle resetState ∧ MembershipInv resetState.faces ∧
    resetState.cubes.length = 27 ∧ (∀ e ∈ staleEvents, e.isReset = false) ∧
    run sampleTrig staleEvents resetState = some staleDone ∧
    committed sampleTrig staleEvents resetState = [0, (0 + 6) % 12] ∧
    staleDone.rotation_options = [] ∧
    staleDone.cubes ≠ resetState.cubes :=
  ⟨sampleTrig_exact, idle_resetState, membershipInv_solved, rfl, staleEvents_noReset,
    staleDone_run, by decide, by decide, staleDone_cubes⟩

set_option maxRecDepth 1000000 in
theorem fourStaleDone_run : run sampleTrig fourStaleEvents resetState = some fourStaleDone :=
  some_getD_of_isSome _ (by decide)

set_option maxRecDepth 1000000 in
theorem fourStaleDone_entry : (fourStaleDone.cubes[2]?).map (fun T => T 0 1) = some 1 := by
  decide!

theorem fourStaleDone_cubes : fourStaleDone.cubes ≠ resetState.cubes := by
  intro h
  have h1 := fourStaleDone_entry
  rw [h, resetState_entry] at h1
  simp at h1

set_option maxRecDepth 1000000 in
/-- C4, the failing input. From the reset state the key `F` four times, one pass of `play`
with `time <= 1` and then 89 passes with `time > 1`: move 0 is committed four times in a
row (three times without priming) and the queue is empty, but the transforms are not
restored: every unprimed commit writes the poses of the first turn again. -/
theorem order_four_unprimed :
    sampleTrig.Exact ∧ Idle resetState ∧ MembershipInv resetState.faces ∧
    resetState.cubes.length = 27 ∧
    run sampleTrig fourStaleEvents resetState = some fourStaleDone ∧
    commitLog sampleTrig fourStaleEvents resetState
      = [(0, true), (0, false), (0, false), (0, false)] ∧
    fourStaleDone.rotation_options = [] ∧
    (fourStaleDone.cubes[2]?).map (fun T => T 0 1) = some 1 ∧
    fourStaleDone.cubes ≠ resetState.cubes :=
  ⟨sampleTrig_exact, idle_resetState, membershipInv_solved, rfl, fourStaleDone_run,
    by decide, by decide, fourStaleDone_entry, fourStaleDone_cubes⟩

/-! ## First in, first out -/

theorem appended_cons {tr : Trig} {e : Event} {evs : List Event} {s s1 : State}
    (h : step tr e s = some s1) :
    appended tr (e :: evs) s = appendedBy e s ++ appended tr evs s1 := by
  simp [appended, h]

/-- Conservation of the queue: what was queued followed by what the events appended is what
has been committed followed by what is still queued. -/
theorem run_fifo {tr : Trig} (evs : List Event) {s s' : State} (hs : Sync s)
    (h : run tr evs s = some s') (hr : ∀ e ∈ evs, e.isReset = false) :
    s.rotation_options ++ appended tr evs s = committed tr evs s ++ s'.rotation_options := by
  induction evs generalizing s with
  | nil =>
    simp only [run, Option.some.injEq] at h
    subst h
    simp [appended, committed, commitLog]
  | cons e evs ih =>
    obtain ⟨s1, h1, h2⟩ := run_cons h
    have ih' := ih (sync_step hs h1) h2 (fun e he => hr e (List.mem_cons_of_mem _ he))
    rw [committed_cons h1, appended_cons h1]
    cases e with
    | reset => exact absurd (hr _ (List.mem_cons_self _ _)) (by simp [Event.isReset])
    | solve =>
      simp only [step, Option.some.injEq] at h1
      subst h1
      rw [(solve_spec s).2.1] at ih'
      simpa [appendedBy, logOf] using ih'
    | key m =>
      simp only [step, Option.some.injEq] at h1
      subst h1
      simp only [enqueue, List.append_assoc, List.singleton_append] at ih'
      simpa [appendedBy, logOf] using ih'
    | tick time =>
      rcases play_sched hs h1 with ⟨c, -, e2, -⟩ | ⟨m, q, b, st, hq, -, c, -, e2, -⟩
      · rw [e2] at ih'
        simpa [appendedBy, logOf, c] using ih'
      · rw [e2] at ih'
        simp only [appendedBy, logOf, c, Option.toList, List.map_cons, List.map_nil, hq,
          List.cons_append, List.nil_append, List.cons.injEq, true_and]
        exact ih'

/-- What a committing call of `play` does, in a state with consistent scheduler registers:
the current move is the head of the queue, and its commit block, its history update and
the removal of the head are what the call performs. -/
theorem play_commit_head {tr : Trig} {time : ℚ} {s s' : State} {m : Nat} {b : Bool}
    (hs : Sync s) (hc : committing time s = some (m, b)) (h : play tr time s = some s') :
    (fetch s).rotation_option = (m : Int) ∧ s.rotation_options.head? = some m ∧
      commitBlocks (fetch s) = some (s'.cubes, s'.faces) ∧
      s'.faces = turnSets m s.faces ∧
      s'.rotation_reversed = pushOrCancel m s.rotation_reversed := by
  obtain ⟨hp, q, st, hq, hst⟩ := play_commit_eq tr hc
  have h22 : (fetch s).frame_cnt = 22 := by
    unfold committing at hc
    split at hc
    · rename_i hcond
      simpa [FRAME_NUM] using hcond.1
    · exact absurd hc (by simp)
  obtain ⟨f1, f2, f3, f4, f5, f6⟩ := fetch_proj s
  obtain ⟨-, -, k3⟩ := sync_fetch hs
  have hro : (fetch s).rotation_option = (m : Int) := by
    rcases k3 with k | ⟨-, -, m1, q1, e1, e2⟩
    · rw [h22] at k
      exact absurd k (by decide)
    · rw [f2, hq] at e1
      simp only [List.cons.injEq] at e1
      rw [e2, e1.1]
  rw [hp] at h
  cases hf : finish (fetch s) with
  | none => rw [hf] at h; exact absurd h (by simp)
  | some s2 =>
    rw [hf] at h
    simp only [Option.map_some', Option.some.injEq] at h
    subst h
    obtain ⟨m2, q2, b2, st2, hq2, -, hcb, -, -, e3, -⟩ := finish_spec hf
    obtain ⟨g1, g2, g3, g4, g5, -⟩ := advance_proj s2
    rw [f2, hq] at hq2
    simp only [List.cons.injEq] at hq2
    obtain ⟨rfl, rfl⟩ := hq2
    refine ⟨hro, by rw [hq]; rfl, by rw [g5, g1]; exact hcb, ?_, by rw [g4, e3, f4]⟩
    have := commitBlocks_faces hro hcb
    rw [g1, ← f1]
    exact this

/-- C11. Strict FIFO execution.  In every run of key (or gesture), solve and `play` events
from a state just after a reset, the moves appended to the queue, in the order of their
appending, are the moves committed so far, in the order of their commits, followed by the
moves still queued.  At every commit of the run the current move `rotation_option`, whose
commit block updates the transforms and the face sets, is the move at the head of the queue
`rotation_options.front()`, which is the move that the history update is given. -/
theorem fifo_execution (tr : Trig) (s0 : State) (evs : List Event) (s' : State)
    (hev : ∀ e ∈ evs, e.isReset = false)
    (h : run tr evs (reset_cubes s0) = some s') :
    appended tr evs (reset_cubes s0) =
      committed tr evs (reset_cubes s0) ++ s'.rotation_options ∧
    ∀ pre time post s1 m b, evs = pre ++ .tick time :: post →
      run tr pre (reset_cubes s0) = some s1 → committing time s1 = some (m, b) →
      ∃ s2, play tr time s1 = some s2 ∧
        (fetch s1).rotation_option = (m : Int) ∧ s1.rotation_options.head? = some m ∧
        commitBlocks (fetch s1) = some (s2.cubes, s2.faces) ∧
        s2.faces = turnSets m s1.faces ∧
        s2.rotation_reversed = pushOrCancel m s1.rotation_reversed := by
  constructor
  · have := run_fifo evs (sync_reset s0) h hev
    simpa [reset_cubes] using this
  · intro pre time post s1 m b hsplit hpre hc
    subst hsplit
    rw [run_append, hpre] at h
    simp only [Option.some_bind] at h
    obtain ⟨s2, h2, -⟩ := run_cons h
    simp only [step] at h2
    exact ⟨s2, h2, play_commit_head (sync_run pre (sync_reset s0) hpre) hc h2⟩

theorem run_solve (tr : Trig) (evs : List Event) (s : State) :
    run tr (.solve :: evs) s = run tr evs (key_callback_SPACE s) := rfl

theorem frontSolveEvents_run :
    run sampleTrig frontSolveEvents (reset_cubes startState) = some frontSolved := by
  have h1 : run sampleTrig frontTurnEvents (reset_cubes startState) = some frontTurned :=
    frontTurned_run
  rw [frontSolveEvents, run_append, h1, Option.some_bind, run_solve]
  exact frontSolved_run

theorem frontSolveEvents_noReset : ∀ e ∈ frontSolveEvents, e.isReset = false := by
  intro e he
  rcases List.mem_append.mp he with he | he
  · exact (frontTurnEvents_plain e he).1
  · rcases List.mem_cons.mp he with rfl | he
    · rfl
    · exact isReset_ticks _ e he
/-- Witness for C11: a front turn from the reset state, the solve key, and the animation of
the solving move. -/
theorem fifo_execution_witness :
    (∀ e ∈ frontSolveEvents, e.isReset = false) ∧
    run sampleTrig frontSolveEvents (reset_cubes startState) = some frontSolved ∧
    (appended sampleTrig frontSolveEvents (reset_cubes startState) =
      committed sampleTrig frontSolveEvents (reset_cubes startState) ++
        frontSolved.rotation_options ∧
    ∀ pre time post s1 m b, frontSolveEvents = pre ++ .tick time :: post →
      run sampleTrig pre (reset_cubes startState) = some s1 →
      committing time s1 = some (m, b) →
      ∃ s2, play sampleTrig time s1 = some s2 ∧
        (fetch s1).rotation_option = (m : Int) ∧ s1.rotation_options.head? = some m ∧
        commitBlocks (fetch s1) = some (s2.cubes, s2.faces) ∧
        s2.faces = turnSets m s1.faces ∧
        s2.rotation_reversed = pushOrCancel m s1.rotation_reversed) :=
  ⟨frontSolveEvents_noReset, frontSolveEvents_run,
    fifo_execution sampleTrig startState frontSolveEvents frontSolved
      frontSolveEvents_noReset frontSolveEvents_run⟩

/-! ## The solve key -/

/-- C12. The solve key.  With the history `h_k, ..., h_1` (top first, which is the list
`rotation_reversed`), `key_callback_SPACE` appends `(h_k+6) % 12, ..., (h_1+6) % 12` in
that order to the tail of the move queue, appends as many `false` flags to the
started-flag queue, empties the history and changes no other global: the entries already
queued and their flags, the face sets, the transforms, the pose buffer, the current move
and the step index stay.  With an empty history the state is unchanged. -/
theorem solve_appends_inverses (s : State) :
    key_callback_SPACE s =
      { s with
        rotation_options := s.rotation_options ++ s.rotation_reversed.map fun h => (h + 6) % 12
        rotation_started :=
          s.rotation_started ++ List.replicate s.rotation_reversed.length false
        rotation_reversed := [] } ∧
    (key_callback_SPACE s).cubes = s.cubes ∧ (key_callback_SPACE s).faces = s.faces ∧
    (key_callback_SPACE s).frames = s.frames ∧
    (key_callback_SPACE s).rotation_option = s.rotation_option ∧
    (key_callback_SPACE s).frame_cnt = s.frame_cnt ∧
    (s.rotation_reversed = [] → key_callback_SPACE s = s) := by
  refine ⟨by simp only [key_callback_SPACE, solveLoop_eq], rfl, rfl, rfl, rfl, rfl, ?_⟩
  intro h
  simp only [key_callback_SPACE, solveLoop_eq, h, List.map_nil, List.append_nil,
    List.length_nil, List.replicate_zero]
  rw [← h]

/-! ## The commit block: which memberships change -/

theorem mem_moveIf_ne (a b g : Face) {x y : Nat} (hxy : y ≠ x) (F : FaceSets) :
    y ∈ (moveIf a b x F).get g ↔ y ∈ F.get g := by
  unfold moveIf
  split
  · simp only [FaceSets.mem_insert, FaceSets.erase, FaceSets.get_set]
    by_cases hg : g = a
    · subst hg
      simp [List.mem_erase_of_ne hxy, hxy]
    · simp [hg, hxy]
  · rfl

theorem mem_relabel_ne (n0 n1 n2 n3 g : Face) {x y : Nat} (hxy : y ≠ x) (F : FaceSets) :
    y ∈ (relabel n0 n1 n2 n3 x F).get g ↔ y ∈ F.get g := by
  have he : ∀ G : FaceSets, y ∈ (G.erase n0 x).get g ↔ y ∈ G.get g := by
    intro G
    simp only [FaceSets.erase, FaceSets.get_set]
    by_cases hg : g = n0
    · subst hg
      simp [List.mem_erase_of_ne hxy]
    · simp [hg]
  have h1 : y ∈ (if x ∈ F.get n0 then F.erase n0 x else F).get g ↔ y ∈ F.get g := by
    split
    · exact he F
    · rfl
  unfold relabel
  simp only
  split
  · rw [FaceSets.mem_insert, mem_moveIf_ne _ _ _ hxy, mem_moveIf_ne _ _ _ hxy,
      mem_moveIf_ne _ _ _ hxy, h1]
    simp [hxy]
  · rw [mem_moveIf_ne _ _ _ hxy, mem_moveIf_ne _ _ _ hxy, mem_moveIf_ne _ _ _ hxy, h1]

theorem mem_foldl_relabel_out (n0 n1 n2 n3 g : Face) (L : List Nat) {y : Nat} (hy : y ∉ L)
    (F : FaceSets) :
    y ∈ (L.foldl (fun G face => relabel n0 n1 n2 n3 face G) F).get g ↔ y ∈ F.get g := by
  induction L generalizing F with
  | nil => rfl
  | cons x L ih =>
    simp only [List.mem_cons, not_or] at hy
    rw [List.foldl_cons, ih hy.2, mem_relabel_ne _ _ _ _ _ hy.1]

theorem turnSets_get_opposite {m : Nat} (hm : m < 12) (F : FaceSets) :
    (turnSets m F).get (opposite (turnFace m)) = F.get (opposite (turnFace m)) := by
  interval_cases m <;>
    exact foldl_relabel_get_other (by decide) (by decide) (by decide) (by decide) _ _

theorem mem_turnSets_off (m : Nat) {F : FaceSets} {c : Nat} (hc : c ∉ F.get (turnFace m))
    (g : Face) : c ∈ (turnSets m F).get g ↔ c ∈ F.get g := by
  unfold turnSets
  cases hrow : moveRow m with
  | none => rfl
  | some row =>
    obtain ⟨t, n0, n1, n2, n3⟩ := row
    have hm : m < 12 := by
      by_contra hcon
      have : moveRow m = none := by
        unfold moveRow
        split <;> first | rfl | omega
      rw [this] at hrow
      exact absurd hrow (by simp)
    obtain ⟨a0, a1, a2, a3, e, -⟩ := moveRow_turning hm
    rw [hrow] at e
    simp only [Option.some.injEq, Prod.mk.injEq] at e
    obtain ⟨rfl, -⟩ := e
    exact mem_foldl_relabel_out _ _ _ _ _ _ hc _

/-- C14. For every move code `m` and every state whose current move is `m`, the commit
block of `play` leaves the face set of the turning face and the face set of the opposite
face as they are (front and back for the codes 0, 1, 6, 7; right and left for 2, 3, 8, 9;
up and down for 4, 5, 10, 11), and a cubie outside the turning face is in the same face
sets after the commit as before. -/
theorem commit_keeps_turning_and_opposite (s : State) (m : Nat) (cubes : List Mat)
    (F : FaceSets) (hm : m < 12) (hr : s.rotation_option = (m : Int))
    (h : commitBlocks s = some (cubes, F)) :
    F.get (turnFace m) = s.faces.get (turnFace m) ∧
    F.get (opposite (turnFace m)) = s.faces.get (opposite (turnFace m)) ∧
    (∀ c, c ∉ s.faces.get (turnFace m) → ∀ g, c ∈ F.get g ↔ c ∈ s.faces.get g) ∧
    ((m = 0 ∨ m = 1 ∨ m = 6 ∨ m = 7) →
      (turnFace m = .FR ∨ turnFace m = .BA) ∧
      F.front_faces = s.faces.front_faces ∧ F.back_faces = s.faces.back_faces) ∧
    ((m = 2 ∨ m = 3 ∨ m = 8 ∨ m = 9) →
      (turnFace m = .RI ∨ turnFace m = .LE) ∧
      F.right_faces = s.faces.right_faces ∧ F.left_faces = s.faces.left_faces) ∧
    ((m = 4 ∨ m = 5 ∨ m = 10 ∨ m = 11) →
      (turnFace m = .UP ∨ turnFace m = .DO) ∧
      F.up_faces = s.faces.up_faces ∧ F.down_faces = s.faces.down_faces) := by
  have e : F = turnSets m s.faces := commitBlocks_faces hr h
  have h1 := turnSets_get_turnFace hm s.faces
  have h2 := turnSets_get_opposite hm s.faces
  rw [← e] at h1 h2
  refine ⟨h1, h2, ?_, ?_, ?_, ?_⟩
  · intro c hc g
    rw [e]
    exact mem_turnSets_off m hc g
  · rintro (rfl | rfl | rfl | rfl) <;>
      simp_all [turnFace, turning, opposite, FaceSets.get]
  · rintro (rfl | rfl | rfl | rfl) <;>
      simp_all [turnFace, turning, opposite, FaceSets.get]
  · rintro (rfl | rfl | rfl | rfl) <;>
      simp_all [turnFace, turning, opposite, FaceSets.get]
theorem frontTurning_sync : Sync frontTurning :=
  sync_run frontTurningEvents sync_resetState frontTurning_run

theorem frontTurning_commit :
    (fetch frontTurning).rotation_option = ((0 : Nat) : Int) ∧
      commitBlocks (fetch frontTurning) = some (frontTurned.cubes, frontTurned.faces) :=
  have h := play_commit_head frontTurning_sync frontTurning_committing frontTurning_play
  ⟨h.1, h.2.2.1⟩

/-- Witness for C14: the commit of a front turn from the reset state. -/
theorem commit_keeps_turning_and_opposite_witness :
    0 < 12 ∧ (fetch frontTurning).rotation_option = ((0 : Nat) : Int) ∧
    commitBlocks (fetch frontTurning) = some (frontTurned.cubes, frontTurned.faces) ∧
    (frontTurned.faces.get (turnFace 0) = (fetch frontTurning).faces.get (turnFace 0) ∧
    frontTurned.faces.get (opposite (turnFace 0)) =
      (fetch frontTurning).faces.get (opposite (turnFace 0)) ∧
    (∀ c, c ∉ (fetch frontTurning).faces.get (turnFace 0) →
      ∀ g, c ∈ frontTurned.faces.get g ↔ c ∈ (fetch frontTurning).faces.get g) ∧
    (((0 : Nat) = 0 ∨ (0 : Nat) = 1 ∨ (0 : Nat) = 6 ∨ (0 : Nat) = 7) →
      (turnFace 0 = .FR ∨ turnFace 0 = .BA) ∧
      frontTurned.faces.front_faces = (fetch frontTurning).faces.front_faces ∧
      frontTurned.faces.back_faces = (fetch frontTurning).faces.back_faces) ∧
    (((0 : Nat) = 2 ∨ (0 : Nat) = 3 ∨ (0 : Nat) = 8 ∨ (0 : Nat) = 9) →
      (turnFace 0 = .RI ∨ turnFace 0 = .LE) ∧
      frontTurned.faces.right_faces = (fetch frontTurning).faces.right_faces ∧
      frontTurned.faces.left_faces = (fetch frontTurning).faces.left_faces) ∧
    (((0 : Nat) = 4 ∨ (0 : Nat) = 5 ∨ (0 : Nat) = 10 ∨ (0 : Nat) = 11) →
      (turnFace 0 = .UP ∨ turnFace 0 = .DO) ∧
      frontTurned.faces.up_faces = (fetch frontTurning).faces.up_faces ∧
      frontTurned.faces.down_faces = (fetch frontTurning).faces.down_faces)) :=
  ⟨by decide, frontTurning_commit.1, frontTurning_commit.2,
    commit_keeps_turning_and_opposite (fetch frontTurning) 0
      frontTurned.cubes frontTurned.faces (by decide) frontTurning_commit.1
      frontTurning_commit.2⟩

/-! ## The neighbour-cycle rule -/

theorem srcFace_neighbour_cw {m : Nat} (hm : m < 6) (i : Fin 4) :
    srcFace m (neighbour (turnFace m) (i + 1)) = neighbour (turnFace m) i := by
  interval_cases m <;> fin_cases i <;> rfl

theorem srcFace_neighbour_ccw {m : Nat} (hm : m < 12) (h6 : 6 ≤ m) (i : Fin 4) :
    srcFace m (neighbour (turnFace m) (i - 1)) = neighbour (turnFace m) i := by
  interval_cases m <;> fin_cases i <;> rfl

/-- C15. Neighbour-cycle rule.  With the cycle `n_0, n_1, n_2, n_3` of the turning face
that the specification lists (front: up, right, down, left; back: up, left, down, right;
right: up, back, down, front; left: up, front, down, back; up: front, left, back, right;
down: front, right, back, left; the four faces other than the turning face and its
opposite), the commit block of a clockwise move (codes 0..5) puts a cubie of the turning
face into `n_(i+1)` exactly if it was in `n_i`, and the commit block of a counter-clockwise
move (codes 6..11) puts it into `n_(i-1)` exactly if it was in `n_i` (indices modulo 4).
The cycle is the sense of the turn: the exact quarter turn of the move takes the layer of
`n_i` to the layer of `n_(i+1)`, respectively `n_(i-1)`. -/
theorem neighbour_cycle_rule (tr : Trig) (s : State) (m : Nat) (cubes : List Mat)
    (F : FaceSets) (hm : m < 12) (hr : s.rotation_option = (m : Int)) (hN : s.faces.Nodup)
    (h : commitBlocks s = some (cubes, F)) (c : Nat) (hc : c ∈ s.faces.get (turnFace m))
    (i : Fin 4) :
    ((neighbourCycle (turnFace m)).Nodup ∧ (neighbourCycle (turnFace m)).length = 4 ∧
      turnFace m ∉ neighbourCycle (turnFace m) ∧
      opposite (turnFace m) ∉ neighbourCycle (turnFace m)) ∧
    (m < 6 → (c ∈ F.get (neighbour (turnFace m) (i + 1)) ↔
      c ∈ s.faces.get (neighbour (turnFace m) i))) ∧
    (6 ≤ m → (c ∈ F.get (neighbour (turnFace m) (i - 1)) ↔
      c ∈ s.faces.get (neighbour (turnFace m) i))) ∧
    (tr.Exact → ∀ v : Fin 4 → ℚ,
      (m < 6 → (inLayer (neighbour (turnFace m) (i + 1)) ((quarter tr m).mulVec v) ↔
        inLayer (neighbour (turnFace m) i) v)) ∧
      (6 ≤ m → (inLayer (neighbour (turnFace m) (i - 1)) ((quarter tr m).mulVec v) ↔
        inLayer (neighbour (turnFace m) i) v))) := by
  have e : F = turnSets m s.faces := commitBlocks_faces hr h
  refine ⟨?_, ?_, ?_, ?_⟩
  · cases turnFace m <;> decide
  · intro h6
    rw [e, mem_turnSets_in hm hN hc, srcFace_neighbour_cw h6]
  · intro h6
    rw [e, mem_turnSets_in hm hN hc, srcFace_neighbour_ccw hm h6]
  · intro hx v
    constructor
    · intro h6
      rw [inLayer_quarter hx hm, srcFace_neighbour_cw h6]
    · intro h6
      rw [inLayer_quarter hx hm, srcFace_neighbour_ccw hm h6]

set_option maxRecDepth 100000 in
theorem frontTurning_nodup : (fetch frontTurning).faces.Nodup := by
  intro f
  cases f <;> decide

set_option maxRecDepth 100000 in
theorem frontTurning_mem : 8 ∈ (fetch frontTurning).faces.get (turnFace 0) := by decide

/-- Witness for C15: the commit of a front turn from the reset state, the corner cubie 8
and its membership in the up set, which becomes membership in the right set. -/
theorem neighbour_cycle_rule_witness :
    0 < 12 ∧ (fetch frontTurning).rotation_option = ((0 : Nat) : Int) ∧
    (fetch frontTurning).faces.Nodup ∧
    commitBlocks (fetch frontTurning) = some (frontTurned.cubes, frontTurned.faces) ∧
    8 ∈ (fetch frontTurning).faces.get (turnFace 0) ∧
    (((neighbourCycle (turnFace 0)).Nodup ∧ (neighbourCycle (turnFace 0)).length = 4 ∧
      turnFace 0 ∉ neighbourCycle (turnFace 0) ∧
      opposite (turnFace 0) ∉ neighbourCycle (turnFace 0)) ∧
    (0 < 6 → (8 ∈ frontTurned.faces.get (neighbour (turnFace 0) (0 + 1)) ↔
      8 ∈ (fetch frontTurning).faces.get (neighbour (turnFace 0) 0))) ∧
    (6 ≤ 0 → (8 ∈ frontTurned.faces.get (neighbour (turnFace 0) (0 - 1)) ↔
      8 ∈ (fetch frontTurning).faces.get (neighbour (turnFace 0) 0))) ∧
    (sampleTrig.Exact → ∀ v : Fin 4 → ℚ,
      (0 < 6 → (inLayer (neighbour (turnFace 0) (0 + 1)) ((quarter sampleTrig 0).mulVec v) ↔
        inLayer (neighbour (turnFace 0) 0) v)) ∧
      (6 ≤ 0 → (inLayer (neighbour (turnFace 0) (0 - 1)) ((quarter sampleTrig 0).mulVec v) ↔
        inLayer (neighbour (turnFace 0) 0) v)))) :=
  ⟨by decide, frontTurning_commit.1, frontTurning_nodup, frontTurning_commit.2,
    frontTurning_mem,
    neighbour_cycle_rule sampleTrig (fetch frontTurning) 0
      frontTurned.cubes frontTurned.faces (by decide) frontTurning_commit.1
      frontTurning_nodup frontTurning_commit.2 8 frontTurning_mem 0⟩
/-! ## The committed pose -/

theorem primed_bound {tr : Trig} {sign : ℚ} {ax : Axis} {base fr : List Mat} {L : List Nat}
    (h : primeLoop tr sign ax base L = some fr) : ∀ c ∈ L, c < base.length := by
  intro c hc
  obtain ⟨i, hi⟩ := List.mem_iff_getElem?.mp hc
  obtain ⟨T, hT, -⟩ := (primeLoop_getElem L h).2 i c hi
  exact (List.getElem?_eq_some_iff.mp hT).1

set_option maxRecDepth 1000000 in
theorem frontTurning_log : commitLog sampleTrig frontTurningEvents resetState = [] := by
  decide

set_option maxRecDepth 1000000 in
theorem frontTurning_head : frontTurning.rotation_started.head? = some true := by
  decide

theorem frontTurningEvents_noReset : ∀ e ∈ frontTurningEvents, e.isReset = false := by
  intro e he
  simp only [frontTurningEvents, List.mem_append, List.mem_cons, List.mem_singleton,
    List.not_mem_nil, or_false, List.mem_replicate] at he
  rcases he with (rfl | rfl) | ⟨-, rfl⟩ <;> rfl

theorem frontTurning_primedFrom : Primed sampleTrig frontTurning (List.replicate 27 1) := by
  have h0 : PoseInv sampleTrig resetState (List.replicate 27 1) :=
    poseInv_reset sampleTrig startState
  have h := poseInv_run frontTurningEvents h0
    frontTurning_run frontTurningEvents_noReset (by rw [frontTurning_log]; simp)
  have hI := h.1
  have e : committed sampleTrig frontTurningEvents resetState = [] := by
    rw [committed, frontTurning_log]
    rfl
  rw [e, turnBothAll_nil] at hI
  rcases hI.2.2.2.2 with ⟨x, -⟩ | hp
  · exact absurd frontTurning_head x
  · exact hp

set_option maxRecDepth 100000 in
theorem frontTurning_faces_nodup : frontTurning.faces.Nodup := by
  intro f
  cases f <;> decide

theorem det3_eq (M : Matrix (Fin 3) (Fin 3) ℚ) : det3 M = M.det := by
  rw [Matrix.det_fin_three]
  unfold det3
  ring

theorem inverse_mul {M N : Matrix (Fin 3) (Fin 3) ℚ} (h : inverse M = some N) :
    N * M = 1 ∧ M * N = 1 := by
  unfold inverse at h
  split at h
  · exact absurd h (by simp)
  · rename_i hd
    simp only [Option.some.injEq] at h
    subst h
    constructor <;>
    · ext i j
      fin_cases i <;> fin_cases j <;>
        simp [Matrix.mul_apply, Fin.sum_univ_three, Matrix.one_apply, Matrix.vecHead,
          Matrix.vecTail] <;>
        field_simp <;> (try unfold det3) <;> ring

theorem inverse_isSome {M : Matrix (Fin 3) (Fin 3) ℚ} (h : M.det ≠ 0) :
    ∃ N, inverse M = some N := by
  unfold inverse
  rw [if_neg (by rw [det3_eq]; exact h)]
  exact ⟨_, rfl⟩

theorem inverse_det {M N : Matrix (Fin 3) (Fin 3) ℚ} (h : inverse M = some N) : M.det ≠ 0 := by
  unfold inverse at h
  split at h
  · exact absurd h (by simp)
  · rename_i hd
    rwa [det3_eq] at hd

/-- The vector that the code computes is the solution of the linear system. -/
theorem inverse_solves {M N : Matrix (Fin 3) (Fin 3) ℚ} (h : inverse M = some N)
    (w r : Fin 3 → ℚ) : M.mulVec w = r ↔ w = N.mulVec r := by
  obtain ⟨h1, h2⟩ := inverse_mul h
  constructor
  · intro e
    rw [← e, Matrix.mulVec_mulVec, h1, Matrix.one_mulVec]
  · intro e
    rw [e, Matrix.mulVec_mulVec, h2, Matrix.one_mulVec]
/-! ## Picking: the loops as a fold over the hits -/

theorem record_eq (view : Mat) (o : Fin 3 → ℚ) (m : Nat) (T : Mat) (mesh : Mesh)
    (tri : Fin 3 → Nat) (p : PickVars) (a : Option (Fin 3 → ℚ))
    (h : answer view o T mesh tri = some a) :
    record m p a = ((triangleHit view o m T mesh tri).toList).foldl note p := by
  unfold triangleHit
  rw [h]
  cases a with
  | none => rfl
  | some ans =>
    simp only [record]
    by_cases hh : isHit ans = true
    · simp only [hh, if_true, Option.toList, List.foldl_cons, List.foldl_nil, note]
    · simp only [hh, Bool.false_eq_true, if_false, Option.toList, List.foldl_nil]

theorem filterMap_cons_toList {α β : Type} (f : α → Option β) (a : α) (l : List α) :
    (a :: l).filterMap f = (f a).toList ++ l.filterMap f := by
  rw [List.filterMap_cons]
  cases f a <;> rfl

theorem triangleLoop_eq {view : Mat} {o : Fin 3 → ℚ} {m : Nat} {T : Mat} {mesh : Mesh}
    (L : List (Fin 3 → Nat)) {p r : PickVars}
    (h : triangleLoop view o m T mesh L p = some r) :
    r = (L.filterMap (triangleHit view o m T mesh)).foldl note p := by
  induction L generalizing p with
  | nil =>
    simp only [triangleLoop, Option.some.injEq] at h
    subst h
    rfl
  | cons tri L ih =>
    simp only [triangleLoop] at h
    cases ha : answer view o T mesh tri with
    | none => rw [ha] at h; exact absurd h (by simp)
    | some a =>
      rw [ha] at h
      rw [filterMap_cons_toList, List.foldl_append, ← record_eq view o m T mesh tri p a ha]
      exact ih h

theorem cubeLoop_eq {view : Mat} {o : Fin 3 → ℚ} (scene : List (Mesh × Mat)) {m : Nat}
    {p r : PickVars} (h : cubeLoop view o scene m p = some r) :
    r = (sceneHits view o scene m).foldl note p := by
  induction scene generalizing m p with
  | nil =>
    simp only [cubeLoop, Option.some.injEq] at h
    subst h
    rfl
  | cons c rest ih =>
    simp only [cubeLoop] at h
    cases ht : triangleLoop view o m c.2 c.1 c.1.F p with
    | none => rw [ht] at h; exact absurd h (by simp)
    | some p1 =>
      rw [ht] at h
      rw [sceneHits, List.foldl_append, ← triangleLoop_eq _ ht]
      exact ih h

/-- What the fold over the hits leaves in the variables of the picking loops. -/
theorem foldl_note (H : List (Nat × ℚ)) (p : PickVars) :
    ((H.foldl note p).intersection_found = true ↔ p.intersection_found = true ∨ H ≠ []) ∧
    (∀ h ∈ H, (H.foldl note p).min_param ≤ h.2) ∧
    (H.foldl note p).min_param ≤ p.min_param ∧
    (((H.foldl note p).min_param = p.min_param ∧
        (H.foldl note p).selected_obj = p.selected_obj) ∨
      ∃ h ∈ H, (H.foldl note p).selected_obj = (h.1 : Int) ∧
        (H.foldl note p).min_param = h.2 ∧ h.2 < p.min_param) := by
  induction H generalizing p with
  | nil => simp
  | cons x H ih =>
    obtain ⟨i1, i2, i3, i4⟩ := ih (note p x)
    rw [List.foldl_cons]
    have hn : (note p x).min_param ≤ p.min_param ∧ (note p x).min_param ≤ x.2 ∧
        (note p x).intersection_found = true ∧
        (((note p x).min_param = p.min_param ∧ (note p x).selected_obj = p.selected_obj) ∨
          ((note p x).selected_obj = (x.1 : Int) ∧ (note p x).min_param = x.2 ∧
            x.2 < p.min_param)) := by
      unfold note
      split
      · rename_i hlt
        exact ⟨le_of_lt hlt, le_refl _, rfl, Or.inr ⟨rfl, rfl, hlt⟩⟩
      · rename_i hlt
        exact ⟨le_refl _, not_lt.mp hlt, rfl, Or.inl ⟨rfl, rfl⟩⟩
    obtain ⟨n1, n2, n3, n4⟩ := hn
    refine ⟨?_, ?_, le_trans i3 n1, ?_⟩
    · rw [i1]
      simp [n3]
    · intro h hh
      rcases List.mem_cons.mp hh with rfl | hh
      · exact le_trans i3 n2
      · exact i2 h hh
    · rcases i4 with ⟨a1, a2⟩ | ⟨h, hh, a1, a2, a3⟩
      · rcases n4 with ⟨b1, b2⟩ | ⟨b1, b2, b3⟩
        · exact Or.inl ⟨by rw [a1, b1], by rw [a2, b2]⟩
        · exact Or.inr ⟨x, List.mem_cons_self _ _, by rw [a2, b1], by rw [a1, b2], b3⟩
      · exact Or.inr ⟨h, List.mem_cons_of_mem _ hh, a1, a2, lt_of_lt_of_le a3 n1⟩

theorem mem_sceneHits {view : Mat} {o : Fin 3 → ℚ} (scene : List (Mesh × Mat)) (m0 m : Nat)
    (t : ℚ) :
    (m, t) ∈ sceneHits view o scene m0 ↔
      ∃ j mesh T tri ans, scene[j]? = some (mesh, T) ∧ m = m0 + j ∧ tri ∈ mesh.F ∧
        answer view o T mesh tri = some (some ans) ∧ isHit ans = true ∧ ans 2 = t := by
  induction scene generalizing m0 with
  | nil => simp [sceneHits]
  | cons c rest ih =>
    rw [sceneHits, List.mem_append, ih]
    constructor
    · rintro (h | ⟨j, mesh, T, tri, ans, h1, h2, h3⟩)
      · obtain ⟨tri, htri, hh⟩ := List.mem_filterMap.mp h
        unfold triangleHit at hh
        split at hh
        · rename_i ans ha
          split at hh
          · rename_i hit
            simp only [Option.some.injEq, Prod.mk.injEq] at hh
            exact ⟨0, c.1, c.2, tri, ans, by simp, hh.1.symm, htri, ha, hit, hh.2⟩
          · exact absurd hh (by simp)
        · exact absurd hh (by simp)
      · exact ⟨j + 1, mesh, T, tri, ans, by simpa using h1, by omega, h3⟩
    · rintro ⟨j, mesh, T, tri, ans, h1, h2, h3, h4, h5, h6⟩
      cases j with
      | zero =>
        left
        simp only [List.getElem?_cons_zero, Option.some.injEq] at h1
        subst h1
        refine List.mem_filterMap.mpr ⟨tri, h3, ?_⟩
        simp only [triangleHit, h4, h5, if_true, h2, h6, Nat.add_zero]
      | succ j =>
        right
        exact ⟨j, mesh, T, tri, ans, by simpa using h1, by omega, h3, h4, h5, h6⟩

theorem answer_some {view : Mat} {o : Fin 3 → ℚ} {T : Mat} {mesh : Mesh} {tri : Fin 3 → Nat}
    {ans : Fin 3 → ℚ} :
    answer view o T mesh tri = some (some ans) ↔
      ∃ a b c N, corner view T mesh (tri 0) = some a ∧ corner view T mesh (tri 1) = some b ∧
        corner view T mesh (tri 2) = some c ∧ inverse (coeff a b c) = some N ∧
        ans = N.mulVec (o - a) := by
  unfold answer
  constructor
  · intro h
    split at h
    · rename_i a b c ha hb hc
      simp only [Option.some.injEq] at h
      cases hN : inverse (coeff a b c) with
      | none => rw [hN] at h; exact absurd h (by simp)
      | some N =>
        rw [hN] at h
        simp only [Option.map_some', Option.some.injEq] at h
        exact ⟨a, b, c, N, ha, hb, hc, hN, h.symm⟩
    · exact absurd h (by simp)
  · rintro ⟨a, b, c, N, ha, hb, hc, hN, rfl⟩
    simp only [ha, hb, hc, hN, Option.map_some']

/-- The hits that the loops meet are the hits in the words of the specification. -/
theorem hitAt_iff (view : Mat) (x y : ℚ) (scene : List (Mesh × Mat)) (m : Nat) (t : ℚ) :
    HitAt view x y scene m t ↔ (m, t) ∈ sceneHits view ![x, y, 1] scene 0 := by
  rw [mem_sceneHits]
  constructor
  · rintro ⟨mesh, T, tri, a, b, c, u, v, h1, h2, ha, hb, hc, hd, he, hu, hv, huv⟩
    obtain ⟨N, hN⟩ := inverse_isSome hd
    have hs := (inverse_solves hN _ _).mp he
    refine ⟨m, mesh, T, tri, N.mulVec (![x, y, 1] - a), h1, by omega, h2,
      answer_some.mpr ⟨a, b, c, N, ha, hb, hc, hN, rfl⟩, ?_, ?_⟩
    · have e0 : (N.mulVec (![x, y, 1] - a)) 0 = u := by rw [← hs]; rfl
      have e1 : (N.mulVec (![x, y, 1] - a)) 1 = v := by rw [← hs]; rfl
      simp only [isHit, e0, e1, decide_eq_true_eq]
      refine ⟨hu, ?_, hv, ?_, ?_, huv⟩ <;> linarith
    · rw [← hs]; rfl
  · rintro ⟨j, mesh, T, tri, ans, h1, h2, h3, h4, h5, h6⟩
    obtain ⟨a, b, c, N, ha, hb, hc, hN, rfl⟩ := answer_some.mp h4
    simp only [isHit, decide_eq_true_eq] at h5
    have hj : j = m := by omega
    subst hj
    refine ⟨mesh, T, tri, a, b, c, _, _, h1, h3, ha, hb, hc, inverse_det hN, ?_, h5.1, h5.2.2.1,
      h5.2.2.2.2.2⟩
    rw [inverse_solves hN, ← h6]
    ext i
    fin_cases i <;> rfl
/-! ## Picking: the loops return -/

theorem answer_isSome (view : Mat) (o : Fin 3 → ℚ) (T : Mat) {mesh : Mesh} {tri : Fin 3 → Nat}
    (h : ∀ i : Fin 3, tri i < mesh.V.length) : ∃ a, answer view o T mesh tri = some a := by
  have hc : ∀ i : Fin 3, ∃ a, corner view T mesh (tri i) = some a := by
    intro i
    unfold corner
    rw [List.getElem?_eq_getElem (h i)]
    exact ⟨_, rfl⟩
  obtain ⟨a, ha⟩ := hc 0
  obtain ⟨b, hb⟩ := hc 1
  obtain ⟨c, hcc⟩ := hc 2
  unfold answer
  rw [ha, hb, hcc]
  exact ⟨_, rfl⟩

theorem triangleLoop_isSome (view : Mat) (o : Fin 3 → ℚ) (m : Nat) (T : Mat) {mesh : Mesh}
    (L : List (Fin 3 → Nat)) (h : ∀ tri ∈ L, ∀ i : Fin 3, tri i < mesh.V.length)
    (p : PickVars) : ∃ r, triangleLoop view o m T mesh L p = some r := by
  induction L generalizing p with
  | nil => exact ⟨p, rfl⟩
  | cons tri L ih =>
    obtain ⟨a, ha⟩ := answer_isSome view o T (h tri (List.mem_cons_self _ _))
    simp only [triangleLoop, ha]
    exact ih (fun t ht => h t (List.mem_cons_of_mem _ ht)) _

theorem cubeLoop_isSome (view : Mat) (o : Fin 3 → ℚ) (scene : List (Mesh × Mat))
    (h : ∀ c ∈ scene, MeshOk c.1) (m : Nat) (p : PickVars) :
    ∃ r, cubeLoop view o scene m p = some r := by
  induction scene generalizing m p with
  | nil => exact ⟨p, rfl⟩
  | cons c rest ih =>
    obtain ⟨p1, h1⟩ := triangleLoop_isSome view o m c.2 c.1.F
      (h c (List.mem_cons_self _ _)) p
    simp only [cubeLoop, h1]
    exact ih (fun c hc => h c (List.mem_cons_of_mem _ hc)) _ _

/-- The picking block returns for well-formed meshes, and its result is the fold of `note`
over the hits. -/
theorem pick_eq (view : Mat) (x y : ℚ) {scene : List (Mesh × Mat)}
    (h : ∀ c ∈ scene, MeshOk c.1) (sel0 : Int) :
    pick view x y scene sel0 =
      some (if ((sceneHits view ![x, y, 1] scene 0).foldl note
          ⟨false, INT_MAX, sel0⟩).intersection_found
        then ((sceneHits view ![x, y, 1] scene 0).foldl note ⟨false, INT_MAX, sel0⟩).selected_obj
        else -1) := by
  obtain ⟨r, hr⟩ := cubeLoop_isSome view ![x, y, 1] scene h 0 ⟨false, INT_MAX, sel0⟩
  have e := cubeLoop_eq scene hr
  unfold pick
  rw [hr, Option.map_some', e]

theorem zip_meshOk {meshes : List Mesh} (h : ∀ mesh ∈ meshes, MeshOk mesh) (cubes : List Mat) :
    ∀ c ∈ meshes.zip cubes, MeshOk c.1 := by
  intro c hc
  exact h c.1 (List.of_mem_zip (show (c.1, c.2) ∈ meshes.zip cubes from hc)).1

/-- A press changes none of the globals of `State`, and sets `selected_obj` to the result of
the picking block. -/
theorem press_eq {meshes : List Mesh} (view_original_inv : Mat) {x y : ℚ} {s : State}
    {p : Pointer} {sel : Int}
    (h : pick p.view x y (meshes.zip s.cubes) p.selected_obj = some sel) :
    ∃ p', mouse_button_callback meshes view_original_inv .GLFW_PRESS x y s p = some (s, p') ∧
      p'.selected_obj = sel ∧ p'.view = p.view := by
  unfold mouse_button_callback
  simp only [if_true, h]
  by_cases hs : sel = -1
  · rw [if_pos hs]
    exact ⟨_, rfl, rfl, rfl⟩
  · rw [if_neg hs]
    exact ⟨_, rfl, rfl, rfl⟩

/-- C17. Picking selects the nearest hit.  For every pointer position, view matrix and
state (with meshes whose triangles name columns of the vertex matrix) in which the ray hits
a triangle at a parameter below the initial value `INT_MAX` of `min_param`, a press leaves
in `selected_obj` a cube that owns a hit triangle whose parameter `t` is minimal among the
hit triangles of all cubes.  In particular, if the ray hits a triangle of cube `k` and every
hit triangle of another cube lies at a greater parameter, the press selects `k`.  The press
changes none of the cube globals. -/
theorem pick_selects_nearest (meshes : List Mesh) (view_original_inv : Mat) (x y : ℚ)
    (s : State) (p : Pointer) (hwf : ∀ mesh ∈ meshes, MeshOk mesh)
    (hnear : ∃ m t, HitAt p.view x y (meshes.zip s.cubes) m t ∧ t < INT_MAX) :
    ∃ p', mouse_button_callback meshes view_original_inv .GLFW_PRESS x y s p = some (s, p') ∧
      (∃ (m : Nat) (t : ℚ), p'.selected_obj = (m : Int) ∧ HitAt p.view x y (meshes.zip s.cubes) m t ∧
        ∀ m' t', HitAt p.view x y (meshes.zip s.cubes) m' t' → t ≤ t') ∧
      (∀ k t, HitAt p.view x y (meshes.zip s.cubes) k t →
        (∀ m' t', HitAt p.view x y (meshes.zip s.cubes) m' t' → m' ≠ k → t < t') →
        p'.selected_obj = (k : Int)) := by
  obtain ⟨p', hp, hsel, -⟩ := press_eq view_original_inv
    (pick_eq p.view x y (zip_meshOk hwf s.cubes) p.selected_obj)
  obtain ⟨m0, t0, h0, hlt⟩ := hnear
  rw [hitAt_iff] at h0
  obtain ⟨i1, i2, -, i4⟩ := foldl_note (sceneHits p.view ![x, y, 1] (meshes.zip s.cubes) 0)
    ⟨false, INT_MAX, p.selected_obj⟩
  have hfound := i1.mpr (Or.inr (List.ne_nil_of_mem h0))
  rw [hfound] at hsel
  simp only [↓reduceIte] at hsel
  have hmin := i2 _ h0
  have hnear : ∃ (m : Nat) (t : ℚ), p'.selected_obj = (m : Int) ∧
      HitAt p.view x y (meshes.zip s.cubes) m t ∧
      ∀ m' t', HitAt p.view x y (meshes.zip s.cubes) m' t' → t ≤ t' := by
    rcases i4 with ⟨a1, -⟩ | ⟨h, hh, a1, a2, -⟩
    · rw [a1] at hmin
      exact absurd hlt (not_lt.mpr hmin)
    · refine ⟨h.1, h.2, by rw [hsel, a1], (hitAt_iff _ _ _ _ _ _).mpr hh, ?_⟩
      intro m' t' h'
      rw [hitAt_iff] at h'
      rw [← a2]
      exact i2 _ h'
  refine ⟨p', hp, hnear, ?_⟩
  intro k t hk hfree
  obtain ⟨m, tm, e1, e2, e3⟩ := hnear
  by_cases hmk : m = k
  · rw [e1, hmk]
  · exact absurd (hfree m tm e2 hmk) (not_lt.mpr (e3 k t hk))

/-- C18. Picking with no hit clears the selection.  For every press whose ray hits no
triangle of any cube, `selected_obj` becomes -1 whatever it was before, no move is pushed
and none of the cube globals (queue, flags, history, face sets, transforms, pose buffer,
current move, step index) changes. -/
theorem pick_no_hit_clears (meshes : List Mesh) (view_original_inv : Mat) (x y : ℚ)
    (s : State) (p : Pointer) (hwf : ∀ mesh ∈ meshes, MeshOk mesh)
    (hno : ∀ m t, ¬ HitAt p.view x y (meshes.zip s.cubes) m t) :
    ∃ p', mouse_button_callback meshes view_original_inv .GLFW_PRESS x y s p = some (s, p') ∧
      p'.selected_obj = -1 := by
  obtain ⟨p', hp, hsel, -⟩ := press_eq view_original_inv
    (pick_eq p.view x y (zip_meshOk hwf s.cubes) p.selected_obj)
  refine ⟨p', hp, ?_⟩
  have hnil : sceneHits p.view ![x, y, 1] (meshes.zip s.cubes) 0 = [] := by
    cases hH : sceneHits p.view ![x, y, 1] (meshes.zip s.cubes) 0 with
    | nil => rfl
    | cons h H =>
      exact absurd ((hitAt_iff _ _ _ _ h.1 h.2).mpr (by rw [hH]; exact List.mem_cons_self _ _))
        (hno h.1 h.2)
  rw [hnil] at hsel
  rw [hsel]
  rfl
/-! ## Picking: sample scenes -/

set_option maxRecDepth 100000 in
theorem resetMeshes_ok : ∀ mesh ∈ resetMeshes, MeshOk mesh := by
  decide

theorem mem_sceneHits_of {view : Mat} {o : Fin 3 → ℚ} (scene : List (Mesh × Mat)) {j : Nat}
    {c : Mesh × Mat} {tri : Fin 3 → Nat} {h : Nat × ℚ} (m0 : Nat)
    (hc : scene[j]? = some c) (ht : tri ∈ c.1.F)
    (hh : triangleHit view o (m0 + j) c.2 c.1 tri = some h) : h ∈ sceneHits view o scene m0 := by
  induction scene generalizing j m0 with
  | nil => simp at hc
  | cons d rest ih =>
    rw [sceneHits, List.mem_append]
    cases j with
    | zero =>
      simp only [List.getElem?_cons_zero, Option.some.injEq] at hc
      subst hc
      exact Or.inl (List.mem_filterMap.mpr ⟨tri, ht, hh⟩)
    | succ j =>
      refine Or.inr (ih (m0 + 1) (by simpa using hc) ?_)
      rw [show m0 + 1 + j = m0 + (j + 1) by omega]
      exact hh

set_option maxRecDepth 100000 in
theorem cube14_get : (resetMeshes.zip resetState.cubes)[14]? = some cube14 :=
  some_getD_of_isSome _ (by decide)

set_option maxRecDepth 100000 in
theorem cube14_triangle : (![0, 1, 2] : Fin 3 → Nat) ∈ cube14.1.F := by
  decide

theorem cube14_hit :
    triangleHit 1 ![0, 0, 1] (0 + 14) cube14.2 cube14.1 ![0, 1, 2] = some (14, 11 / 20) := by
  decide!

theorem centre_hit :
    (14, (11 / 20 : ℚ)) ∈ sceneHits 1 ![0, 0, 1] (resetMeshes.zip resetState.cubes) 0 :=
  mem_sceneHits_of _ 0 cube14_get cube14_triangle cube14_hit

/-- A ray to the right of every vertex of the scene hits no triangle: the first coordinate
of a point of a hit triangle is a convex combination of those of its corners. -/
theorem no_hit_right {view : Mat} {x y : ℚ} {scene : List (Mesh × Mat)} (bound : ℚ)
    (hb : ∀ c ∈ scene, ∀ k a, corner view c.2 c.1 k = some a → a 0 ≤ bound) (hx : bound < x) :
    ∀ m t, ¬ HitAt view x y scene m t := by
  rintro m t ⟨mesh, T, tri, a, b, c, u, v, h1, -, ha, hbb, hc, -, he, hu, hv, huv⟩
  have hmem : (mesh, T) ∈ scene := List.getElem?_mem h1
  have ba := hb _ hmem _ _ ha
  have bb := hb _ hmem _ _ hbb
  have bc := hb _ hmem _ _ hc
  have e0 := congrFun he 0
  simp [coeff, ray_direction, Matrix.mulVec, Matrix.dotProduct, Fin.sum_univ_three] at e0
  have hw : 0 ≤ 1 - u - v := by linarith
  have k1 := mul_le_mul_of_nonneg_left ba hw
  have k2 := mul_le_mul_of_nonneg_left bb hu
  have k3 := mul_le_mul_of_nonneg_left bc hv
  nlinarith

theorem resetMeshes_right : ∀ mesh ∈ resetMeshes, ∀ v ∈ mesh.V, v 0 ≤ 9 / 20 := by
  decide!

theorem resetScene_right :
    ∀ c ∈ resetMeshes.zip resetState.cubes, ∀ k a, corner 1 c.2 c.1 k = some a →
      a 0 ≤ 9 / 20 := by
  intro c hc k a ha
  obtain ⟨h1, h2⟩ := List.of_mem_zip (show (c.1, c.2) ∈ resetMeshes.zip resetState.cubes from hc)
  have hT : c.2 = 1 := List.eq_of_mem_replicate h2
  unfold corner at ha
  cases hv : c.1.V[k]? with
  | none => rw [hv] at ha; exact absurd ha (by simp)
  | some v =>
    rw [hv] at ha
    simp only [Option.map_some', Option.some.injEq] at ha
    rw [← ha, hT]
    simp only [mul_one, Matrix.one_mulVec, Matrix.cons_val_zero]
    exact resetMeshes_right _ h1 v (List.getElem?_mem hv)
theorem centre_hitAt :
    ∃ m t, HitAt (startPointer 1).view 0 0 (resetMeshes.zip resetState.cubes) m t ∧
      t < INT_MAX :=
  ⟨14, 11 / 20, (hitAt_iff 1 0 0 _ 14 (11 / 20)).mpr centre_hit, by norm_num [INT_MAX]⟩

/-- Witness for C17: a press at the centre of the window in the reset state, seen along the
z axis; the ray meets the front face of the cube 14 at the parameter 11/20. -/
theorem pick_selects_nearest_witness :
    (∀ mesh ∈ resetMeshes, MeshOk mesh) ∧
    (∃ m t, HitAt (startPointer 1).view 0 0 (resetMeshes.zip resetState.cubes) m t ∧
      t < INT_MAX) ∧
    ∃ p', mouse_button_callback resetMeshes 1 .GLFW_PRESS 0 0 resetState (startPointer 1) =
        some (resetState, p') ∧
      (∃ (m : Nat) (t : ℚ), p'.selected_obj = (m : Int) ∧
        HitAt (startPointer 1).view 0 0 (resetMeshes.zip resetState.cubes) m t ∧
        ∀ m' t', HitAt (startPointer 1).view 0 0 (resetMeshes.zip resetState.cubes) m' t' →
          t ≤ t') ∧
      (∀ k t, HitAt (startPointer 1).view 0 0 (resetMeshes.zip resetState.cubes) k t →
        (∀ m' t', HitAt (startPointer 1).view 0 0 (resetMeshes.zip resetState.cubes) m' t' →
          m' ≠ k → t < t') →
        p'.selected_obj = (k : Int)) :=
  ⟨resetMeshes_ok, centre_hitAt,
    pick_selects_nearest resetMeshes 1 0 0 resetState (startPointer 1) resetMeshes_ok
      centre_hitAt⟩

theorem outside_noHit :
    ∀ m t, ¬ HitAt (selectedPointer 14).view (9 / 10) (3 / 10)
      (resetMeshes.zip resetState.cubes) m t :=
  no_hit_right (9 / 20) resetScene_right (by norm_num)

/-- Witness for C18: with the cube 14 selected, a press to the right of the cube in the
reset state, seen along the z axis. -/
theorem pick_no_hit_clears_witness :
    (∀ mesh ∈ resetMeshes, MeshOk mesh) ∧
    (∀ m t, ¬ HitAt (selectedPointer 14).view (9 / 10) (3 / 10)
      (resetMeshes.zip resetState.cubes) m t) ∧
    ∃ p', mouse_button_callback resetMeshes 1 .GLFW_PRESS (9 / 10) (3 / 10) resetState
        (selectedPointer 14) = some (resetState, p') ∧
      p'.selected_obj = -1 :=
  ⟨resetMeshes_ok, outside_noHit,
    pick_no_hit_clears resetMeshes 1 (9 / 10) (3 / 10) resetState (selectedPointer 14)
      resetMeshes_ok outside_noHit⟩

/-! ## Enqueueing -/

theorem release_cases (meshes : List Mesh) (view_original_inv : Mat) (xc yc : ℚ) (s : State)
    (p : Pointer) :
    mouse_button_callback meshes view_original_inv .GLFW_RELEASE xc yc s p =
      if p.selected_obj = -1 then some (s, { p with pressed := false })
      else
        match gesture s.faces p.selected_obj
          (canonicalDrag p.view view_original_inv (xc - p.original_xcanonical)
            (yc - p.original_ycanonical)).1
          (canonicalDrag p.view view_original_inv (xc - p.original_xcanonical)
            (yc - p.original_ycanonical)).2 with
        | some m => some (enqueue m s, p)
        | none => some (s, p) := by
  unfold mouse_button_callback
  simp only [reduceCtorEq, if_false, if_true]

theorem gesture_lt {F : FaceSets} {sel : Int} {x y : ℚ} {m : Nat}
    (h : gesture F sel x y = some m) : m < 12 := by
  unfold gesture at h
  repeat' split at h
  all_goals first
    | (simp only [Option.some.injEq] at h; omega)
    | exact absurd h (fun e => Option.noConfusion e)

/-- C13. Enqueueing.  The statements `rotation_options.push(m); rotation_started.push(false);`
append `m` to the tail of the move queue and `false` to the tail of the started-flag queue
and leave the history, the six face sets, the transforms, the current move, the step index
and the pose buffer as they are.  Each of the twelve key callbacks does exactly this on
release of its key, with its move code, and does nothing on any other action; a release of
the mouse button either changes no cube global or does exactly this with one of the twelve
move codes. -/
theorem enqueue_frame (m : Nat) (s : State) :
    ((enqueue m s).rotation_options = s.rotation_options ++ [m] ∧
      (enqueue m s).rotation_started = s.rotation_started ++ [false] ∧
      (enqueue m s).rotation_reversed = s.rotation_reversed ∧
      (enqueue m s).faces = s.faces ∧ (enqueue m s).cubes = s.cubes ∧
      (enqueue m s).rotation_option = s.rotation_option ∧
      (enqueue m s).frame_cnt = s.frame_cnt ∧ (enqueue m s).frames = s.frames) ∧
    (key_callback_F .GLFW_RELEASE s = enqueue 0 s ∧ key_callback_B .GLFW_RELEASE s = enqueue 1 s ∧
      key_callback_R .GLFW_RELEASE s = enqueue 2 s ∧ key_callback_L .GLFW_RELEASE s = enqueue 3 s ∧
      key_callback_U .GLFW_RELEASE s = enqueue 4 s ∧ key_callback_D .GLFW_RELEASE s = enqueue 5 s ∧
      key_callback_ccw .GLFW_KEY_F .GLFW_RELEASE s = enqueue 6 s ∧
      key_callback_ccw .GLFW_KEY_B .GLFW_RELEASE s = enqueue 7 s ∧
      key_callback_ccw .GLFW_KEY_R .GLFW_RELEASE s = enqueue 8 s ∧
      key_callback_ccw .GLFW_KEY_L .GLFW_RELEASE s = enqueue 9 s ∧
      key_callback_ccw .GLFW_KEY_U .GLFW_RELEASE s = enqueue 10 s ∧
      key_callback_ccw .GLFW_KEY_D .GLFW_RELEASE s = enqueue 11 s) ∧
    (∀ action, action ≠ .GLFW_RELEASE →
      key_callback_F action s = s ∧ key_callback_B action s = s ∧ key_callback_R action s = s ∧
      key_callback_L action s = s ∧ key_callback_U action s = s ∧ key_callback_D action s = s ∧
      ∀ key, key_callback_ccw key action s = s) ∧
    (∀ meshes view_original_inv xc yc p s' p',
      mouse_button_callback meshes view_original_inv .GLFW_RELEASE xc yc s p = some (s', p') →
      s' = s ∨ ∃ k, k < 12 ∧ s' = enqueue k s) := by
  refine ⟨⟨rfl, rfl, rfl, rfl, rfl, rfl, rfl, rfl⟩,
    ⟨rfl, rfl, rfl, rfl, rfl, rfl, rfl, rfl, rfl, rfl, rfl, rfl⟩, ?_, ?_⟩
  · intro action ha
    refine ⟨?_, ?_, ?_, ?_, ?_, ?_, ?_⟩
    · simp [key_callback_F, ha]
    · simp [key_callback_B, ha]
    · simp [key_callback_R, ha]
    · simp [key_callback_L, ha]
    · simp [key_callback_U, ha]
    · simp [key_callback_D, ha]
    · intro key
      cases key <;> simp [key_callback_ccw, ha]
  · intro meshes view_original_inv xc yc p s' p' h
    rw [release_cases] at h
    split at h
    · simp only [Option.some.injEq, Prod.mk.injEq] at h
      exact Or.inl h.1.symm
    · split at h
      · rename_i k hk
        simp only [Option.some.injEq, Prod.mk.injEq] at h
        exact Or.inr ⟨k, gesture_lt hk, h.1.symm⟩
      · simp only [Option.some.injEq, Prod.mk.injEq] at h
        exact Or.inl h.1.symm
/-! ## Gestures -/

/-- C19. Gesture table, front entry.  A cube of the front set is selected and the mouse
button is released; `(x, y)` is the drag in the canonical frame (the drag after the
multiplication by `view * view_original.inverse()`).  If the drag is vertically dominant,
`|x| < |y|`, and `x` and `y` have opposite signs, `x * y < 0`, the release pushes a front
turn and changes nothing else: the code 0 (clockwise) when `x > 0` and the code 6
(counter-clockwise) when `x < 0`. -/
theorem gesture_front (meshes : List Mesh) (view_original_inv : Mat) (xc yc : ℚ) (s : State)
    (p : Pointer) (k : Nat) (x y : ℚ) (hsel : p.selected_obj = (k : Int))
    (hk : k ∈ s.faces.front_faces)
    (hd : canonicalDrag p.view view_original_inv (xc - p.original_xcanonical)
      (yc - p.original_ycanonical) = (x, y))
    (hv : abs x < abs y) (ho : x * y < 0) :
    (0 < x → mouse_button_callback meshes view_original_inv .GLFW_RELEASE xc yc s p =
      some (enqueue 0 s, p)) ∧
    (x < 0 → mouse_button_callback meshes view_original_inv .GLFW_RELEASE xc yc s p =
      some (enqueue 6 s, p)) ∧
    (0 < x ∨ x < 0) := by
  have hne : p.selected_obj ≠ -1 := by rw [hsel]; omega
  have hin : inSet s.faces.front_faces p.selected_obj := by
    rw [hsel]
    exact ⟨Int.ofNat_nonneg k, by simpa using hk⟩
  have hg : gesture s.faces p.selected_obj x y = some (if 0 < x then 0 else 6) := by
    unfold gesture
    rw [if_pos ⟨hin, le_of_lt ho, hv⟩]
  have hx : x ≠ 0 := by
    rintro rfl
    simp at ho
  rw [release_cases, if_neg hne, hd]
  simp only [hg]
  refine ⟨fun h => by rw [if_pos h], fun h => by rw [if_neg (not_lt.mpr (le_of_lt h))], ?_⟩
  rcases lt_trichotomy 0 x with h | h | h
  · exact Or.inl h
  · exact absurd h.symm hx
  · exact Or.inr h

theorem selectedPointer_drag (k : Nat) (xc yc : ℚ) :
    canonicalDrag (selectedPointer k).view 1 (xc - (selectedPointer k).original_xcanonical)
      (yc - (selectedPointer k).original_ycanonical) = (xc, yc) := by
  simp [canonicalDrag, selectedPointer, startPointer, Matrix.mulVec, Matrix.dotProduct,
    Fin.sum_univ_four, Matrix.one_apply]

theorem sample_drag_vertical : abs (1 / 10 : ℚ) < abs (-3 / 10 : ℚ) := by
  rw [abs_of_pos (by norm_num : (0 : ℚ) < 1 / 10),
    abs_of_neg (by norm_num : (-3 / 10 : ℚ) < 0)]
  norm_num

/-- Witness for C19: the corner cube 26 of the reset state is dragged down and a little to
the right. -/
theorem gesture_front_witness :
    (selectedPointer 26).selected_obj = ((26 : Nat) : Int) ∧
    26 ∈ resetState.faces.front_faces ∧
    canonicalDrag (selectedPointer 26).view 1
      (1 / 10 - (selectedPointer 26).original_xcanonical)
      (-3 / 10 - (selectedPointer 26).original_ycanonical) = (1 / 10, -3 / 10) ∧
    abs (1 / 10 : ℚ) < abs (-3 / 10 : ℚ) ∧ (1 / 10 : ℚ) * (-3 / 10) < 0 ∧
    ((0 < (1 / 10 : ℚ) → mouse_button_callback resetMeshes 1 .GLFW_RELEASE (1 / 10) (-3 / 10)
        resetState (selectedPointer 26) = some (enqueue 0 resetState, selectedPointer 26)) ∧
    ((1 / 10 : ℚ) < 0 → mouse_button_callback resetMeshes 1 .GLFW_RELEASE (1 / 10) (-3 / 10)
        resetState (selectedPointer 26) = some (enqueue 6 resetState, selectedPointer 26)) ∧
    (0 < (1 / 10 : ℚ) ∨ (1 / 10 : ℚ) < 0)) :=
  ⟨rfl, by decide, selectedPointer_drag 26 _ _, sample_drag_vertical, by norm_num,
    gesture_front resetMeshes 1 (1 / 10) (-3 / 10) resetState (selectedPointer 26) 26
      (1 / 10) (-3 / 10) rfl (by decide) (selectedPointer_drag 26 _ _)
      sample_drag_vertical (by norm_num)⟩

theorem gesture_none {F : FaceSets} {sel : Int} {x y : ℚ}
    (h : ∀ g, inSet (F.get g) sel → ¬ faceCondition g x y) : gesture F sel x y = none := by
  have h0 := h .FR
  have h1 := h .BA
  have h2 := h .RI
  have h3 := h .LE
  have h4 := h .UP
  have h5 := h .DO
  simp only [FaceSets.get, faceCondition] at h0 h1 h2 h3 h4 h5
  unfold gesture
  rw [if_neg (fun c => h0 c.1 c.2), if_neg (fun c => h1 c.1 c.2), if_neg (fun c => h2 c.1 c.2),
    if_neg (fun c => h3 c.1 c.2), if_neg (fun c => h4 c.1 c.2), if_neg (fun c => h5 c.1 c.2)]

/-- C20. A gesture with no matching table entry produces no move.  A cube is selected and
the mouse button is released; `(x, y)` is the drag in the canonical frame.  If for none of
the face sets that hold the selected cube the condition of that face on `(x, y)` is true,
the release pushes nothing and changes none of the cube globals (queue, flags, history, face
sets, transforms) nor the pointer globals.  This is so in particular for a cube that is in
no face set and for the zero drag, which a release at the place of the press gives when the
view matrices have no translation part. -/
theorem gesture_no_match (meshes : List Mesh) (view_original_inv : Mat) (xc yc : ℚ)
    (s : State) (p : Pointer) (hsel : p.selected_obj ≠ -1) :
    (∀ x y, canonicalDrag p.view view_original_inv (xc - p.original_xcanonical)
        (yc - p.original_ycanonical) = (x, y) →
      (∀ g, inSet (s.faces.get g) p.selected_obj → ¬ faceCondition g x y) →
      mouse_button_callback meshes view_original_inv .GLFW_RELEASE xc yc s p = some (s, p)) ∧
    ((∀ g, ¬ inSet (s.faces.get g) p.selected_obj) →
      mouse_button_callback meshes view_original_inv .GLFW_RELEASE xc yc s p = some (s, p)) ∧
    (canonicalDrag p.view view_original_inv (xc - p.original_xcanonical)
        (yc - p.original_ycanonical) = (0, 0) →
      mouse_button_callback meshes view_original_inv .GLFW_RELEASE xc yc s p = some (s, p)) ∧
    (xc = p.original_xcanonical → yc = p.original_ycanonical →
      (p.view * view_original_inv) 0 3 = 0 → (p.view * view_original_inv) 1 3 = 0 →
      mouse_button_callback meshes view_original_inv .GLFW_RELEASE xc yc s p = some (s, p)) := by
  have key : ∀ x y, canonicalDrag p.view view_original_inv (xc - p.original_xcanonical)
        (yc - p.original_ycanonical) = (x, y) →
      (∀ g, inSet (s.faces.get g) p.selected_obj → ¬ faceCondition g x y) →
      mouse_button_callback meshes view_original_inv .GLFW_RELEASE xc yc s p = some (s, p) := by
    intro x y hd hno
    rw [release_cases, if_neg hsel, hd]
    simp only [gesture_none hno]
  have zero : ∀ g, ¬ faceCondition g 0 0 := by
    intro g
    cases g <;> simp [faceCondition]
  refine ⟨key, ?_, ?_, ?_⟩
  · intro hno
    exact key _ _ rfl (fun g hg => absurd hg (hno g))
  · intro hd
    exact key 0 0 hd (fun g _ => zero g)
  · intro hx hy h0 h1
    refine key 0 0 ?_ (fun g _ => zero g)
    rw [hx, hy]
    simp only [canonicalDrag, sub_self, Prod.mk.injEq]
    constructor
    · simpa [Matrix.mulVec, Matrix.dotProduct, Fin.sum_univ_four] using h0
    · simpa [Matrix.mulVec, Matrix.dotProduct, Fin.sum_univ_four] using h1

/-- Witness for C20: the core cube 13, which is in no face set, is selected in the reset
state. -/
theorem gesture_no_match_witness :
    (selectedPointer 13).selected_obj ≠ -1 ∧
    ((∀ x y, canonicalDrag (selectedPointer 13).view 1
        (1 / 10 - (selectedPointer 13).original_xcanonical)
        (-3 / 10 - (selectedPointer 13).original_ycanonical) = (x, y) →
      (∀ g, inSet (resetState.faces.get g) (selectedPointer 13).selected_obj →
        ¬ faceCondition g x y) →
      mouse_button_callback resetMeshes 1 .GLFW_RELEASE (1 / 10) (-3 / 10) resetState
        (selectedPointer 13) = some (resetState, selectedPointer 13)) ∧
    ((∀ g, ¬ inSet (resetState.faces.get g) (selectedPointer 13).selected_obj) →
      mouse_button_callback resetMeshes 1 .GLFW_RELEASE (1 / 10) (-3 / 10) resetState
        (selectedPointer 13) = some (resetState, selectedPointer 13)) ∧
    (canonicalDrag (selectedPointer 13).view 1
        (1 / 10 - (selectedPointer 13).original_xcanonical)
        (-3 / 10 - (selectedPointer 13).original_ycanonical) = (0, 0) →
      mouse_button_callback resetMeshes 1 .GLFW_RELEASE (1 / 10) (-3 / 10) resetState
        (selectedPointer 13) = some (resetState, selectedPointer 13)) ∧
    (1 / 10 = (selectedPointer 13).original_xcanonical →
      -3 / 10 = (selectedPointer 13).original_ycanonical →
      ((selectedPointer 13).view * 1) 0 3 = 0 → ((selectedPointer 13).view * 1) 1 3 = 0 →
      mouse_button_callback resetMeshes 1 .GLFW_RELEASE (1 / 10) (-3 / 10) resetState
        (selectedPointer 13) = some (resetState, selectedPointer 13))) :=
  ⟨by decide, gesture_no_match resetMeshes 1 (1 / 10) (-3 / 10) resetState
    (selectedPointer 13) (by decide)⟩

/-! ## Queue safety and the started flags -/

theorem sync_head {s : State} (hs : Sync s) (hf : s.frame_cnt ≠ -1) :
    ∃ m q b st, s.rotation_options = m :: q ∧ s.rotation_started = b :: st ∧ m < 12 ∧
      s.rotation_option = (m : Int) := by
  obtain ⟨h1, h2, h3⟩ := hs
  rcases h3 with h3 | ⟨-, -, m, q, hq, hr⟩
  · exact absurd h3 hf
  · cases hst : s.rotation_started with
    | nil =>
      rw [hq, hst] at h1
      simp at h1
    | cons b st =>
      exact ⟨m, q, b, st, hq, rfl, h2 m (by rw [hq]; exact List.mem_cons_self _ _), hr⟩

theorem not_frontOnEmpty {s : State} (hs : Sync s) (time : ℚ) : ¬ frontOnEmpty time s := by
  rintro ⟨h1, -, h3⟩
  obtain ⟨m, q, b, st, hq, hst, -, -⟩ := sync_head (sync_fetch hs) h1
  split at h3
  · rcases h3.2 with h | h
    · rw [hq] at h; exact absurd h (by simp)
    · rw [hst] at h; exact absurd h (by simp)
  · rw [hst] at h3
    exact absurd h3.2 (by simp)

theorem play_idle (tr : Trig) (time : ℚ) {s : State} (hs : Sync s)
    (hq : s.rotation_options = []) (hr : s.rotation_option = -1) : play tr time s = some s := by
  have hf : fetch s = s := by
    unfold fetch
    rw [if_pos hr, hq]
  have hc : s.frame_cnt = -1 := by
    by_contra hne
    obtain ⟨m, q, b, st, hq', -⟩ := sync_head hs hne
    rw [hq] at hq'
    exact absurd hq' (by simp)
  unfold play
  simp only [hf, hc]
  simp

theorem tailFalse_play {tr : Trig} {time : ℚ} {s s' : State} (hs : Sync s) (ht : TailFalse s)
    (h : play tr time s = some s') : TailFalse s' := by
  obtain ⟨f1, f2, f3, f4, f5, f6⟩ := fetch_proj s
  have hsf := sync_fetch hs
  rcases play_cases hs h with ⟨a, rfl⟩ | ⟨a, b, c, rfl⟩ | ⟨a, b, s2, hf, rfl⟩ | ⟨a, b, c, hi⟩
  · unfold TailFalse
    rw [f3]
    exact ht
  · unfold TailFalse
    show ∀ b ∈ (fetch s).rotation_started.tail, b = false
    rw [f3]
    exact ht
  · obtain ⟨m, q, b0, st, hq, hst, -, -, e2, -⟩ := finish_spec hf
    obtain ⟨-, -, g3, -⟩ := advance_proj s2
    unfold TailFalse
    rw [g3, e2]
    rw [f3] at hst
    intro x hx
    exact ht x (by rw [hst]; exact List.mem_of_mem_tail hx)
  · obtain ⟨m, q, b0, st, hq, hst, hm, hro⟩ := sync_head hsf (by omega)
    obtain ⟨s1, cubes, h1, -, rfl⟩ := interpolate_spec hm hro hi
    obtain ⟨-, -, -, -, -, r6⟩ := rotate_spec h1
    unfold TailFalse
    show ∀ b ∈ s1.rotation_started.tail, b = false
    rcases r6 with ⟨st1, -, rfl⟩ | ⟨st1, fr, p1, p2, -⟩
    · rw [f3]; exact ht
    · rw [p2]
      rw [f3] at p1
      intro x hx
      exact ht x (by rw [p1]; exact hx)

theorem tailFalse_step {tr : Trig} {e : Event} {s s' : State} (hs : Sync s) (ht : TailFalse s)
    (h : step tr e s = some s') : TailFalse s' := by
  cases e with
  | reset =>
    simp only [step, Option.some.injEq] at h
    subst h
    simp [TailFalse, reset_cubes]
  | key m =>
    simp only [step, Option.some.injEq] at h
    subst h
    intro b hb
    simp only [enqueue] at hb
    cases hst : s.rotation_started with
    | nil => rw [hst] at hb; simp at hb
    | cons x st =>
      rw [hst] at hb
      simp only [List.cons_append, List.tail_cons, List.mem_append, List.mem_singleton] at hb
      rcases hb with hb | hb
      · exact ht b (by rw [hst]; exact hb)
      · exact hb
  | solve =>
    simp only [step, Option.some.injEq] at h
    subst h
    intro b hb
    simp only [key_callback_SPACE, solveLoop_eq] at hb
    cases hst : s.rotation_started with
    | nil =>
      rw [hst] at hb
      simp only [List.nil_append] at hb
      exact List.eq_of_mem_replicate (List.mem_of_mem_tail hb)
    | cons x st =>
      rw [hst] at hb
      simp only [List.cons_append, List.tail_cons, List.mem_append] at hb
      rcases hb with hb | hb
      · exact ht b (by rw [hst]; exact hb)
      · exact List.eq_of_mem_replicate hb
  | tick time => exact tailFalse_play hs ht h

theorem tailFalse_run {tr : Trig} (evs : List Event) {s s' : State} (hs : Sync s)
    (ht : TailFalse s) (h : run tr evs s = some s') : TailFalse s' := by
  induction evs generalizing s with
  | nil =>
    simp only [run, Option.some.injEq] at h
    subst h
    exact ht
  | cons e evs ih =>
    obtain ⟨s1, h1, h2⟩ := run_cons h
    exact ih (sync_step hs h1) (tailFalse_step hs ht h1) h2

/-- C21. Empty-queue safety.  In every state reached from a state just after a reset by any
sequence of resets, keys (or gestures), solve keys and passes of `play` with any clock
values, no pass of `play`, whatever its clock value, evaluates `front()` or `pop()` of the
move queue or of the started-flag queue while that queue is empty; and a pass of `play`
with an empty move queue and no current move returns the state unchanged. -/
theorem empty_queue_safety (tr : Trig) (s0 : State) (evs : List Event) (s : State)
    (h : run tr evs (reset_cubes s0) = some s) :
    (∀ time, ¬ frontOnEmpty time s) ∧
    (s.rotation_options = [] → s.rotation_option = -1 → ∀ time, play tr time s = some s) :=
  have hs := sync_run evs (sync_reset s0) h
  ⟨fun time => not_frontOnEmpty hs time, fun hq hr time => play_idle tr time hs hq hr⟩

/-- C22. Only the head may be animating.  In every state reached from a state just after a
reset by any sequence of resets, keys (or gestures), solve keys and passes of `play`, the
move queue and the started-flag queue have the same length, and every started flag other
than the front one is false. -/
theorem only_head_started (tr : Trig) (s0 : State) (evs : List Event) (s : State)
    (h : run tr evs (reset_cubes s0) = some s) :
    s.rotation_options.length = s.rotation_started.length ∧
    ∀ b ∈ s.rotation_started.tail, b = false :=
  ⟨(sync_run evs (sync_reset s0) h).1,
    tailFalse_run evs (sync_reset s0) (by simp [TailFalse, reset_cubes]) h⟩

set_option maxRecDepth 1000000 in
theorem mixedDone_run : run sampleTrig mixedEvents (reset_cubes startState) = some mixedDone :=
  some_getD_of_isSome _ (by decide)

/-- Witness for C21: a run with a committed move, queued moves, a solve and a reset. -/
theorem empty_queue_safety_witness :
    run sampleTrig mixedEvents (reset_cubes startState) = some mixedDone ∧
    ((∀ time, ¬ frontOnEmpty time mixedDone) ∧
    (mixedDone.rotation_options = [] → mixedDone.rotation_option = -1 →
      ∀ time, play sampleTrig time mixedDone = some mixedDone)) :=
  ⟨mixedDone_run, empty_queue_safety sampleTrig startState mixedEvents mixedDone mixedDone_run⟩

/-- Witness for C22: a run with a committed move, queued moves, a solve and a reset. -/
theorem only_head_started_witness :
    run sampleTrig mixedEvents (reset_cubes startState) = some mixedDone ∧
    (mixedDone.rotation_options.length = mixedDone.rotation_started.length ∧
    ∀ b ∈ mixedDone.rotation_started.tail, b = false) :=
  ⟨mixedDone_run, only_head_started sampleTrig startState mixedEvents mixedDone mixedDone_run⟩
/-! ## Reset while a move is animating -/

theorem play_stuck (tr : Trig) (time : ℚ) {s : State} (hf : s.frame_cnt = -1)
    (hr : s.rotation_option ≠ -1) : play tr time s = some s := by
  have hfe : fetch s = s := by
    unfold fetch
    rw [if_neg hr]
  unfold play
  simp only [hfe, hf]
  simp

theorem run_stuck (tr : Trig) (ts : List ℚ) {s : State} (hf : s.frame_cnt = -1)
    (hr : s.rotation_option ≠ -1) : run tr (ts.map Event.tick) s = some s := by
  induction ts with
  | nil => rfl
  | cons t ts ih =>
    simp only [List.map_cons, run, step, play_stuck tr t hf hr, Option.some_bind]
    exact ih

set_option maxRecDepth 100000 in
theorem resetMid_run : run sampleTrig resetMidEvents resetState = some resetMid :=
  some_getD_of_isSome _ (by decide)

set_option maxRecDepth 100000 in
theorem resetMid_regs :
    resetMid.rotation_option = 0 ∧ resetMid.frame_cnt = -1 ∧ resetMid.rotation_options = [3] ∧
      resetMid.rotation_reversed = [] ∧ resetMid.faces = solvedFaces := by
  decide

/-- C24, the failing input. The function `reset_cubes` restores the solved face sets,
identity transforms, empty queues, an empty history and the step index -1 from every state,
but it leaves the current move as it is: `int rotation_option = -1;` declares a local
variable.  After the run "front turn enqueued and primed, reset, left turn enqueued" the
current move is still 0 and the step index is -1, so that no sequence of passes of `play`
changes the state: the left turn stays in the queue and is never committed. -/
theorem reset_keeps_current_move :
    (∀ s : State, (reset_cubes s).faces = solvedFaces ∧
      (reset_cubes s).cubes = List.replicate 27 1 ∧ (reset_cubes s).rotation_options = [] ∧
      (reset_cubes s).rotation_started = [] ∧ (reset_cubes s).rotation_reversed = [] ∧
      (reset_cubes s).frame_cnt = -1 ∧ (reset_cubes s).frames = [] ∧
      (reset_cubes s).rotation_option = s.rotation_option) ∧
    run sampleTrig resetMidEvents resetState = some resetMid ∧
    resetMid.rotation_option = 0 ∧ resetMid.rotation_options = [3] ∧
    ∀ ts : List ℚ, run sampleTrig (ts.map Event.tick) resetMid = some resetMid ∧
      commitLog sampleTrig (ts.map Event.tick) resetMid = [] := by
  refine ⟨fun s => ⟨rfl, rfl, rfl, rfl, rfl, rfl, rfl, rfl⟩, resetMid_run, resetMid_regs.1,
    resetMid_regs.2.2.1, ?_⟩
  have hr : resetMid.rotation_option ≠ -1 := by rw [resetMid_regs.1]; decide
  have hf := resetMid_regs.2.1
  intro ts
  refine ⟨run_stuck sampleTrig ts hf hr, ?_⟩
  induction ts with
  | nil => rfl
  | cons t ts ih =>
    have hc : committing t resetMid = none := by
      have hfe : fetch resetMid = resetMid := by
        unfold fetch
        rw [if_neg hr]
      simp [committing, hfe, hf, FRAME_NUM]
    have hstep : step sampleTrig (.tick t) resetMid = some resetMid := by
      simp only [step]
      exact play_stuck sampleTrig t hf hr
    rw [List.map_cons, commitLog_cons hstep, ih]
    simp [logOf, hc]

/-! ## A commit without priming -/

set_option maxRecDepth 1000000 in
theorem unprimed_run : run sampleTrig unprimedEvents resetState = some unprimed :=
  some_getD_of_isSome _ (by decide)

/-- C27, the failing input. After the run "front turn enqueued, 22 passes of `play`
with `time > 1`" from the reset state, the next pass with `time > 1` performs the commit of
move 0 although its started flag is false; the pose buffer is empty, so the read
`frames[0*24+23]` is outside the buffer (no result in the model).  In the run `staleEvents`
the second move is committed with its started flag false, from the poses of the first. -/
theorem commit_without_priming :
    run sampleTrig unprimedEvents resetState = some unprimed ∧
    committing 2 unprimed = some (0, false) ∧ unprimed.frames = [] ∧
    play sampleTrig 2 unprimed = none ∧
    commitLog sampleTrig staleEvents resetState = [(0, true), (6, false)] := by
  refine ⟨unprimed_run, ?_, ?_, ?_, ?_⟩
  · set_option maxRecDepth 1000000 in decide
  · set_option maxRecDepth 1000000 in decide
  · set_option maxRecDepth 1000000 in
    exact Option.isNone_iff_eq_none.mp (by decide)
  · set_option maxRecDepth 1000000 in decide

/-! ## The loops return -/

theorem primeLoop_isSome (tr : Trig) (sign : ℚ) (ax : Axis) {cubes : List Mat} (L : List Nat)
    (hb : ∀ c ∈ L, c < cubes.length) : ∃ fr, primeLoop tr sign ax cubes L = some fr := by
  induction L with
  | nil => exact ⟨[], rfl⟩
  | cons c L ih =>
    obtain ⟨more, hmore⟩ := ih (fun x hx => hb x (List.mem_cons_of_mem _ hx))
    have hc := hb c (List.mem_cons_self _ _)
    simp only [primeLoop, List.getElem?_eq_getElem hc, hmore]
    exact ⟨_, rfl⟩

theorem atIdx_isSome {l : List Mat} {i : Int} (h0 : 0 ≤ i) (h : i.toNat < l.length) :
    ∃ A, atIdx l i = some A := by
  unfold atIdx
  rw [if_pos h0, List.getElem?_eq_getElem h]
  exact ⟨_, rfl⟩

theorem blendLoop_isSome (time : ℚ) {frames : List Mat} {fc : Int} (h0 : 0 ≤ fc)
    (h22 : fc ≤ 22) (L : List Nat) (count : Nat) (cubes : List Mat)
    (hlen : (count + L.length) * 24 ≤ frames.length) (hb : ∀ c ∈ L, c < cubes.length) :
    ∃ r, blendLoop time frames fc L count cubes = some r := by
  induction L generalizing count cubes with
  | nil => exact ⟨cubes, rfl⟩
  | cons c L ih =>
    simp only [List.length_cons] at hlen
    obtain ⟨A, hA⟩ := atIdx_isSome (l := frames) (i := (FRAME_NUM : Int) * count + fc)
      (by simp only [FRAME_NUM]; omega) (by simp only [FRAME_NUM]; omega)
    obtain ⟨B, hB⟩ := atIdx_isSome (l := frames) (i := (FRAME_NUM : Int) * count + fc + 1)
      (by simp only [FRAME_NUM]; omega) (by simp only [FRAME_NUM]; omega)
    have hc := hb c (List.mem_cons_self _ _)
    simp only [blendLoop, hA, hB, if_pos hc]
    exact ih (count + 1) _ (by omega)
      (fun x hx => by rw [List.length_set]; exact hb x (List.mem_cons_of_mem _ hx))

theorem commitLoop_isSome (n0 n1 n2 n3 : Face) {frames : List Mat} (L : List Nat)
    (count : Nat) (cubes : List Mat) (F : FaceSets)
    (hlen : (count + L.length) * 24 ≤ frames.length) (hb : ∀ c ∈ L, c < cubes.length) :
    ∃ r, commitLoop n0 n1 n2 n3 frames L count cubes F = some r := by
  induction L generalizing count cubes F with
  | nil => exact ⟨_, rfl⟩
  | cons c L ih =>
    simp only [List.length_cons] at hlen
    have hi : count * FRAME_NUM + FRAME_NUM - 1 < frames.length := by
      simp only [FRAME_NUM]; omega
    have hc := hb c (List.mem_cons_self _ _)
    simp only [commitLoop, List.getElem?_eq_getElem hi, if_pos hc]
    exact ih (count + 1) _ _ (by omega)
      (fun x hx => by rw [List.length_set]; exact hb x (List.mem_cons_of_mem _ hx))
/-! ## A move in flight runs to its commit -/

theorem fetch_current {s : State} (h : s.rotation_option ≠ -1) : fetch s = s := by
  unfold fetch
  rw [if_neg h]

theorem running_head {tr : Trig} {s : State} {base : List Mat} {k : Nat}
    (hR : Running tr s base k) :
    ∃ m q st, s.rotation_options = m :: q ∧ s.rotation_started = true :: st ∧ m < 12 ∧
      s.rotation_option = (m : Int) ∧ fetch s = s ∧
      primeLoop tr (signOf m) (axisOf m) base (s.faces.get (turnFace m)) = some s.frames ∧
      s.cubes.length = base.length ∧
      (∀ c, c ∉ s.faces.get (turnFace m) → s.cubes[c]? = base[c]?) ∧
      (0 + (s.faces.get (turnFace m)).length) * 24 ≤ s.frames.length ∧
      ∀ c ∈ s.faces.get (turnFace m), c < s.cubes.length := by
  obtain ⟨hs, hk, m1, q1, st1, y1, y2, y3, y4, y5⟩ := hR
  obtain ⟨m, q, b, st, hq, hst, hm, hro⟩ := sync_head hs (by rw [hk]; omega)
  rw [hq] at y1
  simp only [List.cons.injEq] at y1
  obtain ⟨rfl, rfl⟩ := y1
  refine ⟨m, q, st1, hq, y2, hm, hro, fetch_current (by rw [hro]; omega), y3, y4, y5, ?_, ?_⟩
  · rw [(primeLoop_getElem _ y3).1]
    omega
  · intro c hc
    rw [y4]
    exact primed_bound y3 c hc

theorem running_step {tr : Trig} {e : Event} {s : State} {base : List Mat} {k : Nat}
    (hR : Running tr s base k) (he : e.isReset = false) (hk : k + longOf e ≤ 22) :
    ∃ s', step tr e s = some s' ∧ Running tr s' base (k + longOf e) ∧
      s'.frames = s.frames ∧ s'.rotation_option = s.rotation_option ∧ logOf e s = [] ∧
      s'.rotation_options.head? = s.rotation_options.head? := by
  obtain ⟨m, q, st, hq, hst, hm, hro, hfe, hpl, hlen, hoff, hfr, hb⟩ := running_head hR
  obtain ⟨hs, hfc, -⟩ := hR
  cases e with
  | reset => exact absurd he (by simp [Event.isReset])
  | key c =>
    refine ⟨enqueue c.val s, rfl, ⟨sync_enqueue hs c.isLt, hfc, m, q ++ [c.val], st ++ [false],
      by simp [enqueue, hq], by simp [enqueue, hst], hpl, hlen, hoff⟩, rfl, rfl, rfl, ?_⟩
    simp [enqueue, hq]
  | solve =>
    refine ⟨key_callback_SPACE s, rfl, ⟨sync_solve hs, hfc, m,
      q ++ s.rotation_reversed.map (fun t => (t + 6) % 12),
      st ++ List.replicate s.rotation_reversed.length false,
      by simp [key_callback_SPACE, solveLoop_eq, hq],
      by simp [key_callback_SPACE, solveLoop_eq, hst], hpl, hlen, hoff⟩, rfl, rfl, rfl, ?_⟩
    simp [key_callback_SPACE, solveLoop_eq, hq]
  | tick time =>
    have hne : (fetch s).frame_cnt ≠ -1 := by rw [hfe, hfc]; omega
    have hlt : (fetch s).frame_cnt < (FRAME_NUM : Int) - 1 := by
      rw [hfe, hfc]; simp only [FRAME_NUM]; omega
    by_cases ht : 1 < time
    · simp only [longOf, if_pos ht] at hk ⊢
      have hn2 : ¬ (fetch s).frame_cnt = (FRAME_NUM : Int) - 2 := by
        rw [hfe, hfc]; simp only [FRAME_NUM]; omega
      have hp : play tr time s = some { s with frame_cnt := s.frame_cnt + 1 } := by
        simp only [play]
        rw [if_pos ⟨hne, hlt⟩, if_pos ht, if_neg hn2, hfe]
        simp only [advance]
        rw [if_pos (by rw [hfc]; omega)]
      have hsync : Sync { s with frame_cnt := s.frame_cnt + 1 } :=
        ⟨hs.1, hs.2.1, Or.inr ⟨by show 0 ≤ s.frame_cnt + 1; omega,
          by show s.frame_cnt + 1 ≤ 22; omega, m, q, hq, hro⟩⟩
      refine ⟨_, hp, ⟨hsync, by show s.frame_cnt + 1 = ((k + 1 : Nat) : Int); rw [hfc]; omega,
        m, q, st, hq, hst, hpl, hlen, hoff⟩, rfl, rfl, ?_, rfl⟩
      simp only [logOf, committing, hfe, hfc, FRAME_NUM]
      rw [if_neg (by omega)]
      rfl
    · simp only [longOf, if_neg ht, Nat.add_zero] at hk ⊢
      obtain ⟨cubes, hbl⟩ := blendLoop_isSome time (by rw [hfc]; omega : 0 ≤ s.frame_cnt)
        (by rw [hfc]; omega) (s.faces.get (turnFace m)) 0 s.cubes hfr hb
      have hrot : rotateOf tr m s = some s := by
        rw [rotateOf_eq tr hm]
        simp only [rotate, hst]
      have hp : play tr time s = some { s with cubes := cubes } := by
        simp only [play]
        rw [if_pos ⟨hne, hlt⟩, if_neg ht, hfe]
        simp only [interpolate, hro, Int.toNat_ofNat, Int.ofNat_nonneg, if_true, turning_eq hm,
          hrot, hbl]
      obtain ⟨bl1, bl2⟩ := blendLoop_spec _ _ _ hbl
      refine ⟨_, hp, ⟨⟨hs.1, hs.2.1, hs.2.2⟩, hfc, m, q, st, hq, hst, hpl, by
        show cubes.length = base.length
        rw [bl1, hlen], fun c hc => by
        show cubes[c]? = base[c]?
        rw [bl2 c hc, hoff c hc]⟩, rfl, rfl, ?_, rfl⟩
      simp only [logOf, committing]
      rw [if_neg (fun h => ht h.2)]
      rfl

theorem running_run {tr : Trig} (evs : List Event) {s : State} {base : List Mat} {k : Nat}
    (hR : Running tr s base k) (hev : ∀ e ∈ evs, e.isReset = false)
    (hk : k + longTicks evs ≤ 22) :
    ∃ s', run tr evs s = some s' ∧ Running tr s' base (k + longTicks evs) ∧
      s'.frames = s.frames ∧ s'.rotation_option = s.rotation_option ∧
      commitLog tr evs s = [] ∧ s'.rotation_options.head? = s.rotation_options.head? := by
  induction evs generalizing s k with
  | nil => exact ⟨s, rfl, hR, rfl, rfl, rfl, rfl⟩
  | cons e evs ih =>
    simp only [longTicks] at hk ⊢
    obtain ⟨s1, h1, hR1, a1, a2, a3, a4⟩ :=
      running_step hR (hev e (List.mem_cons_self _ _)) (by omega)
    obtain ⟨s', h2, hR2, b1, b2, b3, b4⟩ :=
      ih hR1 (fun x hx => hev x (List.mem_cons_of_mem _ hx)) (by omega)
    refine ⟨s', by simp only [run, h1, Option.some_bind, h2],
      by rw [← Nat.add_assoc]; exact hR2, by rw [b1, a1], by rw [b2, a2],
      by rw [commitLog_cons h1, a3, b3]; rfl, by rw [b4, a4]⟩

theorem running_commit {tr : Trig} {s : State} {base : List Mat} (hR : Running tr s base 22)
    {time : ℚ} (ht : 1 < time) :
    ∃ m s', s.rotation_options.head? = some m ∧ committing time s = some (m, true) ∧
      play tr time s = some s' := by
  obtain ⟨m, q, st, hq, hst, hm, hro, hfe, hpl, hlen, hoff, hfr, hb⟩ := running_head hR
  obtain ⟨hs, hfc, -⟩ := hR
  have hc : committing time s = some (m, true) := by
    simp only [committing, hfe, hfc, FRAME_NUM, hq, hst]
    rw [if_pos ⟨by norm_num, ht⟩]
  obtain ⟨hp, -⟩ := play_commit_eq tr hc
  obtain ⟨n0, n1, n2, n3, hrow, -⟩ := moveRow_turning hm
  obtain ⟨r, hr⟩ := commitLoop_isSome n0 n1 n2 n3 (s.faces.get (turnFace m)) 0 s.cubes s.faces
    hfr hb
  have hcb : commitBlocks s = some r := by
    simp only [commitBlocks, hro, Int.toNat_ofNat, Int.ofNat_nonneg, if_true, hrow]
    exact hr
  have hfin : ∃ s2, finish s = some s2 := by
    simp only [finish, hcb, hq, hst]
    exact ⟨_, rfl⟩
  obtain ⟨s2, hs2⟩ := hfin
  refine ⟨m, advance s2, by rw [hq]; rfl, hc, ?_⟩
  rw [hp, hfe, hs2]
  rfl

/-- C23. No mid-animation cancel.  The head move has been primed from the transforms `base`
(its started flag is true and the step index is 0).  Then every sequence of keys (or
gestures), solve keys and passes of `play`, of which at most 22 have `time > 1`, runs
without a commit and leaves the current move and the pose buffer as they are, and the step
index is the number of the passes with `time > 1` so far: keys, the solve key and passes
with `time <= 1` do not alter it.  After 22 passes with `time > 1`, the next pass with
`time > 1`, which is the 23rd, commits the move. -/
theorem no_mid_animation_cancel (tr : Trig) (s : State) (base : List Mat) (evs : List Event)
    (hs : Sync s) (hP : Primed tr s base) (h0 : s.frame_cnt = 0)
    (hev : ∀ e ∈ evs, e.isReset = false) (hn : longTicks evs ≤ 22) :
    ∃ s', run tr evs s = some s' ∧ commitLog tr evs s = [] ∧
      s'.rotation_option = s.rotation_option ∧ s'.frames = s.frames ∧
      s'.frame_cnt = (longTicks evs : Int) ∧
      s'.rotation_options.head? = s.rotation_options.head? ∧
      s'.rotation_started.head? = some true ∧
      (longTicks evs = 22 → ∀ time, 1 < time →
        ∃ m s'', s.rotation_options.head? = some m ∧ committing time s' = some (m, true) ∧
          play tr time s' = some s'') := by
  have hR : Running tr s base 0 := ⟨hs, by rw [h0]; rfl, hP⟩
  obtain ⟨s', h1, hR', a1, a2, a3, a4⟩ := running_run evs hR hev (by omega)
  rw [Nat.zero_add] at hR'
  obtain ⟨m, q, st, hq, hst, -⟩ := running_head hR'
  refine ⟨s', h1, a3, a2, a1, hR'.2.1, a4, by rw [hst]; rfl, ?_⟩
  intro h22 time ht
  rw [h22] at hR'
  obtain ⟨m, s'', c1, c2, c3⟩ := running_commit hR' ht
  exact ⟨m, s'', by rw [← a4]; exact c1, c2, c3⟩

/-! ## A pass of play with time > 1 before the last step -/

set_option maxRecDepth 100000 in
theorem stepOne_run : run sampleTrig stepOneEvents resetState = some stepOne :=
  some_getD_of_isSome _ (by decide)

/-- C26, counterexample.  From the reset state a front turn is enqueued and primed (one pass
of `play` with `time <= 1`), then one pass with `time > 1` runs at the step index 0.  After
it the step index is 1, but the cubie 26, the first cubie of the front set, still has the
identity as transform (entry 0 in row 0, column 1), while its precomputed pose of step 1,
`frames[1]`, has the entry 1 there. -/
theorem step_commit_counterexample :
    run sampleTrig stepOneEvents resetState = some stepOne ∧
    stepOne.frame_cnt = 1 ∧ stepOne.faces.front_faces.head? = some 26 ∧
    (stepOne.cubes[26]?).map (fun T => T 0 1) = some 0 ∧
    (stepOne.frames[1]?).map (fun T => T 0 1) = some 1 := by
  refine ⟨stepOne_run, ?_, ?_, ?_, ?_⟩
  · set_option maxRecDepth 100000 in decide
  · set_option maxRecDepth 100000 in decide
  · decide!
  · decide!

theorem primeLoop_getElem_idx {tr : Trig} {sign : ℚ} {ax : Axis} {cubes : List Mat}
    (L : List Nat) {fr : List Mat} (h : primeLoop tr sign ax cubes L = some fr) (i c : Nat)
    (hi : L[i]? = some c) : ∃ T, cubes[c]? = some T ∧
      fr[i * 24 + 23]? = some (angleAxis tr sign 23 ax * T) := by
  obtain ⟨T, hT, hf⟩ := (primeLoop_getElem L h).2 i c hi
  exact ⟨T, hT, hf 23 (by omega)⟩

/-- C26, amended.  A pass of `play` with `time > 1` at a step index `k` from 0 to 21 only
advances the step index by one: it writes no transform and changes nothing else.  Only the
pass at the step index 22 writes transforms: when the move was primed, it sets every cubie
of the turning face to its precomputed pose of step 23, and the step index then is -1 (the
queue is empty) or 1 (the next move is current). -/
theorem step_advance_only (tr : Trig) (time : ℚ) (s s' : State) (base : List Mat)
    (ht : 1 < time) (h0 : 0 ≤ (fetch s).frame_cnt) (h22 : (fetch s).frame_cnt ≤ 22)
    (h : play tr time s = some s') :
    ((fetch s).frame_cnt < 22 →
      s' = { fetch s with frame_cnt := (fetch s).frame_cnt + 1 } ∧ s'.cubes = s.cubes ∧
      s'.frames = s.frames ∧ s'.faces = s.faces) ∧
    ((fetch s).frame_cnt = 22 → Sync s → s.faces.Nodup → Primed tr s base →
      (∃ m, s.rotation_options.head? = some m ∧
        ∀ i c, (s.faces.get (turnFace m))[i]? = some c →
          s'.cubes[c]? = s.frames[i * 24 + 23]? ∧ (s.frames[i * 24 + 23]?).isSome) ∧
      (s'.frame_cnt = -1 ∨ s'.frame_cnt = 1)) := by
  constructor
  · intro hk
    have hne : (fetch s).frame_cnt ≠ -1 := by omega
    have hlt : (fetch s).frame_cnt < (FRAME_NUM : Int) - 1 := by simp only [FRAME_NUM]; omega
    have hn2 : ¬ (fetch s).frame_cnt = (FRAME_NUM : Int) - 2 := by simp only [FRAME_NUM]; omega
    simp only [play] at h
    rw [if_pos ⟨hne, hlt⟩, if_pos ht, if_neg hn2] at h
    simp only [Option.some.injEq] at h
    subst h
    obtain ⟨f1, f2, f3, f4, f5, f6⟩ := fetch_proj s
    refine ⟨?_, ?_, ?_, ?_⟩
    · simp only [advance, if_pos hne]
    · rw [(advance_proj _).2.2.2.2.1, f5]
    · rw [(advance_proj _).2.2.2.2.2.1, f6]
    · rw [(advance_proj _).1, f1]
  · intro hk hs hN hP
    have hc : ∃ m b, committing time s = some (m, b) := by
      obtain ⟨m, q, b, st, hq, hst, -, -⟩ := sync_head (sync_fetch hs) (by omega)
      obtain ⟨-, f2, f3, -⟩ := fetch_proj s
      rw [f2] at hq
      rw [f3] at hst
      exact ⟨m, b, by simp [committing, hk, FRAME_NUM, ht, hq, hst]⟩
    obtain ⟨m, b, hc⟩ := hc
    obtain ⟨hp, q, st, hq, hst⟩ := play_commit_eq tr hc
    obtain ⟨hro, -, hcb, -, -⟩ := play_commit_head hs hc h
    obtain ⟨f1, f2, f3, f4, f5, f6⟩ := fetch_proj s
    have hm : m < 12 := hs.2.1 m (by rw [hq]; exact List.mem_cons_self _ _)
    have hP' := hP
    obtain ⟨m1, q1, st1, y1, -, y3, y4, y5⟩ := hP
    rw [hq] at y1
    simp only [List.cons.injEq] at y1
    obtain ⟨rfl, -⟩ := y1
    obtain ⟨n0, n1, n2, n3, hrow, -⟩ := moveRow_turning hm
    simp only [commitBlocks, hro, Int.toNat_ofNat, Int.ofNat_nonneg, if_true, hrow] at hcb
    rw [f1, f5, f6] at hcb
    have hcubes : s'.cubes = turnPoses tr m s.faces base :=
      commitLoop_primed (hN _) (primed_bound y3) y3 y5 hcb
    constructor
    · refine ⟨m, by rw [hq]; rfl, ?_⟩
      intro i c hi
      obtain ⟨T, hT, hf⟩ := primeLoop_getElem_idx _ y3 i c hi
      rw [hcubes, turnPoses_getElem, hT, hf, Option.map_some',
        if_pos (List.getElem?_mem hi)]
      exact ⟨rfl, rfl⟩
    · rw [hp] at h
      cases hf : finish (fetch s) with
      | none => rw [hf] at h; exact absurd h (by simp)
      | some s2 =>
        rw [hf] at h
        simp only [Option.map_some', Option.some.injEq] at h
        subst h
        obtain ⟨_, _, _, _, -, -, -, -, -, -, -, hend⟩ := finish_spec hf
        rcases hend with ⟨-, -, e⟩ | ⟨m1, q1, -, -, e⟩
        · left
          simp [advance, e]
        · right
          simp [advance, e]
set_option maxRecDepth 100000 in
theorem frontPrimed_run : run sampleTrig frontPrimedEvents resetState = some frontPrimed :=
  some_getD_of_isSome _ (by decide)

set_option maxRecDepth 100000 in
theorem frontPrimed_regs :
    frontPrimed.frame_cnt = 0 ∧ frontPrimed.rotation_started.head? = some true ∧
      commitLog sampleTrig frontPrimedEvents resetState = [] ∧
      (fetch frontPrimed).frame_cnt = 0 := by
  decide

theorem frontPrimed_sync : Sync frontPrimed :=
  sync_run frontPrimedEvents sync_resetState frontPrimed_run

theorem frontPrimed_primedFrom : Primed sampleTrig frontPrimed (List.replicate 27 1) := by
  have h0 : PoseInv sampleTrig resetState (List.replicate 27 1) :=
    poseInv_reset sampleTrig startState
  have h := poseInv_run frontPrimedEvents h0 frontPrimed_run (by decide)
    (by rw [frontPrimed_regs.2.2.1]; simp)
  have hI := h.1
  have e : committed sampleTrig frontPrimedEvents resetState = [] := by
    rw [committed, frontPrimed_regs.2.2.1]
    rfl
  rw [e, turnBothAll_nil] at hI
  rcases hI.2.2.2.2 with ⟨x, -⟩ | hp
  · exact absurd frontPrimed_regs.2.1 x
  · exact hp

set_option maxRecDepth 100000 in
theorem inFlightEvents_plain :
    (∀ e ∈ inFlightEvents, e.isReset = false) ∧ longTicks inFlightEvents = 22 := by
  decide

/-- Witness for C23: the front turn primed from the reset state, then keys, the solve key,
passes of `play` with `time <= 1` and 22 passes with `time > 1`. -/
theorem no_mid_animation_cancel_witness :
    Sync frontPrimed ∧ Primed sampleTrig frontPrimed (List.replicate 27 1) ∧
    frontPrimed.frame_cnt = 0 ∧ (∀ e ∈ inFlightEvents, e.isReset = false) ∧
    longTicks inFlightEvents ≤ 22 ∧
    ∃ s', run sampleTrig inFlightEvents frontPrimed = some s' ∧
      commitLog sampleTrig inFlightEvents frontPrimed = [] ∧
      s'.rotation_option = frontPrimed.rotation_option ∧ s'.frames = frontPrimed.frames ∧
      s'.frame_cnt = (longTicks inFlightEvents : Int) ∧
      s'.rotation_options.head? = frontPrimed.rotation_options.head? ∧
      s'.rotation_started.head? = some true ∧
      (longTicks inFlightEvents = 22 → ∀ time, 1 < time →
        ∃ m s'', frontPrimed.rotation_options.head? = some m ∧
          committing time s' = some (m, true) ∧ play sampleTrig time s' = some s'') :=
  ⟨frontPrimed_sync, frontPrimed_primedFrom, frontPrimed_regs.1, inFlightEvents_plain.1,
    le_of_eq inFlightEvents_plain.2,
    no_mid_animation_cancel sampleTrig frontPrimed (List.replicate 27 1) inFlightEvents
      frontPrimed_sync frontPrimed_primedFrom frontPrimed_regs.1 inFlightEvents_plain.1
      (le_of_eq inFlightEvents_plain.2)⟩

/-! ## Priming -/

theorem frontPrimed_play : play sampleTrig 2 frontPrimed = some stepOne := by
  have h := stepOne_run
  have e : stepOneEvents = frontPrimedEvents ++ [.tick 2] := rfl
  rw [e, run_append, frontPrimed_run] at h
  simp only [Option.some_bind, run, step] at h
  cases hp : play sampleTrig 2 frontPrimed with
  | none => rw [hp] at h; exact absurd h (by simp)
  | some s => rw [hp] at h; simpa using h

set_option maxRecDepth 100000 in
theorem frontTurning_fetch : (fetch frontTurning).frame_cnt = 22 := by decide

/-- Witness for C26: the pass of `play` with `time > 1` at the step index 0 of a primed front
turn, and the pass at the step index 22 that commits it. -/
theorem step_advance_only_witness :
    ((1 : ℚ) < 2 ∧ 0 ≤ (fetch frontPrimed).frame_cnt ∧ (fetch frontPrimed).frame_cnt ≤ 22 ∧
      play sampleTrig 2 frontPrimed = some stepOne ∧
      (((fetch frontPrimed).frame_cnt < 22 →
        stepOne = { fetch frontPrimed with frame_cnt := (fetch frontPrimed).frame_cnt + 1 } ∧
        stepOne.cubes = frontPrimed.cubes ∧ stepOne.frames = frontPrimed.frames ∧
        stepOne.faces = frontPrimed.faces) ∧
      ((fetch frontPrimed).frame_cnt = 22 → Sync frontPrimed → frontPrimed.faces.Nodup →
        Primed sampleTrig frontPrimed (List.replicate 27 1) →
        (∃ m, frontPrimed.rotation_options.head? = some m ∧
          ∀ i c, (frontPrimed.faces.get (turnFace m))[i]? = some c →
            stepOne.cubes[c]? = frontPrimed.frames[i * 24 + 23]? ∧
            (frontPrimed.frames[i * 24 + 23]?).isSome) ∧
        (stepOne.frame_cnt = -1 ∨ stepOne.frame_cnt = 1)))) ∧
    ((1 : ℚ) < 2 ∧ 0 ≤ (fetch frontTurning).frame_cnt ∧ (fetch frontTurning).frame_cnt ≤ 22 ∧
      play sampleTrig 2 frontTurning = some frontTurned ∧
      (((fetch frontTurning).frame_cnt < 22 →
        frontTurned =
          { fetch frontTurning with frame_cnt := (fetch frontTurning).frame_cnt + 1 } ∧
        frontTurned.cubes = frontTurning.cubes ∧ frontTurned.frames = frontTurning.frames ∧
        frontTurned.faces = frontTurning.faces) ∧
      ((fetch frontTurning).frame_cnt = 22 → Sync frontTurning → frontTurning.faces.Nodup →
        Primed sampleTrig frontTurning (List.replicate 27 1) →
        (∃ m, frontTurning.rotation_options.head? = some m ∧
          ∀ i c, (frontTurning.faces.get (turnFace m))[i]? = some c →
            frontTurned.cubes[c]? = frontTurning.frames[i * 24 + 23]? ∧
            (frontTurning.frames[i * 24 + 23]?).isSome) ∧
        (frontTurned.frame_cnt = -1 ∨ frontTurned.frame_cnt = 1)))) :=
  ⟨⟨by norm_num, by rw [frontPrimed_regs.2.2.2], by rw [frontPrimed_regs.2.2.2]; decide,
      frontPrimed_play,
      step_advance_only sampleTrig 2 frontPrimed stepOne (List.replicate 27 1) (by norm_num)
        (by rw [frontPrimed_regs.2.2.2]) (by rw [frontPrimed_regs.2.2.2]; decide)
        frontPrimed_play⟩,
    ⟨by norm_num, by rw [frontTurning_fetch]; decide, by rw [frontTurning_fetch],
      frontTurning_play,
      step_advance_only sampleTrig 2 frontTurning frontTurned (List.replicate 27 1)
        (by norm_num) (by rw [frontTurning_fetch]; decide) (by rw [frontTurning_fetch])
        frontTurning_play⟩⟩
/-! ## Properties of the gesture table -/

theorem gesture_face {F : FaceSets} {sel : Int} {x y : ℚ} {v : Nat}
    (h : gesture F sel x y = some v) :
    v < 12 ∧ inSet (F.get (Face.ofIdx (v % 6))) sel ∧ faceCondition (Face.ofIdx (v % 6)) x y := by
  unfold gesture at h
  split at h
  · rename_i hc
    split at h <;> simp only [Option.some.injEq] at h <;> subst h <;>
      exact ⟨by omega, hc.1, hc.2⟩
  split at h
  · rename_i hc
    split at h <;> simp only [Option.some.injEq] at h <;> subst h <;>
      exact ⟨by omega, hc.1, hc.2⟩
  split at h
  · rename_i hc
    split at h <;> simp only [Option.some.injEq] at h <;> subst h <;>
      exact ⟨by omega, hc.1, hc.2⟩
  split at h
  · rename_i hc
    split at h <;> simp only [Option.some.injEq] at h <;> subst h <;>
      exact ⟨by omega, hc.1, hc.2⟩
  split at h
  · rename_i hc
    split at h <;> simp only [Option.some.injEq] at h <;> subst h <;>
      exact ⟨by omega, hc.1, hc.2⟩
  split at h
  · rename_i hc
    split at h <;> simp only [Option.some.injEq] at h <;> subst h <;>
      exact ⟨by omega, hc.1, hc.2⟩
  · exact absurd h (fun e => Option.noConfusion e)

/-- C29. Every move that a release of the mouse button pushes turns a face that holds the
selected cube.  For every state, pointer state and pointer position, a release either
leaves the cube globals as they are or pushes exactly one move code `v`; in the second case
`v < 12`, the selected cube is in the face set with the code `v % 6` (0 front, 1 back,
2 right, 3 left, 4 up, 5 down), which is the turning face of `v`, and the move queue has
grown by the one entry `v`. -/
theorem gesture_turns_own_face (meshes : List Mesh) (view_original_inv : Mat) (xc yc : ℚ)
    (s s' : State) (p p' : Pointer)
    (h : mouse_button_callback meshes view_original_inv .GLFW_RELEASE xc yc s p =
      some (s', p')) :
    s' = s ∨ ∃ v, s' = enqueue v s ∧ v < 12 ∧
      inSet (s.faces.get (Face.ofIdx (v % 6))) p.selected_obj ∧
      turnFace v = Face.ofIdx (v % 6) ∧
      s'.rotation_options = s.rotation_options ++ [v] := by
  rw [release_cases] at h
  split at h
  · simp only [Option.some.injEq, Prod.mk.injEq] at h
    exact Or.inl h.1.symm
  · split at h
    · rename_i v hv
      simp only [Option.some.injEq, Prod.mk.injEq] at h
      obtain ⟨h1, h2, -⟩ := gesture_face hv
      refine Or.inr ⟨v, h.1.symm, h1, h2, ?_, by rw [← h.1]; rfl⟩
      interval_cases v <;> rfl
    · simp only [Option.some.injEq, Prod.mk.injEq] at h
      exact Or.inl h.1.symm

theorem sample_release :
    mouse_button_callback resetMeshes 1 .GLFW_RELEASE (1 / 10) (-3 / 10) resetState
      (selectedPointer 26) = some (enqueue 0 resetState, selectedPointer 26) := by
  have hne : (selectedPointer 26).selected_obj ≠ -1 := by decide
  have hin : inSet resetState.faces.front_faces (selectedPointer 26).selected_obj := by decide
  have hg : gesture resetState.faces (selectedPointer 26).selected_obj (1 / 10) (-3 / 10) =
      some 0 := by
    unfold gesture
    rw [if_pos ⟨hin, by norm_num, sample_drag_vertical⟩, if_pos (by norm_num)]
  rw [release_cases, if_neg hne, selectedPointer_drag]
  simp only [hg]

/-- Witness for C29: the corner cube 26 of the reset state is dragged down and a little to
the right. -/
theorem gesture_turns_own_face_witness :
    mouse_button_callback resetMeshes 1 .GLFW_RELEASE (1 / 10) (-3 / 10) resetState
      (selectedPointer 26) = some (enqueue 0 resetState, selectedPointer 26) ∧
    (enqueue 0 resetState = resetState ∨ ∃ v, enqueue 0 resetState = enqueue v resetState ∧
      v < 12 ∧
      inSet (resetState.faces.get (Face.ofIdx (v % 6))) (selectedPointer 26).selected_obj ∧
      turnFace v = Face.ofIdx (v % 6) ∧
      (enqueue 0 resetState).rotation_options = resetState.rotation_options ++ [v]) :=
  ⟨sample_release,
    gesture_turns_own_face resetMeshes 1 (1 / 10) (-3 / 10) resetState (enqueue 0 resetState)
      (selectedPointer 26) (selectedPointer 26) sample_release⟩

/-! ## Reversing a drag -/

/-- C30, counterexample.  With the corner cube 26 of the solved layout selected, the vertical
drag `(0, 1/10)` classifies to the move 6, and so does the opposite drag `(0, -1/10)`,
while the inverse of the move 6 is the move 0. -/
theorem reverse_drag_counterexample :
    gesture solvedFaces 26 0 (1 / 10) = some 6 ∧
    gesture solvedFaces 26 (-0) (-(1 / 10)) = some 6 ∧ (6 + 6) % 12 ≠ 6 := by
  have hin : inSet solvedFaces.front_faces 26 := by decide
  refine ⟨?_, ?_, by decide⟩
  · unfold gesture
    rw [if_pos ⟨hin, by norm_num, by norm_num⟩, if_neg (by norm_num)]
  · unfold gesture
    rw [if_pos ⟨hin, by norm_num, by norm_num⟩, if_neg (by norm_num)]

/-- C30, amended.  For every selected cube, face sets and drag `(x, y)` in the canonical
frame with `x` different from 0 that classifies to the move code `m`, the opposite drag
`(-x, -y)` classifies to the inverse move `(m + 6) % 12`. -/
theorem reverse_drag (F : FaceSets) (sel : Int) (x y : ℚ) (m : Nat) (hx : x ≠ 0)
    (h : gesture F sel x y = some m) : gesture F sel (-x) (-y) = some ((m + 6) % 12) := by
  unfold gesture at h ⊢
  simp only [neg_mul_neg, abs_neg, Left.neg_pos_iff]
  rcases lt_or_gt_of_ne hx with hneg | hpos
  · have h1 : ¬ 0 < x := not_lt.mpr (le_of_lt hneg)
    simp only [h1, if_false, hneg, if_true] at h ⊢
    by_cases c1 : inSet F.front_faces sel ∧ x * y ≤ 0 ∧ abs x < abs y
    · rw [if_pos c1] at h ⊢
      simp only [Option.some.injEq] at h
      subst h
      rfl
    rw [if_neg c1] at h ⊢
    by_cases c2 : inSet F.back_faces sel ∧ x * y ≤ 0 ∧ abs x < abs y
    · rw [if_pos c2] at h ⊢
      simp only [Option.some.injEq] at h
      subst h
      rfl
    rw [if_neg c2] at h ⊢
    by_cases c3 : inSet F.right_faces sel ∧ 0 < x * y ∧ abs x < abs y
    · rw [if_pos c3] at h ⊢
      simp only [Option.some.injEq] at h
      subst h
      rfl
    rw [if_neg c3] at h ⊢
    by_cases c4 : inSet F.left_faces sel ∧ 0 < x * y ∧ abs x < abs y
    · rw [if_pos c4] at h ⊢
      simp only [Option.some.injEq] at h
      subst h
      rfl
    rw [if_neg c4] at h ⊢
    by_cases c5 : inSet F.up_faces sel ∧ abs y < abs x
    · rw [if_pos c5] at h ⊢
      simp only [Option.some.injEq] at h
      subst h
      rfl
    rw [if_neg c5] at h ⊢
    by_cases c6 : inSet F.down_faces sel ∧ abs y < abs x
    · rw [if_pos c6] at h ⊢
      simp only [Option.some.injEq] at h
      subst h
      rfl
    rw [if_neg c6] at h
    exact absurd h (by simp)
  · have h1 : ¬ x < 0 := not_lt.mpr (le_of_lt hpos)
    simp only [h1, if_false, hpos, if_true] at h ⊢
    by_cases c1 : inSet F.front_faces sel ∧ x * y ≤ 0 ∧ abs x < abs y
    · rw [if_pos c1] at h ⊢
      simp only [Option.some.injEq] at h
      subst h
      rfl
    rw [if_neg c1] at h ⊢
    by_cases c2 : inSet F.back_faces sel ∧ x * y ≤ 0 ∧ abs x < abs y
    · rw [if_pos c2] at h ⊢
      simp only [Option.some.injEq] at h
      subst h
      rfl
    rw [if_neg c2] at h ⊢
    by_cases c3 : inSet F.right_faces sel ∧ 0 < x * y ∧ abs x < abs y
    · rw [if_pos c3] at h ⊢
      simp only [Option.some.injEq] at h
      subst h
      rfl
    rw [if_neg c3] at h ⊢
    by_cases c4 : inSet F.left_faces sel ∧ 0 < x * y ∧ abs x < abs y
    · rw [if_pos c4] at h ⊢
      simp only [Option.some.injEq] at h
      subst h
      rfl
    rw [if_neg c4] at h ⊢
    by_cases c5 : inSet F.up_faces sel ∧ abs y < abs x
    · rw [if_pos c5] at h ⊢
      simp only [Option.some.injEq] at h
      subst h
      rfl
    rw [if_neg c5] at h ⊢
    by_cases c6 : inSet F.down_faces sel ∧ abs y < abs x
    · rw [if_pos c6] at h ⊢
      simp only [Option.some.injEq] at h
      subst h
      rfl
    rw [if_neg c6] at h
    exact absurd h (by simp)

/-- Witness for C30: the corner cube 26 of the solved layout, dragged down and a little to the
right, and the opposite drag. -/
theorem reverse_drag_witness :
    (1 / 10 : ℚ) ≠ 0 ∧ gesture solvedFaces 26 (1 / 10) (-3 / 10) = some 0 ∧
    gesture solvedFaces 26 (-(1 / 10)) (-(-3 / 10)) = some ((0 + 6) % 12) :=
  have hin : inSet solvedFaces.front_faces 26 := by decide
  have hg : gesture solvedFaces 26 (1 / 10) (-3 / 10) = some 0 := by
    unfold gesture
    rw [if_pos ⟨hin, by norm_num, sample_drag_vertical⟩, if_pos (by norm_num)]
  ⟨by norm_num, hg, reverse_drag solvedFaces 26 (1 / 10) (-3 / 10) 0 (by norm_num) hg⟩
/-! ## The relabelling as a simultaneous update -/

theorem specSource_eq {m : Nat} (hm : m < 12) (g : Face) : specSource m g = srcFace m g := by
  interval_cases m <;> cases g <;> rfl

theorem simultaneous_get (m : Nat) (F : FaceSets) (g : Face) :
    (simultaneous m F).get g = simultaneousSet m F g := by
  cases g <;> rfl

theorem mem_simultaneous (m : Nat) (F : FaceSets) (g : Face) (c : Nat) :
    c ∈ (simultaneous m F).get g ↔
      if c ∈ F.get (turnFace m) then c ∈ F.get (specSource m g) else c ∈ F.get g := by
  rw [simultaneous_get, simultaneousSet, List.mem_append, List.mem_filter, List.mem_filter]
  by_cases hc : c ∈ F.get (turnFace m) <;> simp [hc]

theorem mem_turnSetsIn {m : Nat} (hm : m < 12) {F : FaceSets} (hF : F.Nodup) {L : List Nat}
    (hL : L.Nodup) (g : Face) (c : Nat) :
    c ∈ (turnSetsIn m L F).get g ↔ if c ∈ L then c ∈ F.get (srcFace m g) else c ∈ F.get g := by
  obtain ⟨n0, n1, n2, n3, hrow, d01, d02, d03, d12, d13, d23, -⟩ := moveRow_turning hm
  simp only [turnSetsIn, srcFace, hrow]
  exact mem_foldl_relabel d01 d02 d03 d12 d13 d23 L hL hF g c

theorem turnSetsIn_self (m : Nat) (F : FaceSets) :
    turnSetsIn m (F.get (turnFace m)) F = turnSets m F := by
  unfold turnSetsIn turnSets
  cases hrow : moveRow m with
  | none => rfl
  | some row =>
    obtain ⟨t, n0, n1, n2, n3⟩ := row
    have hm : m < 12 := by
      by_contra hcon
      have : moveRow m = none := by
        unfold moveRow
        split <;> first | rfl | omega
      rw [this] at hrow
      exact absurd hrow (by simp)
    obtain ⟨a0, a1, a2, a3, e, -⟩ := moveRow_turning hm
    rw [hrow] at e
    simp only [Option.some.injEq, Prod.mk.injEq] at e
    obtain ⟨rfl, -⟩ := e
    rfl

/-- C28. The commit block updates the live face sets cubie by cubie, with a temporary per
cubie.  Its result holds exactly the members of the simultaneous update, in which every new
membership is computed from the memberships before the commit, and it is the same for every
order in which the cubies of the turning face are visited.  (The face sets are duplicate
free, as `std::unordered_set` is.) -/
theorem in_place_is_simultaneous (s : State) (m : Nat) (cubes : List Mat) (F : FaceSets)
    (hm : m < 12) (hr : s.rotation_option = (m : Int)) (hN : s.faces.Nodup)
    (h : commitBlocks s = some (cubes, F)) :
    (∀ g c, c ∈ F.get g ↔ c ∈ (simultaneous m s.faces).get g) ∧
    (∀ g c, c ∈ F.get g ↔
      if c ∈ s.faces.get (turnFace m) then c ∈ s.faces.get (specSource m g)
      else c ∈ s.faces.get g) ∧
    F.Nodup ∧
    (∀ L : List Nat, L.Perm (s.faces.get (turnFace m)) →
      ∀ g c, c ∈ (turnSetsIn m L s.faces).get g ↔ c ∈ F.get g) ∧
    turnSetsIn m (s.faces.get (turnFace m)) s.faces = F := by
  have e : F = turnSets m s.faces := commitBlocks_faces hr h
  have key : ∀ g c, c ∈ F.get g ↔
      if c ∈ s.faces.get (turnFace m) then c ∈ s.faces.get (specSource m g)
      else c ∈ s.faces.get g := by
    intro g c
    rw [e, mem_turnSets hm hN, specSource_eq hm]
  refine ⟨?_, key, ?_, ?_, ?_⟩
  · intro g c
    rw [key, mem_simultaneous]
  · rw [e]
    exact turnSets_nodup m hN
  · intro L hL g c
    rw [key, mem_turnSetsIn hm hN (hL.nodup_iff.mpr (hN _)), specSource_eq hm]
    by_cases hc : c ∈ L
    · rw [if_pos hc, if_pos (hL.mem_iff.mp hc)]
    · rw [if_neg hc, if_neg (fun h' => hc (hL.mem_iff.mpr h'))]
  · rw [e, turnSetsIn_self]

/-- Witness for C28: the commit of a front turn from the reset state. -/
theorem in_place_is_simultaneous_witness :
    0 < 12 ∧ (fetch frontTurning).rotation_option = ((0 : Nat) : Int) ∧
    (fetch frontTurning).faces.Nodup ∧
    commitBlocks (fetch frontTurning) = some (frontTurned.cubes, frontTurned.faces) ∧
    ((∀ g c, c ∈ frontTurned.faces.get g ↔
      c ∈ (simultaneous 0 (fetch frontTurning).faces).get g) ∧
    (∀ g c, c ∈ frontTurned.faces.get g ↔
      if c ∈ (fetch frontTurning).faces.get (turnFace 0) then
        c ∈ (fetch frontTurning).faces.get (specSource 0 g)
      else c ∈ (fetch frontTurning).faces.get g) ∧
    frontTurned.faces.Nodup ∧
    (∀ L : List Nat, L.Perm ((fetch frontTurning).faces.get (turnFace 0)) →
      ∀ g c, c ∈ (turnSetsIn 0 L (fetch frontTurning).faces).get g ↔
        c ∈ frontTurned.faces.get g) ∧
    turnSetsIn 0 ((fetch frontTurning).faces.get (turnFace 0)) (fetch frontTurning).faces =
      frontTurned.faces) :=
  ⟨by decide, frontTurning_commit.1, frontTurning_nodup, frontTurning_commit.2,
    in_place_is_simultaneous (fetch frontTurning) 0 frontTurned.cubes frontTurned.faces
      (by decide) frontTurning_commit.1 frontTurning_nodup frontTurning_commit.2⟩

/-! ## The history after the solving moves -/

theorem history_lt_step {tr : Trig} {e : Event} {s s' : State} (hs : Sync s)
    (hh : ∀ x ∈ s.rotation_reversed, x < 12) (h : step tr e s = some s') :
    ∀ x ∈ s'.rotation_reversed, x < 12 := by
  cases e with
  | reset =>
    simp only [step, Option.some.injEq] at h
    subst h
    simp [reset_cubes]
  | key m =>
    simp only [step, Option.some.injEq] at h
    subst h
    exact hh
  | solve =>
    simp only [step, Option.some.injEq] at h
    subst h
    simp [key_callback_SPACE, solveLoop_eq]
  | tick time =>
    rcases play_sched hs h with ⟨-, -, -, e3⟩ | ⟨m, q, b, st, hq, -, -, -, -, -, e3⟩
    · rw [e3]; exact hh
    · rw [e3]
      exact pushOrCancel_lt (hs.2.1 m (by rw [hq]; exact List.mem_cons_self _ _)) hh

theorem history_lt_run {tr : Trig} (evs : List Event) {s s' : State} (hs : Sync s)
    (hh : ∀ x ∈ s.rotation_reversed, x < 12) (h : run tr evs s = some s') :
    ∀ x ∈ s'.rotation_reversed, x < 12 := by
  induction evs generalizing s with
  | nil =>
    simp only [run, Option.some.injEq] at h
    subst h
    exact hh
  | cons e evs ih =>
    obtain ⟨s1, h1, h2⟩ := run_cons h
    exact ih (sync_step hs h1) (history_lt_step hs hh h1) h2

/-- On a word that continues the history without an adjacent pair of inverse moves, the
history update of `play` pushes every move. -/
theorem pushAll_reduced (w : List Nat) (acc : List Nat) (h : Reduced (acc.reverse ++ w)) :
    pushAll w acc = w.reverse ++ acc := by
  induction w generalizing acc with
  | nil => rfl
  | cons m w ih =>
    have hstep : pushOrCancel m acc = m :: acc := by
      cases acc with
      | nil => rfl
      | cons t rest =>
        simp only [pushOrCancel]
        have hc : m ≠ (t + 6) % 12 := by
          unfold Reduced at h
          rw [List.reverse_cons, List.append_assoc, List.singleton_append] at h
          exact (List.chain'_cons.mp (List.Chain'.right_of_append h)).1
        rw [if_neg (fun e => hc e.symm)]
    have h' : Reduced ((m :: acc).reverse ++ w) := by
      rw [List.reverse_cons, List.append_assoc, List.singleton_append]
      exact h
    show pushAll w (pushOrCancel m acc) = _
    rw [hstep, ih _ h']
    simp

/-- The inverses of a reduced history, read from the top of the stack to its bottom, form a
word without an adjacent pair of inverse moves. -/
theorem reduced_map_inverse (hist : List Nat) (hh : ∀ x ∈ hist, x < 12)
    (hr : Reduced hist.reverse) : Reduced (hist.map fun t => (t + 6) % 12) := by
  unfold Reduced at hr ⊢
  rw [List.chain'_reverse] at hr
  induction hist with
  | nil => exact List.chain'_nil
  | cons x rest ih =>
    cases rest with
    | nil => exact List.chain'_singleton _
    | cons y rest =>
      have hx := hh x (List.mem_cons_self _ _)
      have hy := hh y (List.mem_cons_of_mem _ (List.mem_cons_self _ _))
      obtain ⟨hxy, htl⟩ := List.chain'_cons.mp hr
      simp only [List.map_cons]
      refine List.chain'_cons.mpr ⟨?_, ?_⟩
      · simp only [flip] at hxy
        omega
      · exact ih (fun z hz => hh z (List.mem_cons_of_mem _ hz)) htl

theorem map_inverse_inverse (l : List Nat) (hl : ∀ x ∈ l, x < 12) :
    (l.map fun t => (t + 6) % 12).map (fun t => (t + 6) % 12) = l := by
  rw [List.map_map]
  conv_rhs => rw [← List.map_id l]
  apply List.map_congr_left
  intro x hx
  have := hl x hx
  simp only [Function.comp, id]
  omega

/-- What a pass of `play` that ends with the step index -1 does to the current move: the
pass either leaves `rotation_option = -1`, or it changed neither the step index, nor the
current move, nor the history. -/
theorem play_regs {tr : Trig} {time : ℚ} {s s' : State} (hs : Sync s)
    (h : play tr time s = some s') (hf : s'.frame_cnt = -1) :
    s'.rotation_option = -1 ∨
      (s.frame_cnt = -1 ∧ s'.rotation_option = s.rotation_option ∧
        s'.rotation_reversed = s.rotation_reversed) := by
  rcases play_cases hs h with ⟨a, rfl⟩ | ⟨a, b, c, rfl⟩ | ⟨a, b, s2, hfin, rfl⟩ | ⟨a, b, c, hi⟩
  · unfold fetch at a hf ⊢
    split
    · rename_i h1
      rw [if_pos h1] at a
      split
      · rename_i m q hq
        rw [hq] at a
        exact absurd a (by simp)
      · rename_i hq
        exact Or.inl h1
    · rename_i h1
      rw [if_neg h1] at a
      exact Or.inr ⟨a, rfl, rfl⟩
  · exact absurd hf (by show ¬ (fetch s).frame_cnt + 1 = -1; omega)
  · obtain ⟨m, q, b', st, -, -, -, -, -, -, -, hend⟩ := finish_spec hfin
    rcases hend with ⟨-, e1, e2⟩ | ⟨m1, q1, -, -, e2⟩
    · left
      rw [(advance_proj s2).2.2.2.2.2.2]
      exact e1
    · exfalso
      unfold advance at hf
      rw [if_pos (by rw [e2]; decide)] at hf
      rw [e2] at hf
      have hf' : (0 : Int) + 1 = -1 := hf
      exact absurd hf' (by decide)
  · exfalso
    obtain ⟨m, q, b', st, hq, hst, hm, hro⟩ := sync_head (sync_fetch hs) (by omega)
    obtain ⟨s1, cubes, h1, -, rfl⟩ := interpolate_spec hm hro hi
    obtain ⟨-, -, -, -, -, hc⟩ := rotate_spec h1
    rcases hc with ⟨_, -, rfl⟩ | ⟨_, _, -, -, -, -, e0⟩
    · exact absurd hf (by show ¬ (fetch s).frame_cnt = -1; omega)
    · exact absurd hf (by show ¬ s1.frame_cnt = -1; rw [e0]; decide)

/-- While no step index is set, a current move other than -1 goes with an empty history:
this is the state after a reset during an animation. -/
theorem quiet_step {tr : Trig} {e : Event} {s s' : State} (hs : Sync s)
    (hQ : s.frame_cnt = -1 → s.rotation_reversed ≠ [] → s.rotation_option = -1)
    (h : step tr e s = some s') :
    s'.frame_cnt = -1 → s'.rotation_reversed ≠ [] → s'.rotation_option = -1 := by
  cases e with
  | reset =>
    simp only [step, Option.some.injEq] at h
    subst h
    intro _ hne
    exact absurd rfl hne
  | key m =>
    simp only [step, Option.some.injEq] at h
    subst h
    exact hQ
  | solve =>
    simp only [step, Option.some.injEq] at h
    subst h
    intro _ hne
    exact absurd (solve_spec s).2.2.1 hne
  | tick time =>
    intro hf hne
    rcases play_regs hs h hf with e1 | ⟨e1, e2, e3⟩
    · exact e1
    · rw [e2]
      exact hQ e1 (by rw [← e3]; exact hne)

theorem quiet_run {tr : Trig} (evs : List Event) {s s' : State} (hs : Sync s)
    (hQ : s.frame_cnt = -1 → s.rotation_reversed ≠ [] → s.rotation_option = -1)
    (h : run tr evs s = some s') :
    s'.frame_cnt = -1 → s'.rotation_reversed ≠ [] → s'.rotation_option = -1 := by
  induction evs generalizing s with
  | nil =>
    simp only [run, Option.some.injEq] at h
    subst h
    exact hQ
  | cons e evs ih =>
    obtain ⟨s1, h1, h2⟩ := run_cons h
    exact ih (sync_step hs h1) (quiet_step hs hQ h1) h2

theorem commitLoop_length {n0 n1 n2 n3 : Face} {frames : List Mat} (L : List Nat) (k : Nat)
    (cubes : List Mat) (F : FaceSets) {r : List Mat × FaceSets}
    (h : commitLoop n0 n1 n2 n3 frames L k cubes F = some r) : r.1.length = cubes.length := by
  induction L generalizing k cubes F with
  | nil =>
    simp only [commitLoop, Option.some.injEq] at h
    subst h
    rfl
  | cons x L ih =>
    simp only [commitLoop] at h
    split at h
    · split at h
      · simpa using ih _ _ _ h
      · exact absurd h (by simp)
    · exact absurd h (by simp)

theorem commitBlocks_length {s : State} {r : List Mat × FaceSets}
    (h : commitBlocks s = some r) : r.1.length = s.cubes.length := by
  unfold commitBlocks at h
  split at h
  · split at h
    · exact commitLoop_length _ _ _ _ h
    · simp only [Option.some.injEq] at h
      subst h
      rfl
  · simp only [Option.some.injEq] at h
    subst h
    rfl

theorem play_length {tr : Trig} {time : ℚ} {s s' : State} (hs : Sync s)
    (h : play tr time s = some s') : s'.cubes.length = s.cubes.length := by
  obtain ⟨-, -, -, -, f5, -⟩ := fetch_proj s
  rcases play_cases hs h with ⟨a, rfl⟩ | ⟨a, b, c, rfl⟩ | ⟨a, b, s2, hfin, rfl⟩ | ⟨a, b, c, hi⟩
  · rw [f5]
  · show (fetch s).cubes.length = _
    rw [f5]
  · obtain ⟨m, q, b', st, -, -, hcb, -⟩ := finish_spec hfin
    rw [(advance_proj s2).2.2.2.2.1]
    have := commitBlocks_length hcb
    simp only at this
    rw [this, f5]
  · obtain ⟨m, q, b', st, hq, hst, hm, hro⟩ := sync_head (sync_fetch hs) (by omega)
    obtain ⟨s1, cubes, h1, hbl, rfl⟩ := interpolate_spec hm hro hi
    obtain ⟨-, -, -, -, ec, -⟩ := rotate_spec h1
    show cubes.length = _
    rw [blendLoop_length _ _ _ hbl, ec, f5]

theorem length_run {tr : Trig} (evs : List Event) {s s' : State} (hs : Sync s)
    (hl : s.cubes.length = 27) (h : run tr evs s = some s') : s'.cubes.length = 27 := by
  induction evs generalizing s with
  | nil =>
    simp only [run, Option.some.injEq] at h
    subst h
    exact hl
  | cons e evs ih =>
    obtain ⟨s1, h1, h2⟩ := run_cons h
    refine ih (sync_step hs h1) ?_ h2
    cases e with
    | reset =>
      simp only [step, Option.some.injEq] at h1
      subst h1
      simp [reset_cubes]
    | key m =>
      simp only [step, Option.some.injEq] at h1
      subst h1
      exact hl
    | solve =>
      simp only [step, Option.some.injEq] at h1
      subst h1
      exact hl
    | tick time => rw [play_length hs h1, hl]

/-! ## Cubie types -/

theorem memberships_eq_count (F : FaceSets) (c : Nat) :
    memberships F c = (sig F c).count true := by
  unfold memberships sig
  rw [List.count_eq_countP, List.countP_map, List.countP_eq_length_filter]
  congr 1
  apply List.filter_congr
  intro f _
  simp

theorem typeOk_moveSig {m : Nat} (hm : m < 12) {n : Nat} {p : List Bool}
    (h : typeOk n p = true) : typeOk n (moveSig m p) = true := by
  have hlen : p.length = 6 := by
    simp only [typeOk, Bool.and_eq_true, beq_iff_eq] at h
    exact h.1.1.1.1
  match p, hlen with
  | [a, b, c, d, e, f], _ =>
    have hn : n = [a, b, c, d, e, f].count true := by
      simp only [typeOk, Bool.and_eq_true, beq_iff_eq] at h
      exact h.1.1.1.2.symm
    subst hn
    revert h
    interval_cases m <;> cases a <;> cases b <;> cases c <;> cases d <;> cases e <;>
      cases f <;> decide

theorem typeOk_spec {n : Nat} {F : FaceSets} {c : Nat} (h : typeOk n (sig F c) = true) :
    memberships F c = n ∧ ∀ f, ¬ (c ∈ F.get f ∧ c ∈ F.get (opposite f)) := by
  rw [memberships_eq_count]
  simp only [typeOk, Bool.and_eq_true, beq_iff_eq, Bool.not_eq_true', Bool.and_eq_false_imp]
    at h
  obtain ⟨⟨⟨⟨-, h0⟩, h1⟩, h2⟩, h3⟩ := h
  refine ⟨h0, ?_⟩
  have e := sig_getD F c
  have e0 := e .FR
  have e1 := e .BA
  have e2 := e .RI
  have e3 := e .LE
  have e4 := e .UP
  have e5 := e .DO
  simp only [Face.idx] at e0 e1 e2 e3 e4 e5
  rw [e0, e1] at h1
  rw [e2, e3] at h2
  rw [e4, e5] at h3
  simp only [decide_eq_true_eq, decide_eq_false_iff_not] at h1 h2 h3
  intro f
  cases f <;> simp only [opposite] <;> tauto

theorem typeInv_solved : TypeInv solvedFaces := by
  refine ⟨faceInv_solved.1, fun c => ?_⟩
  by_cases hc : c < 27
  · interval_cases c <;> decide
  · have hout : ∀ f, c ∉ solvedFaces.get f := fun f hf => hc (faceInv_solved.2.1 f c hf)
    have e : sig solvedFaces c = [false, false, false, false, false, false] := by
      simp [sig, Face.all, hout]
    have m0 : memberships solvedFaces c = 0 := by
      rw [memberships_eq_count, e]
      rfl
    rw [m0, e]
    rfl

theorem typeInv_turnSets {m : Nat} (hm : m < 12) {F : FaceSets} (h : TypeInv F) :
    TypeInv (turnSets m F) :=
  ⟨turnSets_nodup m h.1, fun c => by
    rw [sig_turnSets hm h.1]
    exact typeOk_moveSig hm (h.2 c)⟩

theorem typeInv_step {tr : Trig} {e : Event} {s s' : State} (hs : Sync s)
    (hF : TypeInv s.faces) (h : step tr e s = some s') : TypeInv s'.faces := by
  cases e with
  | reset =>
    simp only [step, Option.some.injEq] at h
    subst h
    exact typeInv_solved
  | key m =>
    simp only [step, Option.some.injEq] at h
    subst h
    exact hF
  | solve =>
    simp only [step, Option.some.injEq] at h
    subst h
    exact hF
  | tick time =>
    rcases play_sched hs h with ⟨-, e1, -⟩ | ⟨m, q, b, st, hq, -, -, e1, -⟩
    · rw [e1]; exact hF
    · rw [e1]
      exact typeInv_turnSets (hs.2.1 m (by rw [hq]; exact List.mem_cons_self _ _)) hF

theorem typeInv_run {tr : Trig} (evs : List Event) {s s' : State} (hs : Sync s)
    (hF : TypeInv s.faces) (h : run tr evs s = some s') : TypeInv s'.faces := by
  induction evs generalizing s with
  | nil =>
    simp only [run, Option.some.injEq] at h
    subst h
    exact hF
  | cons e evs ih =>
    obtain ⟨s1, h1, h2⟩ := run_cons h
    exact ih (sync_step hs h1) (typeInv_step hs hF h1) h2

/-- C31. Cubie type is preserved.  In every state reached from a reset by any sequence of
events (resets, enqueued moves, the solve key, passes of `play` with any clock values, hence
after any sequence of committed moves), every cubie is in as many face sets as in the layout
built by `reset_cubes`: cubie 13 in none, the six face centers 4, 10, 12, 14, 16, 22 in one,
the twelve edges in two and the eight corners in three; and no cubie is in two opposite face
sets (front and back, right and left, up and down) at once. -/
theorem cubie_type_preserved (tr : Trig) (s0 : State) (evs : List Event) (s : State)
    (h : run tr evs (reset_cubes s0) = some s) :
    (∀ c, memberships s.faces c = memberships (reset_cubes s0).faces c) ∧
    memberships s.faces 13 = 0 ∧
    (∀ c ∈ centerCubies, memberships s.faces c = 1) ∧
    (∀ c ∈ edgeCubies, memberships s.faces c = 2) ∧
    (∀ c ∈ cornerCubies, memberships s.faces c = 3) ∧
    (∀ c f, ¬ (c ∈ s.faces.get f ∧ c ∈ s.faces.get (opposite f))) ∧
    opposite .FR = .BA ∧ opposite .RI = .LE ∧ opposite .UP = .DO := by
  have hT : TypeInv s.faces := typeInv_run evs (sync_reset s0) typeInv_solved h
  have key : ∀ c, memberships s.faces c = memberships solvedFaces c :=
    fun c => (typeOk_spec (hT.2 c)).1
  refine ⟨key, ?_, ?_, ?_, ?_, fun c => (typeOk_spec (hT.2 c)).2, rfl, rfl, rfl⟩
  · rw [key]; decide
  · intro c hc
    rw [key]
    revert c
    decide
  · intro c hc
    rw [key]
    revert c
    decide
  · intro c hc
    rw [key]
    revert c
    decide

/-- Witness for C31: the state after one committed front turn. -/
theorem cubie_type_preserved_witness :
    run sampleTrig frontTurnEvents (reset_cubes startState) = some frontTurned ∧
    ((∀ c, memberships frontTurned.faces c = memberships (reset_cubes startState).faces c) ∧
    memberships frontTurned.faces 13 = 0 ∧
    (∀ c ∈ centerCubies, memberships frontTurned.faces c = 1) ∧
    (∀ c ∈ edgeCubies, memberships frontTurned.faces c = 2) ∧
    (∀ c ∈ cornerCubies, memberships frontTurned.faces c = 3) ∧
    (∀ c f, ¬ (c ∈ frontTurned.faces.get f ∧ c ∈ frontTurned.faces.get (opposite f))) ∧
    opposite .FR = .BA ∧ opposite .RI = .LE ∧ opposite .UP = .DO) :=
  ⟨frontTurned_run,
    cubie_type_preserved sampleTrig startState frontTurnEvents frontTurned frontTurned_run⟩

/-! ## An animated turn runs to its commit -/

theorem fetch_started {s : State} {m : Nat} {q : List Nat}
    (hC : s.frame_cnt = -1 → s.rotation_option = -1) (hq : s.rotation_options = m :: q) :
    (fetch s).frame_cnt ≠ -1 := by
  unfold fetch
  split
  · rw [hq]
    simp
  · rename_i h1
    exact fun h => h1 (hC h)

/-- The pass of `play` that primes the head move: in a state whose head move has not been
primed, a pass with `time <= 1` returns, with the head move primed and the step index 0. -/
theorem prime_pass {tr : Trig} {s : State} {base : List Mat} {m : Nat} {q : List Nat}
    (hI : PoseInv tr s base) (hS : Settled s base)
    (hC : s.frame_cnt = -1 → s.rotation_option = -1) (hq : s.rotation_options = m :: q)
    (time : ℚ) (ht : ¬ 1 < time) :
    ∃ s1, play tr time s = some s1 ∧ s1.frame_cnt = 0 ∧
      s1.rotation_started.head? = some true := by
  have hs := hI.1
  obtain ⟨f1, f2, f3, f4, f5, f6⟩ := fetch_proj s
  have hsf := sync_fetch hs
  have hne := fetch_started hC hq
  obtain ⟨m', q', b, st, hq', hst, hm, hro⟩ := sync_head hsf hne
  have hmm : m' = m := by
    rw [f2, hq] at hq'
    simp only [List.cons.injEq] at hq'
    exact hq'.1.symm
  subst hmm
  have hb0 : b = false := by
    have := hS.1
    rw [← f3, hst] at this
    cases b with
    | false => rfl
    | true => exact absurd rfl this
  subst hb0
  have hrange : 0 ≤ (fetch s).frame_cnt ∧ (fetch s).frame_cnt ≤ 22 := by
    rcases hsf.2.2 with h | ⟨a, b, -⟩
    · exact absurd h hne
    · exact ⟨a, b⟩
  have hb : ∀ c ∈ (fetch s).faces.get (turnFace m'), c < (fetch s).cubes.length := by
    intro c hc
    rw [f5, hS.2]
    rw [f1] at hc
    exact hI.2.2.1 _ c hc
  obtain ⟨fr, hfr⟩ := primeLoop_isSome tr (signOf m') (axisOf m')
    ((fetch s).faces.get (turnFace m')) hb
  obtain ⟨hlen, -⟩ := primeLoop_getElem _ hfr
  obtain ⟨s1, hs1⟩ : ∃ s1 : State, s1 =
      { fetch s with frames := fr, frame_cnt := 0, rotation_started := true :: st } :=
    ⟨_, rfl⟩
  have hrot : rotateOf tr m' (fetch s) = some s1 := by
    rw [rotateOf_eq tr hm, hs1]
    simp only [rotate, hst, hfr]
  have g1 : s1.frames = fr := by rw [hs1]
  have g2 : s1.frame_cnt = 0 := by rw [hs1]
  have g3 : s1.faces = (fetch s).faces := by rw [hs1]
  have g4 : s1.cubes = (fetch s).cubes := by rw [hs1]
  have g5 : s1.rotation_started = true :: st := by rw [hs1]
  have hbl' : ∃ r, blendLoop time fr 0 ((fetch s).faces.get (turnFace m')) 0 (fetch s).cubes
      = some r :=
    blendLoop_isSome time (le_refl _) (by decide) _ 0 _ (by rw [hlen]; omega) hb
  obtain ⟨cubes, hbl⟩ := hbl'
  refine ⟨{ s1 with cubes := cubes }, ?_, g2, by show s1.rotation_started.head? = _; rw [g5]; rfl⟩
  have hlt : (fetch s).frame_cnt < (FRAME_NUM : Int) - 1 := by
    simp only [FRAME_NUM]
    omega
  simp only [play]
  rw [if_pos ⟨hne, hlt⟩, if_neg ht]
  simp only [interpolate, hro, Int.toNat_ofNat, Int.ofNat_nonneg, if_true, turning_eq hm, hrot,
    g1, g2, g3, g4, hbl]

theorem longTicks_replicate (n : Nat) : longTicks (List.replicate n (.tick 2)) = n := by
  induction n with
  | zero => rfl
  | succ n ih =>
    simp only [List.replicate_succ, longTicks, longOf, ih]
    rw [if_pos (by norm_num)]
    omega

theorem isReset_replicate (n : Nat) (time : ℚ) :
    ∀ e ∈ List.replicate n (Event.tick time), e.isReset = false := by
  intro e he
  rw [(List.mem_replicate.mp he).2]
  rfl

theorem isSolve_replicate (n : Nat) (time : ℚ) :
    ∀ e ∈ List.replicate n (Event.tick time), e.isSolve = false := by
  intro e he
  rw [(List.mem_replicate.mp he).2]
  rfl

theorem keysOf_replicate (n : Nat) (time : ℚ) :
    keysOf (List.replicate n (Event.tick time)) = [] := by
  induction n with
  | zero => rfl
  | succ n ih => simpa [List.replicate_succ, keysOf] using ih

theorem commitLog_append (tr : Trig) (evs1 evs2 : List Event) {s s1 : State}
    (h : run tr evs1 s = some s1) :
    commitLog tr (evs1 ++ evs2) s = commitLog tr evs1 s ++ commitLog tr evs2 s1 := by
  induction evs1 generalizing s with
  | nil =>
    simp only [run, Option.some.injEq] at h
    subst h
    simp [commitLog]
  | cons e evs ih =>
    obtain ⟨s2, h2, h3⟩ := run_cons h
    rw [List.cons_append, commitLog_cons h2, commitLog_cons h2, ih h3, List.append_assoc]

theorem frontTurnTicks_split :
    frontTurnTicks.map Event.tick =
      .tick 0 :: (List.replicate 22 (.tick 2) ++ [.tick 2]) := rfl

/-- One animated turn: in a state whose head move `m` has not been primed, the pass of `play`
with `time <= 1` and the 23 passes with `time > 1` return, the last of them commits `m`, and
the state after it is again one whose head move (if any) has not been primed. -/
theorem turn_run {tr : Trig} {s : State} {base : List Mat} {m : Nat} {q : List Nat}
    (hI : PoseInv tr s base) (hS : Settled s base)
    (hC : s.frame_cnt = -1 → s.rotation_option = -1) (hq : s.rotation_options = m :: q) :
    ∃ s' base', run tr (frontTurnTicks.map .tick) s = some s' ∧ PoseInv tr s' base' ∧
      Settled s' base' ∧ (s'.frame_cnt = -1 → s'.rotation_option = -1) ∧
      s'.rotation_options = q ∧
      commitLog tr (frontTurnTicks.map .tick) s = [(m, true)] := by
  have hs := hI.1
  -- the priming pass
  obtain ⟨s1, hp1, hfc1, hhead1⟩ := prime_pass hI hS hC hq 0 (by norm_num)
  have hc1 : committing 0 s = none := by
    simp only [committing]
    rw [if_neg (fun h => absurd h.2 (by norm_num))]
  have hI1 : PoseInv tr s1 base := by
    have := (poseInv_play hI hp1 (by rw [hc1]; simp)).1
    rw [hc1] at this
    exact this
  have hs1 := hI1.1
  have hq1 : s1.rotation_options = m :: q := by
    rcases play_sched hs hp1 with ⟨-, -, e2, -⟩ | ⟨_, _, _, _, -, -, c, -⟩
    · rw [e2, hq]
    · rw [hc1] at c
      exact absurd c (by simp)
  have hP1 : Primed tr s1 base := by
    rcases hI1.2.2.2.2 with ⟨x, -⟩ | y
    · exact absurd hhead1 x
    · exact y
  have hR1 : Running tr s1 base 0 := ⟨hs1, by rw [hfc1]; rfl, hP1⟩
  -- the 22 passes that advance the step index
  obtain ⟨s2, hp2, hR2, -, -, hlog2, -⟩ := running_run (List.replicate 22 (.tick 2)) hR1
    (isReset_replicate 22 2) (by rw [longTicks_replicate])
  rw [longTicks_replicate] at hR2
  have hcm2 : committed tr (List.replicate 22 (.tick 2)) s1 = [] := by
    simp only [committed, hlog2, List.map_nil]
  have hI2 : PoseInv tr s2 base := by
    have := (poseInv_run _ hI1 hp2 (isReset_replicate 22 2) (by rw [hlog2]; simp)).1
    rw [hcm2] at this
    exact this
  have hs2 := hI2.1
  have hq2 : s2.rotation_options = m :: q := by
    have := run_queue _ hs1 hp2 (isReset_replicate 22 2) (isSolve_replicate 22 2)
    rw [keysOf_replicate, hcm2, List.append_nil, List.nil_append, hq1] at this
    exact this.symm
  -- the committing pass
  obtain ⟨m2, s3, hhead2, hc3, hp3⟩ := running_commit hR2 (by norm_num : (1 : ℚ) < 2)
  have hm2 : m2 = m := by
    rw [hq2] at hhead2
    simp only [List.head?_cons, Option.some.injEq] at hhead2
    exact hhead2.symm
  subst hm2
  obtain ⟨base3, hI3⟩ : ∃ base3, PoseInv tr s3 base3 :=
    ⟨_, (poseInv_play hI2 hp3 (by rw [hc3]; simp)).1⟩
  rcases play_sched hs2 hp3 with ⟨c, -⟩ | ⟨m3, q3, b3, st3, e1, e2, -, -, e5, e6, -⟩
  · rw [hc3] at c
    exact absurd c (by simp)
  · have hq3 : s3.rotation_options = q := by
      rw [hq2] at e1
      simp only [List.cons.injEq] at e1
      rw [e5, ← e1.2]
    have hS3 : Settled s3 base3 := by
      rcases hI3.2.2.2.2 with x | ⟨_, _, st', -, y, -⟩
      · exact x
      · exfalso
        have htail := hI2.2.2.2.1
        rw [e2, List.tail_cons, ← e6, y] at htail
        exact absurd (htail true (List.mem_cons_self _ _)) (by decide)
    have hC3 : s3.frame_cnt = -1 → s3.rotation_option = -1 := by
      intro hf
      rcases play_regs hs2 hp3 hf with x | ⟨y, -⟩
      · exact x
      · rw [hR2.2.1] at y
        exact absurd y (by decide)
    refine ⟨s3, base3, ?_, hI3, hS3, hC3, hq3, ?_⟩
    · rw [frontTurnTicks_split]
      have hstep1 : step tr (.tick 0) s = some s1 := hp1
      have hstep3 : step tr (.tick 2) s2 = some s3 := hp3
      show (step tr (.tick 0) s).bind (run tr (List.replicate 22 (.tick 2) ++ [.tick 2])) = _
      rw [hstep1, Option.some_bind, run_append, hp2, Option.some_bind]
      show (step tr (.tick 2) s2).bind (run tr []) = _
      rw [hstep3]
      rfl
    · rw [frontTurnTicks_split]
      have hstep1 : step tr (.tick 0) s = some s1 := hp1
      rw [commitLog_cons hstep1]
      have e := commitLog_append tr (List.replicate 22 (.tick 2)) [.tick 2] hp2
      rw [e, hlog2]
      have hstep3 : step tr (.tick 2) s2 = some s3 := hp3
      rw [commitLog_cons hstep3]
      simp [logOf, hc1, hc3, commitLog]

/-- Every queue drains: from a state whose head move has not been primed, the passes of
`play` of as many animated turns as there are queued moves return and empty the queue. -/
theorem drain_run {tr : Trig} (w : List Nat) {s : State} {base : List Mat}
    (hI : PoseInv tr s base) (hS : Settled s base)
    (hC : s.frame_cnt = -1 → s.rotation_option = -1) (hq : s.rotation_options = w) :
    ∃ s', run tr ((drainTicks w.length).map .tick) s = some s' ∧ s'.rotation_options = [] := by
  induction w generalizing s base with
  | nil => exact ⟨s, rfl, hq⟩
  | cons m q ih =>
    obtain ⟨s1, base1, h1, hI1, hS1, hC1, hq1, -⟩ := turn_run hI hS hC hq
    obtain ⟨s', h2, hq2⟩ := ih hI1 hS1 hC1 hq1
    refine ⟨s', ?_, hq2⟩
    simp only [List.length_cons, drainTicks, List.map_append]
    rw [run_append, h1]
    exact h2

/-- In a state reached from a reset in which the queue is empty and the history is not, the
scheduler is idle and the pose invariant holds for the transforms of the state. -/
theorem idle_of_drained (tr : Trig) {s0 : State} {evs : List Event} {s : State}
    (h : run tr evs (reset_cubes s0) = some s) (hq : s.rotation_options = [])
    (hne : s.rotation_reversed ≠ []) : Idle s ∧ PoseInv tr s s.cubes := by
  have hs : Sync s := sync_run evs (sync_reset s0) h
  have hF : FaceInv s.faces := faceInv_run evs (sync_reset s0) faceInv_solved h
  have hlen : s.cubes.length = 27 :=
    length_run evs (sync_reset s0) (by simp [reset_cubes]) h
  have hfc : s.frame_cnt = -1 := by
    by_contra hf
    obtain ⟨m, q, -, -, hq', -⟩ := sync_head hs hf
    rw [hq] at hq'
    exact absurd hq' (by simp)
  have hro : s.rotation_option = -1 :=
    quiet_run evs (sync_reset s0) (fun _ hx => absurd rfl hx) h hfc hne
  have hidle : Idle s := ⟨hq, started_nil_of_queue_nil hs hq, hro, hfc⟩
  exact ⟨hidle, poseInv_of_idle tr hidle
    (fun f => ⟨hF.1 f, faceInv_length hF f, hF.2.1 f⟩) hlen⟩

/-- C32. History after a solve run.  In a state reached from a reset in which the queue is
empty and the history is `[h_1, ..., h_k]` (bottom to top, `k > 0`), the solve key is
pressed.  Then the passes of `play` of `k` animated turns return and commit the `k` solving
moves.  Whenever passes of `play` after the solve key have emptied the queue again, the
moves committed by them are `(h_k + 6) % 12, ..., (h_1 + 6) % 12` in this order, and the
history is not empty: read from bottom to top it is this list of the solving moves, so that
a second press of the solve key enqueues `h_1, ..., h_k`. -/
theorem history_after_solve_run (tr : Trig) (s0 : State) (evs : List Event) (s : State)
    (h : run tr evs (reset_cubes s0) = some s) (hq : s.rotation_options = [])
    (hne : s.rotation_reversed ≠ []) :
    (∃ s', run tr (.solve :: (drainTicks s.rotation_reversed.length).map .tick) s = some s' ∧
      s'.rotation_options = []) ∧
    ∀ (ts : List ℚ) (s' : State), run tr (.solve :: ts.map .tick) s = some s' →
      s'.rotation_options = [] →
      committed tr (.solve :: ts.map .tick) s =
        s.rotation_reversed.map (fun t => (t + 6) % 12) ∧
      s'.rotation_reversed ≠ [] ∧
      s'.rotation_reversed.reverse = s.rotation_reversed.map (fun t => (t + 6) % 12) ∧
      (key_callback_SPACE s').rotation_options = s.rotation_reversed.reverse := by
  have hs : Sync s := sync_run evs (sync_reset s0) h
  have hs2 : Sync (key_callback_SPACE s) := sync_solve hs
  obtain ⟨k1, k2, k3, k4⟩ := solve_spec s
  rw [hq, List.nil_append] at k2
  have hlt : ∀ x ∈ s.rotation_reversed, x < 12 :=
    history_lt_run evs (sync_reset s0) (by simp [reset_cubes]) h
  have hred : Reduced s.rotation_reversed.reverse :=
    reduced_run evs (sync_reset s0) List.chain'_nil h
  constructor
  · obtain ⟨hidle, hI⟩ := idle_of_drained tr h hq hne
    have hstep : step tr .solve s = some (key_callback_SPACE s) := rfl
    have hI2 : PoseInv tr (key_callback_SPACE s) s.cubes :=
      (poseInv_step hI hstep rfl (by simp [logOf])).1
    have hst : (key_callback_SPACE s).rotation_started =
        List.replicate s.rotation_reversed.length false := by
      simp [key_callback_SPACE, solveLoop_eq, hidle.2.1]
    have hS2 : Settled (key_callback_SPACE s) s.cubes := by
      refine ⟨?_, k4⟩
      rw [hst]
      cases s.rotation_reversed with
      | nil => simp
      | cons t rest => simp [List.replicate_succ]
    have hC2 : (key_callback_SPACE s).frame_cnt = -1 →
        (key_callback_SPACE s).rotation_option = -1 := fun _ => hidle.2.2.1
    obtain ⟨s', h', hq'⟩ := drain_run _ hI2 hS2 hC2 k2
    rw [List.length_map] at h'
    exact ⟨s', by rw [run_solve]; exact h', hq'⟩
  · intro ts s' h' hq'
    rw [run_solve] at h'
    have hQ := run_queue _ hs2 h' (isReset_ticks ts) (isSolve_ticks ts)
    rw [keysOf_ticks, List.append_nil, k2, hq', List.append_nil] at hQ
    have hH := run_history _ hs2 h' (isReset_ticks ts) (isSolve_ticks ts)
    rw [← hQ, k3] at hH
    have hredw : Reduced (([] : List Nat).reverse ++
        s.rotation_reversed.map (fun t => (t + 6) % 12)) := by
      rw [List.reverse_nil, List.nil_append]
      exact reduced_map_inverse _ hlt hred
    rw [pushAll_reduced _ _ hredw, List.append_nil] at hH
    have hcm : committed tr (.solve :: ts.map .tick) s =
        s.rotation_reversed.map (fun t => (t + 6) % 12) := by
      have hstep : step tr .solve s = some (key_callback_SPACE s) := rfl
      rw [committed_cons hstep, ← hQ]
      rfl
    refine ⟨hcm, ?_, by rw [hH, List.reverse_reverse], ?_⟩
    · rw [hH]
      intro e
      have := congrArg List.length e
      simp only [List.length_reverse, List.length_map, List.length_nil] at this
      exact hne (List.eq_nil_of_length_eq_zero this)
    · rw [(solve_spec s').2.1, hq', List.nil_append, hH, ← List.map_reverse,
        map_inverse_inverse _ (fun x hx => hlt x (List.mem_reverse.mp hx))]

set_option maxRecDepth 100000 in
theorem twoTurns_run :
    run sampleTrig twoTurnsEvents (reset_cubes startState) = some twoTurns :=
  some_getD_of_isSome _ (by decide)

set_option maxRecDepth 100000 in
theorem twoTurns_regs :
    twoTurns.rotation_options = [] ∧ twoTurns.rotation_reversed = [3, 0] := by
  decide

/-- Witness for C32: the state after a front turn and a left turn. -/
theorem history_after_solve_run_witness :
    run sampleTrig twoTurnsEvents (reset_cubes startState) = some twoTurns ∧
    twoTurns.rotation_options = [] ∧ twoTurns.rotation_reversed ≠ [] ∧
    ((∃ s', run sampleTrig
        (.solve :: (drainTicks twoTurns.rotation_reversed.length).map .tick) twoTurns = some s' ∧
      s'.rotation_options = []) ∧
    ∀ (ts : List ℚ) (s' : State), run sampleTrig (.solve :: ts.map .tick) twoTurns = some s' →
      s'.rotation_options = [] →
      committed sampleTrig (.solve :: ts.map .tick) twoTurns =
        twoTurns.rotation_reversed.map (fun t => (t + 6) % 12) ∧
      s'.rotation_reversed ≠ [] ∧
      s'.rotation_reversed.reverse = twoTurns.rotation_reversed.map (fun t => (t + 6) % 12) ∧
      (key_callback_SPACE s').rotation_options = twoTurns.rotation_reversed.reverse) :=
  have hne : twoTurns.rotation_reversed ≠ [] := by
    rw [twoTurns_regs.2]
    exact List.cons_ne_nil _ _
  ⟨twoTurns_run, twoTurns_regs.1, hne,
    history_after_solve_run sampleTrig startState twoTurnsEvents twoTurns twoTurns_run
      twoTurns_regs.1 hne⟩

/-! ## Solve while a move is pending -/

set_option maxRecDepth 100000 in
theorem solveEarly_run : run sampleTrig solveEarlyEvents resetState = some solveEarly :=
  some_getD_of_isSome _ (by decide)

set_option maxRecDepth 100000 in
/-- C33. Solve undoes committed moves only.  In the run "reset, front turn enqueued, solve
key, passes of `play` until the queue is empty" the solve key is pressed while the front
turn is queued and not yet committed (nothing has been committed before it and the history
is empty, so the solve key enqueues nothing).  The front turn is the only move committed;
when the queue has drained, the face sets are not those of the solved state (cubie 26 has
left the up set) and the history holds the move 0. -/
theorem solve_undoes_committed_only :
    solveEarlyEvents = .key 0 :: .solve :: frontTurnTicks.map .tick ∧
    commitLog sampleTrig [.key 0] resetState = [] ∧
    (enqueue 0 resetState).rotation_options = [0] ∧
    key_callback_SPACE (enqueue 0 resetState) = enqueue 0 resetState ∧
    run sampleTrig solveEarlyEvents resetState = some solveEarly ∧
    committed sampleTrig solveEarlyEvents resetState = [0] ∧
    solveEarly.rotation_options = [] ∧
    solveEarly.faces ≠ solvedFaces ∧
    ¬ (∀ f c, c ∈ solveEarly.faces.get f ↔ c ∈ solvedFaces.get f) ∧
    solveEarly.rotation_reversed = [0] ∧ solveEarly.rotation_reversed ≠ [] := by
  refine ⟨rfl, rfl, rfl, rfl, solveEarly_run, by decide, by decide, by decide, ?_, by decide,
    by decide⟩
  intro h
  exact absurd ((h .UP 26).mpr (by decide)) (by decide)

/-! ## A turning face set without nine members -/

set_option maxRecDepth 100000 in
theorem shortDone_run :
    run sampleTrig (frontTurnTicks.map .tick) shortFront = some shortDone :=
  some_getD_of_isSome _ (by decide)

set_option maxRecDepth 100000 in
/-- C34, counterexample.  In the state `shortFront` the front set has eight members.  The
function `rotate_front` primes the front turn all the same (it returns, with 8 * 24 poses
in the buffer), and the passes of `play` of one animated turn commit it, with the started
flag set: the run returns a state in which the eight cubies have been turned (cubie 26 has
the entry 1 in row 0, column 1 of its transform, has left the up set and has entered the
down set) and the front set still has eight members. -/
theorem turn_on_short_face_counterexample :
    (shortFront.faces.get (turnFace 0)).length = 8 ∧
    (rotate_front sampleTrig shortFront).isSome = true ∧
    ((rotate_front sampleTrig shortFront).map fun s => s.frames.length) = some (8 * 24) ∧
    run sampleTrig (frontTurnTicks.map .tick) shortFront = some shortDone ∧
    commitLog sampleTrig (frontTurnTicks.map .tick) shortFront = [(0, true)] ∧
    shortDone.faces.front_faces.length = 8 ∧
    26 ∉ shortDone.faces.up_faces ∧ 26 ∈ shortDone.faces.down_faces ∧
    (shortFront.cubes[26]?).map (fun T => T 0 1) = some 0 ∧
    (shortDone.cubes[26]?).map (fun T => T 0 1) = some 1 := by
  refine ⟨by decide, by decide, by decide, shortDone_run, by decide, by decide, by decide,
    by decide, ?_, ?_⟩
  · decide!
  · decide!

/-- C34, amended.  Priming and committing a move do not test the number of members of the
turning face set.  For a turning face set with any number `n` of members, all of them cubes
of the scene, the `rotate_*` function of the move primes it (the pose buffer gets `24 * n`
poses), and the commit is carried out on these `n` members: every one of them gets the last
pose of its block of the buffer as transform (for pairwise distinct members), and the face
sets are relabelled.  In every state reached from a reset every face set has exactly 9
members, so that a turning face set of another size does not occur. -/
theorem turn_has_no_member_check (tr : Trig) (m : Nat) (s : State) (front : Nat)
    (q : List Nat) (st : List Bool) (hm : m < 12)
    (hb : ∀ c ∈ s.faces.get (turnFace m), c < s.cubes.length)
    (hq : s.rotation_options = front :: q) (hst : s.rotation_started = false :: st)
    (hro : s.rotation_option = (m : Int)) :
    (∃ s1 s2, rotateOf tr m s = some s1 ∧
      s1.frames.length = 24 * (s.faces.get (turnFace m)).length ∧
      s1.rotation_started = true :: st ∧
      finish s1 = some s2 ∧ s2.faces = turnSets m s.faces ∧
      s2.cubes.length = s.cubes.length ∧
      ((s.faces.get (turnFace m)).Nodup →
        ∀ i c, (s.faces.get (turnFace m))[i]? = some c →
          s2.cubes[c]? = s1.frames[i * 24 + 23]? ∧ (s2.cubes[c]?).isSome = true)) ∧
    (∀ (s0 : State) (evs : List Event) (s' : State),
      run tr evs (reset_cubes s0) = some s' → ∀ f, (s'.faces.get f).length = 9) := by
  constructor
  · obtain ⟨fr, hfr⟩ := primeLoop_isSome tr (signOf m) (axisOf m) (s.faces.get (turnFace m)) hb
    obtain ⟨hlen, hget⟩ := primeLoop_getElem _ hfr
    obtain ⟨n0, n1, n2, n3, hrow, -⟩ := moveRow_turning hm
    obtain ⟨s1, hs1⟩ : ∃ s1 : State, s1 =
        { s with frames := fr, frame_cnt := 0, rotation_started := true :: st } := ⟨_, rfl⟩
    have hrot : rotateOf tr m s = some s1 := by
      rw [rotateOf_eq tr hm, hs1]
      simp only [rotate, hst, hfr]
    have g1 : s1.rotation_options = front :: q := by rw [hs1]; exact hq
    have g2 : s1.rotation_started = true :: st := by rw [hs1]
    have g3 : s1.rotation_option = (m : Int) := by rw [hs1]; exact hro
    have g4 : s1.frames = fr := by rw [hs1]
    have g5 : s1.cubes = s.cubes := by rw [hs1]
    have g6 : s1.faces = s.faces := by rw [hs1]
    have hr' : ∃ r, commitLoop n0 n1 n2 n3 fr (s.faces.get (turnFace m)) 0 s.cubes s.faces
        = some r :=
      commitLoop_isSome n0 n1 n2 n3 _ 0 _ _ (by rw [hlen]; omega) hb
    obtain ⟨r, hr⟩ := hr'
    obtain ⟨rc, rF⟩ := r
    have hcb : commitBlocks s1 = some (rc, rF) := by
      simp only [commitBlocks, g3, Int.toNat_ofNat, Int.ofNat_nonneg, if_true, hrow, g4, g5, g6]
      exact hr
    have hfin : ∃ s2, finish s1 = some s2 ∧ s2.cubes = rc ∧ s2.faces = rF := by
      simp only [finish, hcb, g1, g2]
      exact ⟨_, rfl, rfl, rfl⟩
    obtain ⟨s2, hs2, hc2, hf2⟩ := hfin
    have hfaces : rF = turnSets m s.faces := by
      have := commitLoop_faces _ _ _ _ hr
      simp only at this
      rw [this]
      simp only [turnSets, hrow]
    refine ⟨s1, s2, hrot, by rw [g4, hlen]; omega, g2, hs2, by rw [hf2, hfaces],
      by rw [hc2]; exact commitLoop_length _ _ _ _ hr, ?_⟩
    intro hN i c hi
    have hfrX : ∀ j d, (s.faces.get (turnFace m))[j]? = some d →
        fr[(0 + j) * 24 + 23]? =
          some (fr.getD ((s.faces.get (turnFace m)).indexOf d * 24 + 23) 1) := by
      intro j d hj
      obtain ⟨hjlt, hjd⟩ := List.getElem?_eq_some_iff.mp hj
      have hidx : (s.faces.get (turnFace m)).indexOf d = j := by
        rw [← hjd]
        exact List.indexOf_getElem hN j hjlt
      have hlt : (0 + j) * 24 + 23 < fr.length := by rw [hlen]; omega
      rw [hidx, List.getElem?_eq_getElem hlt, List.getD_eq_getElem?_getD,
        show j * 24 + 23 = (0 + j) * 24 + 23 by omega, List.getElem?_eq_getElem hlt]
      rfl
    obtain ⟨-, hcubes⟩ := commitLoop_cubes _ _ hN 0 s.cubes s.faces hfrX hr
    have hmem : c ∈ s.faces.get (turnFace m) := List.getElem?_mem hi
    have hval := hcubes c
    rw [if_pos hmem] at hval
    have e := hfrX i c hi
    rw [Nat.zero_add] at e
    rw [hc2, g4, hval, e]
    exact ⟨rfl, rfl⟩
  · intro s0 evs s' h f
    exact faceInv_length (faceInv_run evs (sync_reset s0) faceInv_solved h) f

set_option maxRecDepth 100000 in
theorem shortFront_regs :
    (∀ c ∈ (fetch shortFront).faces.get (turnFace 0), c < (fetch shortFront).cubes.length) ∧
    (fetch shortFront).rotation_options = [0] ∧
    (fetch shortFront).rotation_started = [false] ∧
    (fetch shortFront).rotation_option = ((0 : Nat) : Int) := by
  decide

/-- Witness for the amended C34: the state `shortFront` after the first statement of `play`
(the front turn is the current move), with eight cubies in the front set. -/
theorem turn_has_no_member_check_witness :
    0 < 12 ∧
    (∀ c ∈ (fetch shortFront).faces.get (turnFace 0), c < (fetch shortFront).cubes.length) ∧
    (fetch shortFront).rotation_options = [0] ∧
    (fetch shortFront).rotation_started = [false] ∧
    (fetch shortFront).rotation_option = ((0 : Nat) : Int) ∧
    ((∃ s1 s2, rotateOf sampleTrig 0 (fetch shortFront) = some s1 ∧
      s1.frames.length = 24 * ((fetch shortFront).faces.get (turnFace 0)).length ∧
      s1.rotation_started = true :: [] ∧
      finish s1 = some s2 ∧ s2.faces = turnSets 0 (fetch shortFront).faces ∧
      s2.cubes.length = (fetch shortFront).cubes.length ∧
      (((fetch shortFront).faces.get (turnFace 0)).Nodup →
        ∀ i c, ((fetch shortFront).faces.get (turnFace 0))[i]? = some c →
          s2.cubes[c]? = s1.frames[i * 24 + 23]? ∧ (s2.cubes[c]?).isSome = true)) ∧
    (∀ (s0 : State) (evs : List Event) (s' : State),
      run sampleTrig evs (reset_cubes s0) = some s' → ∀ f, (s'.faces.get f).length = 9)) :=
  ⟨by decide, shortFront_regs.1, shortFront_regs.2.1, shortFront_regs.2.2.1,
    shortFront_regs.2.2.2,
    turn_has_no_member_check sampleTrig 0 (fetch shortFront) 0 [] [] (by decide)
      shortFront_regs.1 shortFront_regs.2.1 shortFront_regs.2.2.1 shortFront_regs.2.2.2⟩

/-! ## Picking with a singular system -/

theorem inverse_eq_cofactors (M : Matrix (Fin 3) (Fin 3) ℚ) :
    inverse M = if det3 M = 0 then none else some ((det3 M)⁻¹ • cofactors M) := rfl

theorem Flt.mul_not_finite_left {x : Flt} (h : x.isFinite = false) (y : Flt) :
    (Flt.mul x y).isFinite = false := by
  cases x with
  | fin q => simp [Flt.isFinite] at h
  | pinf => cases y <;> simp only [Flt.mul] <;> (repeat' split) <;> rfl
  | ninf => cases y <;> simp only [Flt.mul] <;> (repeat' split) <;> rfl
  | nan => cases y <;> rfl

theorem Flt.add_not_finite_left {x : Flt} (h : x.isFinite = false) (y : Flt) :
    (Flt.add x y).isFinite = false := by
  cases x with
  | fin q => simp [Flt.isFinite] at h
  | pinf => cases y <;> rfl
  | ninf => cases y <;> rfl
  | nan => cases y <;> rfl

theorem Flt.unit_interval_finite {x : Flt} (h0 : Flt.le (.fin 0) x = true)
    (h1 : Flt.le x (.fin 1) = true) : x.isFinite = true := by
  cases x <;> simp [Flt.le, Flt.isFinite] at h0 h1 ⊢

theorem ieeeInverse_singular (z : Bool) {M : Matrix (Fin 3) (Fin 3) ℚ} (h : det3 M = 0)
    (i j : Fin 3) : (ieeeInverse z M i j).isFinite = false := by
  unfold ieeeInverse invdet
  rw [if_pos h]
  cases z <;> simp only [Flt.mul, Bool.false_eq_true, if_false, if_true] <;>
    (repeat' split) <;> rfl

theorem ieeeAnswer_singular (z : Bool) {M : Matrix (Fin 3) (Fin 3) ℚ} (h : det3 M = 0)
    (r : Fin 3 → ℚ) (i : Fin 3) : (ieeeAnswer z M r i).isFinite = false := by
  unfold ieeeAnswer
  exact Flt.add_not_finite_left
    (Flt.add_not_finite_left (Flt.mul_not_finite_left (ieeeInverse_singular z h i 0) _) _) _

/-- With determinant 0 the test of the picking loop fails in IEEE arithmetic. -/
theorem ieeeHit_singular (z : Bool) {M : Matrix (Fin 3) (Fin 3) ℚ} (h : det3 M = 0)
    (r : Fin 3 → ℚ) : ieeeHit (ieeeAnswer z M r) = false := by
  have h0 := ieeeAnswer_singular z h r 0
  cases hh : ieeeHit (ieeeAnswer z M r) with
  | false => rfl
  | true =>
    simp only [ieeeHit, Bool.and_eq_true] at hh
    have := Flt.unit_interval_finite hh.1.1.1.1.1 hh.1.1.1.1.2
    rw [h0] at this
    exact absurd this (by simp)

/-- With a determinant other than 0 the IEEE values are the numbers of the exact model. -/
theorem ieeeAnswer_regular (z : Bool) {M N : Matrix (Fin 3) (Fin 3) ℚ}
    (h : inverse M = some N) (r : Fin 3 → ℚ) :
    (∀ i, ieeeAnswer z M r i = .fin (N.mulVec r i)) ∧
      ieeeHit (ieeeAnswer z M r) = isHit (N.mulVec r) := by
  rw [inverse_eq_cofactors] at h
  split at h
  · exact absurd h (by simp)
  · rename_i hd
    simp only [Option.some.injEq] at h
    subst h
    have key : ∀ i, ieeeAnswer z M r i = .fin (((det3 M)⁻¹ • cofactors M).mulVec r i) := by
      intro i
      simp only [ieeeAnswer, ieeeInverse, invdet, if_neg hd, Flt.mul, Flt.add, Matrix.mulVec,
        Matrix.dotProduct, Fin.sum_univ_three, Matrix.smul_apply, smul_eq_mul]
      congr 1
      ring
    refine ⟨key, ?_⟩
    simp only [ieeeHit, key, Flt.le, Flt.add, isHit]
    simp only [Bool.decide_and, Bool.and_assoc]

theorem collinear_corner (k : Fin 3) :
    corner 1 1 collinearMesh k.val = some ![(k.val : ℚ), 0, 0] := by
  fin_cases k <;>
    · simp only [corner, collinearMesh, mul_one, Matrix.one_mulVec]
      simp

theorem collinear_det :
    (coeff ![((0 : Fin 3).val : ℚ), 0, 0] ![((1 : Fin 3).val : ℚ), 0, 0]
      ![((2 : Fin 3).val : ℚ), 0, 0]).det = 0 := by
  rw [← det3_eq]
  simp [det3, coeff, ray_direction]

/-- C35. Geometric degeneracy is not a hit.  For every triangle of a cube whose system
`[b - a, c - a, -d]` has determinant 0 (`a`, `b`, `c` the transformed vertices, `d` the ray
direction): the test of the picking loop fails on the values that `coeff.inverse() *
(ray_origin - a)` has in IEEE arithmetic (infinities or NaN, whatever the sign of the zero
determinant), the triangle is not a hit, and the pass of the inner loop for it leaves
`intersection_found`, `min_param` and `selected_obj` as they are: it neither sets the
selection nor marks an intersection as found.  A press on a scene that consists of such a
triangle clears the selection. -/
theorem degenerate_is_no_hit (view : Mat) (o : Fin 3 → ℚ) (m : Nat) (T : Mat) (mesh : Mesh)
    (tri : Fin 3 → Nat) (a b c : Fin 3 → ℚ)
    (ha : corner view T mesh (tri 0) = some a) (hb : corner view T mesh (tri 1) = some b)
    (hc : corner view T mesh (tri 2) = some c) (hdet : (coeff a b c).det = 0) :
    (∀ negativeZero, ieeeHit (ieeeAnswer negativeZero (coeff a b c) (o - a)) = false) ∧
    triangleHit view o m T mesh tri = none ∧
    (∀ p, triangleLoop view o m T mesh [tri] p = some p) ∧
    (∀ rest p, triangleLoop view o m T mesh (tri :: rest) p =
      triangleLoop view o m T mesh rest p) ∧
    (∀ x y sel, mesh.F = [tri] → pick view x y [(mesh, T)] sel = some (-1)) := by
  rw [← det3_eq] at hdet
  have hinv : inverse (coeff a b c) = none := by
    rw [inverse_eq_cofactors, if_pos hdet]
  have hans : ∀ o, answer view o T mesh tri = some none := by
    intro o
    unfold answer
    rw [ha, hb, hc]
    simp only [hinv, Option.map_none']
  have hloop : ∀ o rest p, triangleLoop view o m T mesh (tri :: rest) p =
      triangleLoop view o m T mesh rest p := by
    intro o rest p
    simp only [triangleLoop, hans o, record]
  refine ⟨fun z => ieeeHit_singular z hdet _, ?_, fun p => ?_, hloop o, ?_⟩
  · unfold triangleHit
    rw [hans o]
  · rw [hloop o]
    rfl
  · intro x y sel hF
    simp only [pick, cubeLoop, hF, triangleLoop, hans, record, Option.map_some']
    rfl

/-- Witness for C35: a triangle with three vertices on a line. -/
theorem degenerate_is_no_hit_witness :
    corner 1 1 collinearMesh ((![0, 1, 2] : Fin 3 → Nat) 0) = some ![((0 : Fin 3).val : ℚ), 0, 0] ∧
    corner 1 1 collinearMesh ((![0, 1, 2] : Fin 3 → Nat) 1) = some ![((1 : Fin 3).val : ℚ), 0, 0] ∧
    corner 1 1 collinearMesh ((![0, 1, 2] : Fin 3 → Nat) 2) = some ![((2 : Fin 3).val : ℚ), 0, 0] ∧
    (coeff ![((0 : Fin 3).val : ℚ), 0, 0] ![((1 : Fin 3).val : ℚ), 0, 0]
      ![((2 : Fin 3).val : ℚ), 0, 0]).det = 0 ∧
    ((∀ negativeZero, ieeeHit (ieeeAnswer negativeZero
        (coeff ![((0 : Fin 3).val : ℚ), 0, 0] ![((1 : Fin 3).val : ℚ), 0, 0]
          ![((2 : Fin 3).val : ℚ), 0, 0])
        (![0, 0, 1] - ![((0 : Fin 3).val : ℚ), 0, 0])) = false) ∧
    triangleHit 1 ![0, 0, 1] 0 1 collinearMesh ![0, 1, 2] = none ∧
    (∀ p, triangleLoop 1 ![0, 0, 1] 0 1 collinearMesh [![0, 1, 2]] p = some p) ∧
    (∀ rest p, triangleLoop 1 ![0, 0, 1] 0 1 collinearMesh (![0, 1, 2] :: rest) p =
      triangleLoop 1 ![0, 0, 1] 0 1 collinearMesh rest p) ∧
    (∀ x y sel, collinearMesh.F = [![0, 1, 2]] →
      pick 1 x y [(collinearMesh, 1)] sel = some (-1))) :=
  ⟨collinear_corner 0, collinear_corner 1, collinear_corner 2, collinear_det,
    degenerate_is_no_hit 1 ![0, 0, 1] 0 1 collinearMesh ![0, 1, 2] _ _ _
      (collinear_corner 0) (collinear_corner 1) (collinear_corner 2) collinear_det⟩

end Rubik
